import Mathlib

/-!
# LZUF (lzuf22.c): a shallow embedding of the compressor and its properties

The C program keeps its state in globals (`win_buf`, `pattern`, `win_cnt`,
`pat_cnt`, `buf_cnt`, the hash-chain arrays, the bit sink).  Here every
operation takes the state it reads and returns the state it writes.

* arrays are total functions on indices (`Nat → Byte`, `Nat → Option Nat`);
  every access of the source is masked, so no access is out of range;
* `x & MASK` is kept as `&&&`; the lemmas `and_WIN_MASK`, `and_PAT_MASK` turn
  it into `%`;
* `buf_cnt` is a C `int` and is an `Int` here, the cursors are `Nat`;
* loops are recursive functions on a counter that bounds the iterations;
* the files `gtbitio.c`, `lzhash.c`, `mtf.c` and `ucodes.c` the program
  includes are not at hand: the few functions of them the program calls are
  modelled from the specification, each marked so.

The definitions come first: the program, then the reference decoder and the
predicates the properties are stated with; the lemmas and the properties
follow.
-/

namespace LZUF

/-! ## Constants (lines 35-54) -/

/-- A byte, `unsigned char`. -/
abbrev Byte := Fin 256

abbrev LTCB : Nat := 17
abbrev NUM_POS_BITS : Nat := LTCB
abbrev WIN_BUFSIZE : Nat := 1 <<< NUM_POS_BITS
abbrev WIN_MASK : Nat := WIN_BUFSIZE - 1
abbrev HASH_SHIFT : Nat := NUM_POS_BITS - 8
abbrev PAT_BUFSIZE : Nat := WIN_BUFSIZE >>> 1
abbrev PAT_MASK : Nat := PAT_BUFSIZE - 1
abbrev MIN_LEN : Nat := 4
abbrev NMATCH : Nat := 196
abbrev FAR_LIST_BITS : Nat := 12
abbrev FAR_LIST : Nat := 1 <<< FAR_LIST_BITS
abbrev HASH_BYTES_N : Nat := 4
abbrev MFOLD : Nat := 2

/-- The macro `hash(buf,pos,mask1,mask2)` (lines 56-60).  In C `<<` binds
tighter than `&`, which binds tighter than `^`: the mask `mask2` applies to
the fourth term only. -/
def hash (buf : Nat → Byte) (pos mask1 mask2 : Nat) : Nat :=
  ((buf (pos &&& mask1)).val <<< HASH_SHIFT)
    ^^^ ((buf ((pos + 1) &&& mask1)).val <<< 1)
    ^^^ ((buf ((pos + 2) &&& mask1)).val <<< 4)
    ^^^ (((buf ((pos + 3) &&& mask1)).val <<< 7) &&& mask2)

/-- The pair `dpos_t` (lines 67-69). -/
structure dpos_t where
  pos : Nat
  len : Nat
deriving DecidableEq, Repr

/-! ## The match finder `search` (lines 222-283) -/

/-- The sentinel `LZ_NULL` of the chain arrays: no link. -/
abbrev LZ_NULL : Option Nat := none

/-- The `do ... while ((--k) >= 0)` of lines 253-258: compare the lookahead
with the window from offset `k` down to offset 0; `j` is the lookahead index
of offset `k` and steps down with wraparound.  `false` is the
`goto skip_search`. -/
def contextScan (w p : Nat → Byte) (i : Nat) : Nat → Nat → Bool
  | j, 0 => decide (p j = w ((i + 0) &&& WIN_MASK))
  | j, k + 1 =>
    if p j ≠ w ((i + (k + 1)) &&& WIN_MASK) then false
    else contextScan w p i (if j = 0 then PAT_BUFSIZE - 1 else j - 1) k

/-- The `while` of lines 264-265, entered with `k < buf_cnt`: extend the match
to the right while the bytes agree and `++k < buf_cnt`.  The first argument
bounds the iterations; `buf_cnt - k` of them are enough. -/
def suffixScan (w p : Nat → Byte) (i : Nat) (buf_cnt : Int) : Nat → Nat → Nat → Nat
  | 0, _, k => k
  | fuel + 1, j, k =>
    if p (j &&& PAT_MASK) = w ((i + k) &&& WIN_MASK) then
      if ((k + 1 : Nat) : Int) < buf_cnt then suffixScan w p i buf_cnt fuel (j + 1) (k + 1)
      else k + 1
    else k

/-- Lines 261-265: the suffix extension from offset `len + 1`. -/
def suffixLen (w p : Nat → Byte) (i pat_cnt : Nat) (buf_cnt : Int) (len : Nat) : Nat :=
  if ((len + 1 : Nat) : Int) < buf_cnt then
    suffixScan w p i buf_cnt (buf_cnt - ((len + 1 : Nat) : Int)).toNat
      ((pat_cnt + len + 1) &&& PAT_MASK) (len + 1)
  else len + 1

/-- The locals of `search` that live across iterations, and the list of the
chain entries examined so far (a record of the run, oldest first; the code
does not keep it). -/
structure SearchState where
  dpos : dpos_t
  m : Nat
  n : Nat
  examined : List Nat

/-- The `while ( i != LZ_NULL )` of lines 230-280.  The first argument bounds
the iterations: every iteration that does not leave the loop increments `m`,
and the loop is left when `m` reaches `FAR_LIST`. -/
def searchLoop (w p : Nat → Byte) (pat_cnt : Nat) (buf_cnt : Int)
    (lznext : Nat → Option Nat) : Nat → Option Nat → SearchState → SearchState
  | 0, _, st => st
  | _ + 1, none, st => st
  | fuel + 1, some i, st =>
    let st0 : SearchState := { st with examined := st.examined ++ [i] }
    if contextScan w p i ((pat_cnt + st.dpos.len) &&& PAT_MASK) st.dpos.len then
      let k := suffixLen w p i pat_cnt buf_cnt st.dpos.len
      let st1 : SearchState := { st0 with dpos := ⟨i, k⟩ }
      if (k : Int) = buf_cnt then st1
      else if st1.n + 1 = NMATCH then { st1 with n := st1.n + 1 }
      else if st1.m + 1 = FAR_LIST then { st1 with n := st1.n + 1, m := st1.m + 1 }
      else searchLoop w p pat_cnt buf_cnt lznext fuel (lznext i)
        { st1 with n := st1.n + 1, m := st1.m + 1 }
    else if st0.m + 1 = FAR_LIST then { st0 with m := st0.m + 1 }
    else searchLoop w p pat_cnt buf_cnt lznext fuel (lznext i) { st0 with m := st0.m + 1 }

/-- The function `search` with its locals at the return: `dpos = {0,0}`,
`m = n = 0`, the chain head read from `lzhash`, and the loop only when
`buf_cnt > 1`. -/
def searchRun (w p : Nat → Byte) (pat_cnt : Nat) (buf_cnt : Int)
    (lzhash lznext : Nat → Option Nat) : SearchState :=
  let i := lzhash (hash p pat_cnt PAT_MASK WIN_MASK)
  if buf_cnt > 1 then searchLoop w p pat_cnt buf_cnt lznext FAR_LIST i ⟨⟨0, 0⟩, 0, 0, []⟩
  else ⟨⟨0, 0⟩, 0, 0, []⟩

/-- The value `search` returns. -/
def search (w p : Nat → Byte) (pat_cnt : Nat) (buf_cnt : Int)
    (lzhash lznext : Nat → Option Nat) : dpos_t :=
  (searchRun w p pat_cnt buf_cnt lzhash lznext).dpos

/-! ## The hash chains (`lzhash.c`, included at line 30) -/

/-- The three arrays of `lzhash.c`: `lzhash[h]` is the head of the chain of
bucket `h`, `lznext[i]` and `lzprev[i]` the neighbours of position `i` in its
chain. -/
structure LzIndex where
  lzhash : Nat → Option Nat
  lznext : Nat → Option Nat
  lzprev : Nat → Option Nat

/-- Modelled from the spec: `alloc_lzhash` of `lzhash.c`, which is not part of
the sources at hand.  The spec has a sentinel mark an empty slot and the end
of a chain: a fresh index has every bucket and every link empty. -/
def alloc_lzhash : LzIndex := ⟨fun _ => LZ_NULL, fun _ => LZ_NULL, fun _ => LZ_NULL⟩

/-- Modelled from the spec: `insert_lznode` of `lzhash.c`, which is not part
of the sources at hand.  The spec: "`insert(bucket, position)` pushes to the
bucket's chain head", the index being two parallel arrays of links (next,
previous) with a sentinel for "no link". -/
def insert_lznode (ix : LzIndex) (h i : Nat) : LzIndex :=
  match ix.lzhash h with
  | none =>
    { lzhash := Function.update ix.lzhash h (some i)
      lznext := Function.update ix.lznext i LZ_NULL
      lzprev := Function.update ix.lzprev i LZ_NULL }
  | some k =>
    { lzhash := Function.update ix.lzhash h (some i)
      lznext := Function.update ix.lznext i (some k)
      lzprev := Function.update (Function.update ix.lzprev i LZ_NULL) k (some i) }

/-- Modelled from the spec: `delete_lznode` of `lzhash.c`, which is not part
of the sources at hand.  The spec: "`remove(bucket, position)` removes that
position from wherever it sits in the chain", in O(1) through the two link
arrays: the neighbours of `i` are linked to each other (the bucket head takes
the place of a missing predecessor) and the links of `i` are emptied. -/
def delete_lznode (ix : LzIndex) (h i : Nat) : LzIndex :=
  let nx := ix.lznext i
  let pv := ix.lzprev i
  let hd := match pv with
    | none => Function.update ix.lzhash h nx
    | some _ => ix.lzhash
  let nxt := match pv with
    | none => ix.lznext
    | some q => Function.update ix.lznext q nx
  let prv := match nx with
    | none => ix.lzprev
    | some r => Function.update ix.lzprev r pv
  { lzhash := hd
    lznext := Function.update nxt i LZ_NULL
    lzprev := Function.update prv i LZ_NULL }

/-! ## The bit sink, the recency table and the session state -/

/-- What the program hands to the bit sink and to the integer coder
(`gtbitio.c`, `ucodes.c`): `put_ONE`/`put_ZERO` write the bit `b`,
`put_nbits(v, n)` a field of `n` bits, `put_vlcode(v, g)` the integer `v`
with group width `g`. -/
inductive Emit where
  | bit (b : Nat)
  | nbits (v n : Nat)
  | vlcode (v g : Nat)
deriving DecidableEq, Repr

/-- Modelled from the spec: `alloc_mtf(256)` of `mtf.c`, which is not part of
the sources at hand: the recency table starts in identity order. -/
def alloc_mtf : List Byte := List.finRange 256

/-- Modelled from the spec: `mtf` of `mtf.c`, which is not part of the sources
at hand: "`rank(byteValue) → 0..255`, moving `byteValue` to rank 0 as a side
effect". -/
def mtf (table : List Byte) (k : Byte) : Nat × List Byte :=
  (table.indexOf k, k :: table.erase k)

/-- The globals of the program. `gIN` is the part of the input file not read
yet, `pOUT` what has been written to the bit sink after the header. -/
structure Session where
  win_buf : Nat → Byte
  pattern : Nat → Byte
  win_cnt : Nat
  pat_cnt : Nat
  buf_cnt : Int
  lz : LzIndex
  large_text : Nat
  len_CODE : Nat
  mtf_table : List Byte
  gIN : List Byte
  pOUT : List Emit

/-- Modelled from the spec: `put_ONE` of `gtbitio.c`, which is not part of the
sources at hand: "`writeBit(0|1)` appends one bit to the stream". -/
def put_ONE (s : Session) : Session := { s with pOUT := s.pOUT ++ [Emit.bit 1] }

/-- Modelled from the spec: `put_ZERO` of `gtbitio.c`, which is not part of
the sources at hand: "`writeBit(0|1)` appends one bit to the stream". -/
def put_ZERO (s : Session) : Session := { s with pOUT := s.pOUT ++ [Emit.bit 0] }

/-- Modelled from the spec: `put_nbits` of `gtbitio.c`, which is not part of
the sources at hand: "`writeBits(value, n)` appends the low `n` bits of
`value`"; the field is recorded as one event. -/
def put_nbits (s : Session) (v n : Nat) : Session :=
  { s with pOUT := s.pOUT ++ [Emit.nbits v n] }

/-- Modelled from the spec: `put_vlcode` of `ucodes.c`, which is not part of
the sources at hand: "`encode(value, groupWidth)` writes a non-negative
integer"; its layout is the coder's own, the call is recorded as one event. -/
def put_vlcode (s : Session) (v g : Nat) : Session :=
  { s with pOUT := s.pOUT ++ [Emit.vlcode v g] }

/-! ## `put_codes` (lines 304-374) -/

/-- The `while ( i-- ) put_ONE();` of lines 318-320. -/
def put_ONEs : Nat → Session → Session
  | 0, s => s
  | i + 1, s => put_ONEs i (put_ONE s)

/-- Lines 309-323: the length code of a match longer than `MIN_LEN`.
`dpos->len` is unsigned and greater than 4 under the guard, so
`dpos->len - (MIN_LEN+1)` does not wrap. -/
def put_length (s : Session) (dpos : dpos_t) : Session :=
  if dpos.len > MIN_LEN then
    let code := dpos.len - (MIN_LEN + 1)
    let s1 : Session := { s with len_CODE := code }
    if s1.large_text = 0 then put_vlcode s1 code 1
    else put_nbits (put_ONEs (code >>> MFOLD) s1) ((code % (1 <<< MFOLD)) <<< 1) (MFOLD + 1)
  else s

/-- Lines 326-336: the position of a match, or the byte with `dpos->len`
forced to 1. -/
def put_position (s : Session) (dpos : dpos_t) : Session × dpos_t :=
  if dpos.len ≥ MIN_LEN then (put_nbits s dpos.pos NUM_POS_BITS, dpos)
  else
    let k := s.pattern s.pat_cnt
    let r := mtf s.mtf_table k
    (put_vlcode { s with mtf_table := r.2 } r.1 3, { dpos with len := 1 })

/-- Lines 339-342: the leftmost position whose hash changes. -/
def leftmost (win_cnt : Nat) : Nat :=
  if win_cnt < HASH_BYTES_N - 1 then WIN_BUFSIZE + win_cnt - (HASH_BYTES_N - 1)
  else win_cnt - (HASH_BYTES_N - 1)

/-- Lines 345-347: remove `cnt` positions from `k` on from their chains. -/
def delete_range (win_buf : Nat → Byte) (k cnt : Nat) (ix : LzIndex) : LzIndex :=
  (List.range cnt).foldl
    (fun ix i => delete_lznode ix (hash win_buf (k + i) WIN_MASK WIN_MASK) ((k + i) &&& WIN_MASK)) ix

/-- Lines 349-354: copy `i` bytes of the lookahead to the window, the last
byte first. -/
def slide_copy (pattern : Nat → Byte) (win_cnt pat_cnt : Nat) : Nat → (Nat → Byte) → (Nat → Byte)
  | 0, w => w
  | i + 1, w =>
    slide_copy pattern win_cnt pat_cnt i
      (Function.update w ((win_cnt + i) &&& WIN_MASK) (pattern ((pat_cnt + i) &&& PAT_MASK)))

/-- Lines 357-359: insert `cnt` positions from `k` on in the chains of
their hashes. -/
def insert_range (win_buf : Nat → Byte) (k cnt : Nat) (ix : LzIndex) : LzIndex :=
  (List.range cnt).foldl
    (fun ix i => insert_lznode ix (hash win_buf (k + i) WIN_MASK WIN_MASK) ((k + i) &&& WIN_MASK)) ix

/-- Lines 362-368: read up to `dpos->len` bytes into the slots just consumed.
The first argument is `dpos->len - i`.  The reader `gfgetc` of `gtbitio.c` is
taken from the spec ("`nextByte()` returns the next input byte or an
end-of-stream indicator"): the head of the unread input, `EOF` when none is
left.  Returns the final `i`, the input left and the lookahead. -/
def refill (pat_cnt : Nat) : Nat → Nat → List Byte → (Nat → Byte) → Nat × List Byte × (Nat → Byte)
  | 0, i, g, p => (i, g, p)
  | _ + 1, i, [], p => (i, [], p)
  | r + 1, i, b :: g, p =>
    refill pat_cnt r (i + 1) g (Function.update p ((pat_cnt + i) &&& PAT_MASK) b)

/-- The function `put_codes`; the second component is `*dpos` at the return. -/
def put_codes (s : Session) (dpos : dpos_t) : Session × dpos_t :=
  let s1 := put_length s dpos
  let (s2, dpos) := put_position s1 dpos
  let k := leftmost s2.win_cnt
  let ix1 := delete_range s2.win_buf k (dpos.len + (HASH_BYTES_N - 1)) s2.lz
  let w := slide_copy s2.pattern s2.win_cnt s2.pat_cnt dpos.len s2.win_buf
  let ix2 := insert_range w k (dpos.len + (HASH_BYTES_N - 1)) ix1
  let (i, g, p) := refill s2.pat_cnt dpos.len 0 s2.gIN s2.pattern
  ({ s2 with
      win_buf := w
      pattern := p
      lz := ix2
      gIN := g
      buf_cnt := s2.buf_cnt - ((dpos.len - i : Nat) : Int)
      win_cnt := (s2.win_cnt + dpos.len) &&& WIN_MASK
      pat_cnt := (s2.pat_cnt + dpos.len) &&& PAT_MASK }, dpos)

/-! ## `main` (lines 84-201) -/

/-- The record `file_stamp` (lines 62-65). -/
structure file_stamp where
  algorithm : List Nat
  file_size : Nat
deriving DecidableEq, Repr

/-- Lines 121-122. -/
def large_text_of (in_file_len : Nat) : Nat := if in_file_len < 1048576 then 0 else 1

/-- Lines 120-124: `strcpy( fstamp.algorithm, "LZU" )`, then the flag in
`algorithm[3]` and the input length (taken to fit `unsigned long`). -/
def stamp (in_file_len : Nat) : file_stamp :=
  ⟨[76, 90, 85, large_text_of in_file_len], in_file_len⟩

/-- Lines 137-141: every position of the zeroed window is linked in. -/
def init_index (win_buf : Nat → Byte) (ix : LzIndex) : LzIndex :=
  (List.range WIN_BUFSIZE).foldl
    (fun ix i =>
      insert_lznode
        { ix with lznext := Function.update ix.lznext i LZ_NULL
                  lzprev := Function.update ix.lzprev i LZ_NULL }
        (hash win_buf i WIN_MASK WIN_MASK) i) ix

/-- The state at the head of the first loop iteration (lines 114-153): the
window zeroed and indexed, the first `PAT_BUFSIZE` bytes of the file in the
lookahead (a global, zero before), the rest of the file to be read by
`gfgetc`. -/
def init (file : List Byte) : Session :=
  { win_buf := fun _ => 0
    pattern := fun j => (file.take PAT_BUFSIZE).getD j 0
    win_cnt := 0
    pat_cnt := 0
    buf_cnt := ((file.take PAT_BUFSIZE).length : Int)
    lz := init_index (fun _ => 0) alloc_lzhash
    large_text := large_text_of file.length
    len_CODE := 0
    mtf_table := alloc_mtf
    gIN := file.drop PAT_BUFSIZE
    pOUT := [] }

/-- Lines 159-170: the selector bits. -/
def put_selector (s : Session) (dpos : dpos_t) : Session :=
  if dpos.len > MIN_LEN then put_ONE s
  else if dpos.len = MIN_LEN then put_ONE (put_ZERO s)
  else put_ZERO (put_ZERO s)

/-- A code unit: what one loop iteration transmits. -/
inductive CodeUnit where
  | literal (b : Byte)
  | copy (pos len : Nat)
deriving DecidableEq, Repr

/-- The unit `put_codes` transmits for `dpos` (lines 326-336): the match
`(pos, len)` when `len >= MIN_LEN`, else the byte `pattern[pat_cnt]`. -/
def code_unit (s : Session) (dpos : dpos_t) : CodeUnit :=
  if dpos.len ≥ MIN_LEN then CodeUnit.copy dpos.pos dpos.len
  else CodeUnit.literal (s.pattern s.pat_cnt)

/-- A record of one loop iteration: the state at its head, the number of
input bytes consumed before it, what `search` returned, the unit sent, the
length the buffers slid by and the state at its end. -/
structure Iter where
  pre : Session
  consumed : Nat
  found : dpos_t
  unit : CodeUnit
  len : Nat
  post : Session

/-- The body of the loop (lines 157-173). -/
def iteration (s : Session) (consumed : Nat) : Iter :=
  let dpos := search s.win_buf s.pattern s.pat_cnt s.buf_cnt s.lz.lzhash s.lz.lznext
  let s1 := put_selector s dpos
  let r := put_codes s1 dpos
  { pre := s, consumed := consumed, found := dpos, unit := code_unit s dpos,
    len := r.2.len, post := r.1 }

/-- The loop `while ( buf_cnt > 0 )` of lines 156-174, returning the record
of its iterations and the final state; `none` when the first argument, a
bound on the number of iterations, is used up. -/
def session_loop : Nat → Session → Nat → Option (List Iter × Session)
  | 0, s, _ => if s.buf_cnt > 0 then none else some ([], s)
  | fuel + 1, s, c =>
    if s.buf_cnt > 0 then
      let it := iteration s c
      match session_loop fuel it.post (c + it.len) with
      | none => none
      | some (its, fin) => some (it :: its, fin)
    else some ([], s)

/-- The result of a run: the header, the iterations, the final state. -/
structure Run where
  header : file_stamp
  iters : List Iter
  final : Session

/-- The compressor on the bytes of the input file.  One iteration per input
byte is enough for the loop. -/
def compress (file : List Byte) : Option Run :=
  match session_loop file.length (init file) 0 with
  | none => none
  | some (its, fin) => some ⟨stamp file.length, its, fin⟩

/-- The units of a run, in order. -/
def units (r : Run) : List CodeUnit := r.iters.map Iter.unit


/-! ## The reference decoder of the round-trip property -/

/-- The state of the reference decoder: a window of `WIN_BUFSIZE` bytes, its
cursor, and the output so far. -/
structure Decoder where
  window : Nat → Byte
  cursor : Nat
  output : List Byte

/-- The bytes of a unit: the literal, or the `len` bytes
`window[(pos + j) mod W]`, `j < len`, all read before any is written. -/
def unit_bytes (window : Nat → Byte) : CodeUnit → List Byte
  | CodeUnit.literal b => [b]
  | CodeUnit.copy pos len => (List.range len).map (fun j => window ((pos + j) % WIN_BUFSIZE))

/-- Write the bytes at the cursor, advancing it modulo `WIN_BUFSIZE`. -/
def write_bytes : List Byte → (Nat → Byte) × Nat → (Nat → Byte) × Nat
  | [], wc => wc
  | b :: bs, wc => write_bytes bs (Function.update wc.1 wc.2 b, (wc.2 + 1) % WIN_BUFSIZE)

/-- One unit: read its bytes, append them to the output, write them at the
cursor. -/
def decode_unit (d : Decoder) (u : CodeUnit) : Decoder :=
  let bs := unit_bytes d.window u
  let wc := write_bytes bs (d.window, d.cursor)
  ⟨wc.1, wc.2, d.output ++ bs⟩

/-- Replay the units from a zero-filled window with cursor 0. -/
def ref_decode (us : List CodeUnit) : Decoder :=
  us.foldl decode_unit ⟨fun _ => 0, 0, []⟩

/-! ## Predicates used to state the properties -/

/-- The bytes of the window from `pos` agree with the bytes of the lookahead
from `pat_cnt` at every offset below `len`. -/
def Agree (w p : Nat → Byte) (pat_cnt pos len : Nat) : Prop :=
  ∀ j, j < len → w ((pos + j) % WIN_BUFSIZE) = p ((pat_cnt + j) % PAT_BUFSIZE)

/-- The length the buffers slide by: `dpos->len` after lines 326-336. -/
def slide_len (d : dpos_t) : Nat := if d.len ≥ MIN_LEN then d.len else 1

/-- The state at the head of a loop iteration, `c` bytes of `file` being
consumed: the lookahead holds the next `min(W/2, n - c)` bytes from its
cursor on, the window the last `min(c, W)` bytes up to its cursor and zeros
elsewhere, the rest of the file is still to be read. -/
structure Inv (file : List Byte) (c : Nat) (s : Session) : Prop where
  le : c ≤ file.length
  buf : s.buf_cnt = ((min 65536 (file.length - c) : Nat) : Int)
  gin : s.gIN = file.drop (c + min 65536 (file.length - c))
  pat : s.pat_cnt = c % 65536
  win : s.win_cnt = c % 131072
  look : ∀ j, j < min 65536 (file.length - c) →
    s.pattern ((c + j) % 65536) = file.getD (c + j) 0
  recent : ∀ q, q < c → c ≤ q + 131072 → s.win_buf (q % 131072) = file.getD q 0
  zero : ∀ x, c ≤ x → s.win_buf x = 0
  flag : s.large_text = large_text_of file.length

/-- The list `its` records the run of the loop from the state `s`, `c` bytes
being consumed, and `fin` is the state the loop ends in. -/
def Trace : Session → Nat → List Iter → Session → Prop
  | s, _, [], fin => ¬ 0 < s.buf_cnt ∧ fin = s
  | s, c, it :: its, fin =>
    0 < s.buf_cnt ∧ it = iteration s c ∧ Trace it.post (c + it.len) its fin

/-- The next `L` bytes of the file from offset `c`. -/
def chunk (file : List Byte) (c L : Nat) : List Byte :=
  (List.range L).map (fun j => file.getD (c + j) 0)


/-- Follow `lznext` from the entry `cur`, over at most the given number of
entries. -/
def chain_walk (lznext : Nat → Option Nat) : Nat → Option Nat → List Nat
  | 0, _ => []
  | _ + 1, none => []
  | fuel + 1, some i => i :: chain_walk lznext fuel (lznext i)

/-- The chain of the bucket `h`: the positions reached from `lzhash[h]`
through `lznext`.  One entry more than the window has positions is walked,
so that a chain that does not end shows as a repeated position. -/
def chain (ix : LzIndex) (h : Nat) : List Nat :=
  chain_walk ix.lznext (WIN_BUFSIZE + 1) (ix.lzhash h)

/-- Every window position occurs exactly once over all chains, in the chain
of the bucket of its hash in the current window, and nothing else occurs in
a chain. -/
def IndexConsistent (win_buf : Nat → Byte) (ix : LzIndex) : Prop :=
  ∀ b p, (chain ix b).count p
    = if p < WIN_BUFSIZE ∧ b = hash win_buf p WIN_MASK WIN_MASK then 1 else 0

/-- The links `lzprev` along a list of positions: each entry points back to
the entry before it, the first to `pv`. -/
def back_linked (lzprev : Nat → Option Nat) : Option Nat → List Nat → Prop
  | _, [] => True
  | pv, x :: xs => lzprev x = pv ∧ back_linked lzprev (some x) xs

/-- In every chain `lzprev` is the inverse of `lznext`, the head having no
predecessor. -/
def BackLinked (ix : LzIndex) : Prop := ∀ b, back_linked ix.lzprev LZ_NULL (chain ix b)

/-- The list `l` is a doubly linked segment of the index: entered through
`cur`, its first entry pointing back to `pv`, ended by the sentinel. -/
def Seg (ix : LzIndex) : Option Nat → Option Nat → List Nat → Prop
  | _, cur, [] => cur = none
  | pv, cur, x :: xs => cur = some x ∧ ix.lzprev x = pv ∧ Seg ix (some x) (ix.lznext x) xs

/-- The lists `ch b` are the chains of the index. -/
def Rep (ix : LzIndex) (ch : Nat → List Nat) : Prop := ∀ b, Seg ix none (ix.lzhash b) (ch b)

/-- No position occurs twice in the lists `ch b`. -/
def Part (ch : Nat → List Nat) : Prop :=
  (∀ b, (ch b).Nodup) ∧ ∀ b b' x, x ∈ ch b → x ∈ ch b' → b = b'

/-- The lists `ch b` hold the position `p` once when `p` belongs to the
bucket `b` according to `S`, and not at all otherwise. -/
def Cnt (S : Nat → Nat → Prop) (ch : Nat → List Nat) : Prop :=
  ∀ b p, (S b p → (ch b).count p = 1) ∧ (¬ S b p → (ch b).count p = 0)

/-- The index is a family of doubly linked chains that hold exactly the
positions `S` assigns to each bucket. -/
def Good (S : Nat → Nat → Prop) (ix : LzIndex) : Prop := ∃ ch, Rep ix ch ∧ Cnt S ch

/-- The position `p` is one of `(k + i) mod W`, `lo ≤ i < hi`. -/
def InRange (k lo hi p : Nat) : Prop := ∃ i, lo ≤ i ∧ i < hi ∧ p = (k + i) % 131072

/-- The assignment of the window positions outside the range to the bucket
of their hash. -/
def Slots (win_buf : Nat → Byte) (k lo hi : Nat) : Nat → Nat → Prop :=
  fun b p => p < 131072 ∧ ¬ InRange k lo hi p ∧ b = hash win_buf p WIN_MASK WIN_MASK

/-! ## The best candidate of a chain, as the property of `search` words it -/

/-- Count the offsets from `k` on, at most as many as the first argument, at
which the window from `c` agrees with the lookahead from `pat_cnt`; the
result is the first offset at which they differ, or where the count ends. -/
def match_len_from (w p : Nat → Byte) (pat_cnt c : Nat) : Nat → Nat → Nat
  | 0, k => k
  | fuel + 1, k =>
    if w ((c + k) % WIN_BUFSIZE) = p ((pat_cnt + k) % PAT_BUFSIZE) then
      match_len_from w p pat_cnt c fuel (k + 1)
    else k

/-- The length `mlen(c)`: the largest `L ≤ avail` with
`window[(c+j) mod W] = lookahead[(pat_cnt+j) mod (W/2)]` for all `j < L`. -/
def match_len (w p : Nat → Byte) (pat_cnt avail c : Nat) : Nat :=
  match_len_from w p pat_cnt c avail 0

/-- Take the chain entry `c` as the new best when it is strictly longer. -/
def best_step (w p : Nat → Byte) (pat_cnt avail : Nat) (d : dpos_t) (c : Nat) : dpos_t :=
  if d.len < match_len w p pat_cnt avail c then ⟨c, match_len w p pat_cnt avail c⟩ else d

/-- The number of entries of the list that are strictly longer than the best
before them. -/
def improvements (w p : Nat → Byte) (pat_cnt avail : Nat) : dpos_t → List Nat → Nat
  | _, [] => 0
  | d, c :: cs =>
    if d.len < match_len w p pat_cnt avail c then
      1 + improvements w p pat_cnt avail ⟨c, match_len w p pat_cnt avail c⟩ cs
    else improvements w p pat_cnt avail d cs

/-! ## The bits of the folded code under the documented bit sink -/

/-- Modelled from the spec: the bit order of `put_nbits` of `gtbitio.c`,
which is not part of the sources at hand: "`writeBits(value, n)` appends the
low `n` bits of `value`, most significant first". -/
def field_bits (v : Nat) : Nat → List Nat
  | 0 => []
  | n + 1 => (v >>> n) % 2 :: field_bits v n

/-- The bits an event puts on the stream; none for the integer coder, whose
layout is its own. -/
def Emit.bits : Emit → Option (List Nat)
  | Emit.bit b => some [b]
  | Emit.nbits v n => some (field_bits v n)
  | Emit.vlcode _ _ => none

/-- The bits of a list of events, in order. -/
def stream_bits : List Emit → Option (List Nat)
  | [] => some []
  | e :: es =>
    match e.bits, stream_bits es with
    | some a, some b => some (a ++ b)
    | _, _ => none

/-- The bit string of the folded code of `code`: what `put_codes` writes as
the length code of a match of length `code + MIN_LEN + 1` when the large flag
is set. -/
def folded_stream (code : Nat) : Option (List Nat) :=
  stream_bits (put_length { init [] with large_text := 1 } ⟨0, code + (MIN_LEN + 1)⟩).pOUT

/-- The same code with the 3-bit field appended least significant bit
first: the set bits, then the bits of `(code mod 4) << 1` from bit 0 up. -/
def folded_lsb_first (code : Nat) : List Nat :=
  List.replicate (code >>> MFOLD) 1 ++ (field_bits ((code % (1 <<< MFOLD)) <<< 1) (MFOLD + 1)).reverse

/-- The bits an event puts on the stream when the sink appends a field least
significant bit first: the bits of `field_bits` in the opposite order. -/
def Emit.bits_lsb : Emit → Option (List Nat)
  | Emit.bit b => some [b]
  | Emit.nbits v n => some (field_bits v n).reverse
  | Emit.vlcode _ _ => none

/-- The bits of a list of events, fields least significant bit first. -/
def stream_bits_lsb : List Emit → Option (List Nat)
  | [] => some []
  | e :: es =>
    match e.bits_lsb, stream_bits_lsb es with
    | some a, some b => some (a ++ b)
    | _, _ => none

/-- The bit string of the folded code of `code`, fields least significant bit
first: what `put_codes` writes as the length code of a match of length
`code + MIN_LEN + 1` when the large flag is set. -/
def folded_stream_lsb (code : Nat) : Option (List Nat) :=
  stream_bits_lsb (put_length { init [] with large_text := 1 } ⟨0, code + (MIN_LEN + 1)⟩).pOUT

/-- The inverse of the folded code on a bit stream: every set bit read before
the first 0 bit counts 4, the two bits after that 0 bit are the remainder,
low bit first.  Returns the code and the bits that follow it. -/
def unfold_code : List Nat → Option (Nat × List Nat)
  | 1 :: bs => (unfold_code bs).map (fun r => (r.1 + 4, r.2))
  | 0 :: r0 :: r1 :: rest => some (r0 + 2 * r1, rest)
  | _ => none

/-- The number a bit string stands for, most significant bit first. -/
def bits_value : List Nat → Nat
  | [] => 0
  | b :: bs => b * 2 ^ bs.length + bits_value bs

/-! ## Copying a match byte by byte -/

/-- Copy `n` bytes from the window position `src` on to the cursor, one byte
at a time in increasing order, each byte written before the next is read. -/
def overlap_copy : Nat → Nat → Decoder → Decoder
  | 0, _, d => d
  | n + 1, src, d =>
    overlap_copy n (src + 1)
      ⟨Function.update d.window d.cursor (d.window (src % WIN_BUFSIZE)),
        (d.cursor + 1) % WIN_BUFSIZE, d.output ++ [d.window (src % WIN_BUFSIZE)]⟩

/-- One unit, a match being copied byte by byte. -/
def overlap_unit (d : Decoder) : CodeUnit → Decoder
  | CodeUnit.literal b =>
    ⟨Function.update d.window d.cursor b, (d.cursor + 1) % WIN_BUFSIZE, d.output ++ [b]⟩
  | CodeUnit.copy pos len => overlap_copy len pos d

/-- Replay the units from a zero-filled window with cursor 0, matches being
copied byte by byte. -/
def overlap_decode (us : List CodeUnit) : Decoder :=
  us.foldl overlap_unit ⟨fun _ => 0, 0, []⟩

/-- The index after the first `n` positions of the zeroed window are linked
in: one chain, in bucket 0, from `n - 1` down to 0. -/
def index_upto (n : Nat) : LzIndex :=
  ⟨fun h => if h = 0 ∧ 0 < n then some (n - 1) else none,
   fun i => if 0 < i ∧ i < n then some (i - 1) else none,
   fun i => if i + 1 < n then some (i + 1) else none⟩

/-- What is looked at in an iteration of a small run: the unit, the bytes
consumed before, the cursor, and the window at positions 4 to 7 before and
after the slide. -/
structure Summary where
  unit : CodeUnit
  consumed : Nat
  cursor : Nat
  before : List Byte
  after : List Byte
deriving DecidableEq, Repr

/-- The summary of an iteration. -/
def Iter.summary (it : Iter) : Summary :=
  { unit := it.unit, consumed := it.consumed, cursor := it.pre.win_cnt,
    before := [it.pre.win_buf 4, it.pre.win_buf 5, it.pre.win_buf 6, it.pre.win_buf 7],
    after := [it.post.win_buf 4, it.post.win_buf 5, it.post.win_buf 6, it.post.win_buf 7] }

/-! ## Arithmetic of the masks -/

theorem WIN_BUFSIZE_eq : WIN_BUFSIZE = 131072 := rfl

theorem PAT_BUFSIZE_eq : PAT_BUFSIZE = 65536 := rfl

theorem and_WIN_MASK (x : Nat) : x &&& WIN_MASK = x % 131072 :=
  Nat.and_pow_two_sub_one_eq_mod x 17

theorem and_PAT_MASK (x : Nat) : x &&& PAT_MASK = x % 65536 :=
  Nat.and_pow_two_sub_one_eq_mod x 16

/-! ## The match finder -/

theorem contextScan_agree (w p : Nat → Byte) (i pat_cnt : Nat) :
    ∀ k, contextScan w p i ((pat_cnt + k) % 65536) k = true → Agree w p pat_cnt i (k + 1) := by
  intro k
  induction k with
  | zero =>
    intro h j hj
    have hj0 : j = 0 := by omega
    subst hj0
    simp only [contextScan, and_WIN_MASK, decide_eq_true_eq] at h
    simp only [WIN_BUFSIZE_eq, PAT_BUFSIZE_eq]
    exact h.symm
  | succ k ih =>
    intro h j hj
    rw [contextScan] at h
    split at h
    · exact absurd h (by simp)
    · rename_i hne
      have hst : (if (pat_cnt + (k + 1)) % 65536 = 0 then PAT_BUFSIZE - 1
          else (pat_cnt + (k + 1)) % 65536 - 1) = (pat_cnt + k) % 65536 := by
        simp only [PAT_BUFSIZE_eq]
        split <;> omega
      rw [hst] at h
      by_cases hjk : j = k + 1
      · subst hjk
        simp only [and_WIN_MASK, ne_eq, not_not] at hne
        simp only [WIN_BUFSIZE_eq, PAT_BUFSIZE_eq]
        exact hne.symm
      · exact ih h j (by omega)

theorem suffixScan_le (w p : Nat → Byte) (i : Nat) (buf_cnt : Int) :
    ∀ (fuel j k : Nat), (k : Int) < buf_cnt → (suffixScan w p i buf_cnt fuel j k : Int) ≤ buf_cnt := by
  intro fuel
  induction fuel with
  | zero => intro j k hk; simp only [suffixScan]; omega
  | succ f ih =>
    intro j k hk
    simp only [suffixScan]
    split
    · split
      · rename_i h2; exact ih _ _ h2
      · push_cast; omega
    · omega

theorem suffixScan_ge (w p : Nat → Byte) (i : Nat) (buf_cnt : Int) :
    ∀ fuel j k, k ≤ suffixScan w p i buf_cnt fuel j k := by
  intro fuel
  induction fuel with
  | zero => intro j k; simp [suffixScan]
  | succ f ih =>
    intro j k
    simp only [suffixScan]
    split
    · split
      · exact Nat.le_trans (Nat.le_succ k) (ih _ _)
      · omega
    · omega

theorem suffixScan_agree (w p : Nat → Byte) (i pat_cnt : Nat) (buf_cnt : Int) :
    ∀ fuel j k, j % 65536 = (pat_cnt + k) % 65536 → Agree w p pat_cnt i k →
      Agree w p pat_cnt i (suffixScan w p i buf_cnt fuel j k) := by
  intro fuel
  induction fuel with
  | zero => intro j k _ h; simpa [suffixScan] using h
  | succ f ih =>
    intro j k hj h
    simp only [suffixScan]
    have step : p (j &&& PAT_MASK) = w ((i + k) &&& WIN_MASK) → Agree w p pat_cnt i (k + 1) := by
      intro heq t ht
      by_cases htk : t = k
      · subst htk
        simp only [and_WIN_MASK, and_PAT_MASK, hj] at heq
        simp only [WIN_BUFSIZE_eq, PAT_BUFSIZE_eq]
        exact heq.symm
      · exact h t (by omega)
    split
    · rename_i heq
      split
      · exact ih _ _ (by omega) (step heq)
      · exact step heq
    · exact h

theorem suffixLen_le (w p : Nat → Byte) (i pat_cnt : Nat) (buf_cnt : Int) (len : Nat)
    (h : (len : Int) < buf_cnt) : (suffixLen w p i pat_cnt buf_cnt len : Int) ≤ buf_cnt := by
  unfold suffixLen
  split
  · rename_i h1; exact suffixScan_le w p i buf_cnt _ _ _ h1
  · push_cast; omega

theorem suffixLen_gt (w p : Nat → Byte) (i pat_cnt : Nat) (buf_cnt : Int) (len : Nat) :
    len < suffixLen w p i pat_cnt buf_cnt len := by
  unfold suffixLen
  split
  · exact Nat.lt_of_lt_of_le (Nat.lt_succ_self len) (suffixScan_ge w p i buf_cnt _ _ _)
  · omega

theorem suffixLen_agree (w p : Nat → Byte) (i pat_cnt : Nat) (buf_cnt : Int) (len : Nat)
    (h : Agree w p pat_cnt i (len + 1)) :
    Agree w p pat_cnt i (suffixLen w p i pat_cnt buf_cnt len) := by
  unfold suffixLen
  split
  · refine suffixScan_agree w p i pat_cnt buf_cnt _ _ _ ?_ h
    simp only [and_PAT_MASK]
    omega
  · exact h

/-- What the loop of `search` keeps: the candidate is short of `buf_cnt`
and agrees with the lookahead. -/
theorem searchLoop_spec (w p : Nat → Byte) (pat_cnt : Nat) (buf_cnt : Int)
    (lznext : Nat → Option Nat) :
    ∀ fuel i st, (st.dpos.len : Int) < buf_cnt → Agree w p pat_cnt st.dpos.pos st.dpos.len →
      ((searchLoop w p pat_cnt buf_cnt lznext fuel i st).dpos.len : Int) ≤ buf_cnt ∧
      Agree w p pat_cnt (searchLoop w p pat_cnt buf_cnt lznext fuel i st).dpos.pos
        (searchLoop w p pat_cnt buf_cnt lznext fuel i st).dpos.len := by
  intro fuel
  induction fuel with
  | zero => intro i st h1 h2; exact ⟨by simp only [searchLoop]; omega, by simpa [searchLoop] using h2⟩
  | succ f ih =>
    intro i st h1 h2
    cases i with
    | none => exact ⟨by simp only [searchLoop]; omega, by simpa [searchLoop] using h2⟩
    | some i =>
      simp only [searchLoop]
      split
      · rename_i hctx
        have hctx2 : contextScan w p i ((pat_cnt + st.dpos.len) % 65536) st.dpos.len = true := by
          simpa only [and_PAT_MASK] using hctx
        have hag := suffixLen_agree w p i pat_cnt buf_cnt st.dpos.len
          (contextScan_agree w p i pat_cnt _ hctx2)
        have hle := suffixLen_le w p i pat_cnt buf_cnt st.dpos.len h1
        split
        · exact ⟨hle, hag⟩
        · rename_i hne
          split
          · exact ⟨hle, hag⟩
          · split
            · exact ⟨hle, hag⟩
            · exact ih _ _ (by simp only; omega) hag
      · split
        · exact ⟨by simp only; omega, h2⟩
        · exact ih _ _ h1 h2

theorem searchRun_spec (w p : Nat → Byte) (pat_cnt : Nat) (buf_cnt : Int)
    (lzhash lznext : Nat → Option Nat) (h0 : 0 ≤ buf_cnt) :
    ((searchRun w p pat_cnt buf_cnt lzhash lznext).dpos.len : Int) ≤ buf_cnt ∧
    Agree w p pat_cnt (searchRun w p pat_cnt buf_cnt lzhash lznext).dpos.pos
      (searchRun w p pat_cnt buf_cnt lzhash lznext).dpos.len := by
  unfold searchRun
  split
  · exact searchLoop_spec w p pat_cnt buf_cnt lznext _ _ _ (by simp only; omega)
      (fun j hj => absurd hj (Nat.not_lt_zero j))
  · exact ⟨by simpa using h0, fun j hj => absurd hj (Nat.not_lt_zero j)⟩

theorem search_agree (w p : Nat → Byte) (pat_cnt : Nat) (buf_cnt : Int)
    (lzhash lznext : Nat → Option Nat) :
    Agree w p pat_cnt (search w p pat_cnt buf_cnt lzhash lznext).pos
      (search w p pat_cnt buf_cnt lzhash lznext).len := by
  unfold search searchRun
  split
  · rename_i h
    exact (searchLoop_spec w p pat_cnt buf_cnt lznext _ _ _ (by simp only; omega)
      (fun j hj => absurd hj (Nat.not_lt_zero j))).2
  · exact fun j hj => absurd hj (Nat.not_lt_zero j)

theorem search_len_le (w p : Nat → Byte) (pat_cnt : Nat) (buf_cnt : Int)
    (lzhash lznext : Nat → Option Nat) (h0 : 0 ≤ buf_cnt) :
    ((search w p pat_cnt buf_cnt lzhash lznext).len : Int) ≤ buf_cnt :=
  (searchRun_spec w p pat_cnt buf_cnt lzhash lznext h0).1

/-! ## What `put_codes` does to each global -/

theorem put_ONEs_fields (i : Nat) (s : Session) :
    (put_ONEs i s).pOUT = s.pOUT ++ List.replicate i (Emit.bit 1) ∧
    (put_ONEs i s).win_buf = s.win_buf ∧ (put_ONEs i s).pattern = s.pattern ∧
    (put_ONEs i s).win_cnt = s.win_cnt ∧ (put_ONEs i s).pat_cnt = s.pat_cnt ∧
    (put_ONEs i s).buf_cnt = s.buf_cnt ∧ (put_ONEs i s).lz = s.lz ∧
    (put_ONEs i s).large_text = s.large_text ∧ (put_ONEs i s).len_CODE = s.len_CODE ∧
    (put_ONEs i s).mtf_table = s.mtf_table ∧ (put_ONEs i s).gIN = s.gIN := by
  induction i generalizing s with
  | zero => simp [put_ONEs]
  | succ i ih =>
    obtain ⟨h1, h2, h3, h4, h5, h6, h7, h8, h9, h10, h11⟩ := ih (put_ONE s)
    simp only [put_ONEs]
    refine ⟨?_, h2, h3, h4, h5, h6, h7, h8, h9, h10, h11⟩
    rw [h1]
    simp [put_ONE, List.replicate_succ]

theorem put_length_fields (s : Session) (d : dpos_t) :
    (put_length s d).win_buf = s.win_buf ∧ (put_length s d).pattern = s.pattern ∧
    (put_length s d).win_cnt = s.win_cnt ∧ (put_length s d).pat_cnt = s.pat_cnt ∧
    (put_length s d).buf_cnt = s.buf_cnt ∧ (put_length s d).lz = s.lz ∧
    (put_length s d).large_text = s.large_text ∧
    (put_length s d).mtf_table = s.mtf_table ∧ (put_length s d).gIN = s.gIN := by
  unfold put_length
  by_cases h1 : d.len > MIN_LEN
  · by_cases h2 : s.large_text = 0
    · simp [h1, h2, put_vlcode]
    · simp [h1, h2, put_nbits, put_ONEs_fields]
  · simp [h1]

theorem put_position_fields (s : Session) (d : dpos_t) :
    (put_position s d).1.win_buf = s.win_buf ∧ (put_position s d).1.pattern = s.pattern ∧
    (put_position s d).1.win_cnt = s.win_cnt ∧ (put_position s d).1.pat_cnt = s.pat_cnt ∧
    (put_position s d).1.buf_cnt = s.buf_cnt ∧ (put_position s d).1.lz = s.lz ∧
    (put_position s d).1.large_text = s.large_text ∧
    (put_position s d).1.gIN = s.gIN ∧
    (put_position s d).2.len = slide_len d ∧ (put_position s d).2.pos = d.pos := by
  unfold put_position slide_len
  split <;> simp [put_vlcode, put_nbits]

theorem put_selector_fields (s : Session) (d : dpos_t) :
    (put_selector s d).win_buf = s.win_buf ∧ (put_selector s d).pattern = s.pattern ∧
    (put_selector s d).win_cnt = s.win_cnt ∧ (put_selector s d).pat_cnt = s.pat_cnt ∧
    (put_selector s d).buf_cnt = s.buf_cnt ∧ (put_selector s d).lz = s.lz ∧
    (put_selector s d).large_text = s.large_text ∧
    (put_selector s d).mtf_table = s.mtf_table ∧ (put_selector s d).gIN = s.gIN := by
  unfold put_selector
  split
  · simp [put_ONE]
  · split <;> simp [put_ONE, put_ZERO]

theorem put_codes_fields (s : Session) (d : dpos_t) :
    (put_codes s d).2.len = slide_len d ∧
    (put_codes s d).1.win_buf = slide_copy s.pattern s.win_cnt s.pat_cnt (slide_len d) s.win_buf ∧
    (put_codes s d).1.pattern = (refill s.pat_cnt (slide_len d) 0 s.gIN s.pattern).2.2 ∧
    (put_codes s d).1.gIN = (refill s.pat_cnt (slide_len d) 0 s.gIN s.pattern).2.1 ∧
    (put_codes s d).1.buf_cnt = s.buf_cnt -
      ((slide_len d - (refill s.pat_cnt (slide_len d) 0 s.gIN s.pattern).1 : Nat) : Int) ∧
    (put_codes s d).1.win_cnt = (s.win_cnt + slide_len d) &&& WIN_MASK ∧
    (put_codes s d).1.pat_cnt = (s.pat_cnt + slide_len d) &&& PAT_MASK ∧
    (put_codes s d).1.large_text = s.large_text ∧
    (put_codes s d).1.lz =
      insert_range (slide_copy s.pattern s.win_cnt s.pat_cnt (slide_len d) s.win_buf)
        (leftmost s.win_cnt) (slide_len d + (HASH_BYTES_N - 1))
        (delete_range s.win_buf (leftmost s.win_cnt) (slide_len d + (HASH_BYTES_N - 1)) s.lz) := by
  obtain ⟨a1, a2, a3, a4, a5, a6, a7, a8, a9⟩ := put_length_fields s d
  obtain ⟨b1, b2, b3, b4, b5, b6, b7, b8, b9, b10⟩ := put_position_fields (put_length s d) d
  simp only [put_codes, b1, b2, b3, b4, b5, b6, b7, b8, b9, a1, a2, a3, a4, a5, a6, a7, a9]
  exact ⟨trivial, trivial, trivial, trivial, trivial, trivial, trivial, trivial, trivial⟩

/-! ## The copy to the window and the refill of the lookahead -/

theorem slide_copy_miss (pattern : Nat → Byte) (win_cnt pat_cnt : Nat) :
    ∀ (len : Nat) (w : Nat → Byte) (x : Nat), (∀ i, i < len → x ≠ (win_cnt + i) % 131072) →
      slide_copy pattern win_cnt pat_cnt len w x = w x := by
  intro len
  induction len with
  | zero => intro w x _; rfl
  | succ n ih =>
    intro w x hx
    rw [slide_copy, ih _ x (fun i hi => hx i (by omega)), and_WIN_MASK]
    exact Function.update_noteq (hx n (by omega)) _ _

theorem slide_copy_hit (pattern : Nat → Byte) (win_cnt pat_cnt : Nat) :
    ∀ (len : Nat) (w : Nat → Byte) (i : Nat), len ≤ 131072 → i < len →
      slide_copy pattern win_cnt pat_cnt len w ((win_cnt + i) % 131072)
        = pattern ((pat_cnt + i) % 65536) := by
  intro len
  induction len with
  | zero => intro w i _ hi; omega
  | succ n ih =>
    intro w i hn hi
    rw [slide_copy]
    by_cases hin : i = n
    · subst hin
      rw [slide_copy_miss, and_WIN_MASK, and_PAT_MASK, Function.update_same]
      intro t ht
      omega
    · exact ih _ i (by omega) (by omega)

theorem refill_count (pat_cnt : Nat) :
    ∀ (r i : Nat) (g : List Byte) (p : Nat → Byte),
      (refill pat_cnt r i g p).1 = i + min r g.length ∧
      (refill pat_cnt r i g p).2.1 = g.drop (min r g.length) := by
  intro r
  induction r with
  | zero => intro i g p; simp [refill]
  | succ r ih =>
    intro i g p
    cases g with
    | nil => simp [refill]
    | cons b g =>
      obtain ⟨h1, h2⟩ := ih (i + 1) g (Function.update p ((pat_cnt + i) &&& PAT_MASK) b)
      simp only [refill, h1, h2, List.length_cons, Nat.add_min_add_right, List.drop_succ_cons]
      exact ⟨by omega, trivial⟩

theorem refill_miss (pat_cnt : Nat) :
    ∀ (r i : Nat) (g : List Byte) (p : Nat → Byte) (x : Nat),
      (∀ t, t < min r g.length → x ≠ (pat_cnt + i + t) % 65536) →
      (refill pat_cnt r i g p).2.2 x = p x := by
  intro r
  induction r with
  | zero => intro i g p x _; rfl
  | succ r ih =>
    intro i g p x hx
    cases g with
    | nil => rfl
    | cons b g =>
      rw [refill, ih (i + 1) g _ x, and_PAT_MASK]
      · exact Function.update_noteq (by simpa using hx 0 (by simp)) _ _
      · intro t ht
        have := hx (t + 1) (by simp only [List.length_cons]; omega)
        rw [show pat_cnt + (i + 1) + t = pat_cnt + i + (t + 1) by omega]
        exact this

theorem refill_hit (pat_cnt : Nat) :
    ∀ (r i : Nat) (g : List Byte) (p : Nat → Byte) (t : Nat), r ≤ 65536 →
      t < min r g.length →
      (refill pat_cnt r i g p).2.2 ((pat_cnt + i + t) % 65536) = g.getD t 0 := by
  intro r
  induction r with
  | zero => intro i g p t _ ht; simp at ht
  | succ r ih =>
    intro i g p t hr ht
    cases g with
    | nil => simp at ht
    | cons b g =>
      rw [refill]
      cases t with
      | zero =>
        rw [refill_miss, and_PAT_MASK]
        · simp
        · intro t ht2
          have : t < r := by omega
          omega
      | succ t =>
        have := ih (i + 1) g (Function.update p ((pat_cnt + i) &&& PAT_MASK) b) t (by omega)
          (by simp only [List.length_cons] at ht; omega)
        rw [show pat_cnt + i + (t + 1) = pat_cnt + (i + 1) + t by omega, this]
        simp

/-! ## The invariant of the session loop -/

theorem getD_drop (l : List Byte) (n i : Nat) : (l.drop n).getD i 0 = l.getD (n + i) 0 := by
  simp [List.getD_eq_getElem?_getD, List.getElem?_drop]

theorem getD_take (l : List Byte) (n i : Nat) (h : i < n) :
    (l.take n).getD i 0 = l.getD i 0 := by
  simp [List.getD_eq_getElem?_getD, List.getElem?_take, h]

theorem Inv_init (file : List Byte) : Inv file 0 (init file) where
  le := Nat.zero_le _
  buf := by simp [init, PAT_BUFSIZE_eq]
  gin := by
    simp only [init, PAT_BUFSIZE_eq, Nat.sub_zero, Nat.zero_add]
    by_cases h : 65536 ≤ file.length
    · rw [Nat.min_eq_left h]
    · rw [Nat.min_eq_right (by omega), List.drop_of_length_le (by omega),
        List.drop_of_length_le (Nat.le_refl _)]
  pat := rfl
  win := rfl
  look := by
    intro j hj
    have hj2 : j < 65536 := by omega
    simp only [init, PAT_BUFSIZE_eq, Nat.zero_add, Nat.mod_eq_of_lt hj2]
    exact getD_take file 65536 j hj2
  recent := by intro q hq; omega
  zero := by intro x _; rfl
  flag := rfl

theorem slide_len_pos (d : dpos_t) : 1 ≤ slide_len d := by
  unfold slide_len; split <;> simp only [MIN_LEN] at * <;> omega

theorem slide_len_le (d : dpos_t) (b : Int) (hb : 0 < b) (hd : (d.len : Int) ≤ b) :
    (slide_len d : Int) ≤ b := by
  unfold slide_len; split <;> omega

theorem iteration_len (s : Session) (c : Nat) :
    (iteration s c).len =
      slide_len (search s.win_buf s.pattern s.pat_cnt s.buf_cnt s.lz.lzhash s.lz.lznext) := by
  simp only [iteration, (put_codes_fields _ _).1]

theorem iteration_len_bounds (s : Session) (c : Nat) (hb : 0 < s.buf_cnt) :
    1 ≤ (iteration s c).len ∧ ((iteration s c).len : Int) ≤ s.buf_cnt := by
  rw [iteration_len]
  exact ⟨slide_len_pos _, slide_len_le _ _ hb (search_len_le _ _ _ _ _ _ (by omega))⟩

theorem step_buf (n c L g : Nat) (hL1 : 1 ≤ L) (hL2 : L ≤ min 65536 (n - c))
    (hg : g = n - (c + min 65536 (n - c))) :
    ((min 65536 (n - c) : Nat) : Int) - ((L - (0 + min L g) : Nat) : Int)
      = ((min 65536 (n - (c + L)) : Nat) : Int) := by
  omega

theorem step_gin (file : List Byte) (c L : Nat) (hL2 : L ≤ min 65536 (file.length - c)) :
    (file.drop (c + min 65536 (file.length - c))).drop
        (min L (file.length - (c + min 65536 (file.length - c))))
      = file.drop (c + L + min 65536 (file.length - (c + L))) := by
  rw [List.drop_drop]
  by_cases hcase : c + L + 65536 ≤ file.length
  · have : c + min 65536 (file.length - c)
        + min L (file.length - (c + min 65536 (file.length - c)))
        = c + L + min 65536 (file.length - (c + L)) := by omega
    rw [this]
  · rw [List.drop_of_length_le (by omega), List.drop_of_length_le (by omega)]

theorem step_look (file : List Byte) (c L pat_cnt : Nat) (g : List Byte) (p : Nat → Byte)
    (hpat : pat_cnt = c % 65536) (hgin : g = file.drop (c + min 65536 (file.length - c)))
    (hlook : ∀ j, j < min 65536 (file.length - c) → p ((c + j) % 65536) = file.getD (c + j) 0)
    (hL2 : L ≤ min 65536 (file.length - c)) :
    ∀ j, j < min 65536 (file.length - (c + L)) →
      (refill pat_cnt L 0 g p).2.2 ((c + L + j) % 65536) = file.getD (c + L + j) 0 := by
  intro j hj
  have hg : g.length = file.length - (c + min 65536 (file.length - c)) := by
    rw [hgin, List.length_drop]
  by_cases hcase : L + j < min 65536 (file.length - c)
  · rw [refill_miss]
    · have := hlook (L + j) hcase
      rw [show c + L + j = c + (L + j) by omega]
      exact this
    · intro t ht
      rw [hpat]
      omega
  · have ht : L + j - 65536 < min L g.length := by rw [hg]; omega
    have := refill_hit pat_cnt L 0 g p (L + j - 65536) (by omega) ht
    have hidx : (c + L + j) % 65536 = (pat_cnt + 0 + (L + j - 65536)) % 65536 := by
      rw [hpat]; omega
    rw [hidx, this, hgin, getD_drop]
    have hidx2 : c + min 65536 (file.length - c) + (L + j - 65536) = c + L + j := by omega
    rw [hidx2]

theorem step_recent (file : List Byte) (c L win_cnt pat_cnt : Nat) (w p : Nat → Byte)
    (hpat : pat_cnt = c % 65536) (hwin : win_cnt = c % 131072)
    (hlook : ∀ j, j < min 65536 (file.length - c) → p ((c + j) % 65536) = file.getD (c + j) 0)
    (hrecent : ∀ q, q < c → c ≤ q + 131072 → w (q % 131072) = file.getD q 0)
    (hL2 : L ≤ min 65536 (file.length - c)) :
    ∀ q, q < c + L → c + L ≤ q + 131072 →
      slide_copy p win_cnt pat_cnt L w (q % 131072) = file.getD q 0 := by
  intro q hq hq2
  by_cases hcase : q < c
  · rw [slide_copy_miss]
    · exact hrecent q hcase (by omega)
    · intro i hi
      rw [hwin]
      omega
  · have := slide_copy_hit p win_cnt pat_cnt L w (q - c) (by omega) (by omega)
    have h1 : q % 131072 = (win_cnt + (q - c)) % 131072 := by rw [hwin]; omega
    have h2 : (pat_cnt + (q - c)) % 65536 = (c + (q - c)) % 65536 := by rw [hpat]; omega
    have h3 : c + (q - c) = q := by omega
    rw [h1, this, h2, hlook (q - c) (by omega), h3]

theorem step_zero (c L win_cnt pat_cnt : Nat) (w p : Nat → Byte)
    (hwin : win_cnt = c % 131072) (hzero : ∀ x, c ≤ x → w x = 0) :
    ∀ x, c + L ≤ x → slide_copy p win_cnt pat_cnt L w x = 0 := by
  intro x hx
  rw [slide_copy_miss]
  · exact hzero x (by omega)
  · intro i hi
    rw [hwin]
    omega

theorem Inv_step (file : List Byte) (c : Nat) (s : Session) (h : Inv file c s)
    (hb : 0 < s.buf_cnt) : Inv file (c + (iteration s c).len) (iteration s c).post := by
  obtain ⟨hL1, hL2⟩ := iteration_len_bounds s c hb
  rw [iteration_len] at hL1 hL2 ⊢
  have hpost : (iteration s c).post = (put_codes (put_selector s
      (search s.win_buf s.pattern s.pat_cnt s.buf_cnt s.lz.lzhash s.lz.lznext))
      (search s.win_buf s.pattern s.pat_cnt s.buf_cnt s.lz.lzhash s.lz.lznext)).1 := rfl
  rw [hpost]
  generalize search s.win_buf s.pattern s.pat_cnt s.buf_cnt s.lz.lzhash s.lz.lznext = d
    at hL1 hL2 ⊢
  obtain ⟨a1, a2, a3, a4, a5, a6, a7, a8, a9⟩ := put_selector_fields s d
  obtain ⟨b1, b2, b3, b4, b5, b6, b7, b8, b9⟩ := put_codes_fields (put_selector s d) d
  generalize slide_len d = L at hL1 hL2 b2 b3 b4 b5 b6 b7
  rw [h.buf] at hL2
  have hL3 : L ≤ min 65536 (file.length - c) := by exact_mod_cast hL2
  have hg : s.gIN.length = file.length - (c + min 65536 (file.length - c)) := by
    rw [h.gin, List.length_drop]
  obtain ⟨r1, r2⟩ := refill_count s.pat_cnt L 0 s.gIN s.pattern
  exact
    { le := by omega
      buf := by
        rw [b5, a5, a2, a4, a9, r1, h.buf]
        exact step_buf file.length c L s.gIN.length hL1 hL3 hg
      gin := by
        rw [b4, a2, a4, a9, r2, hg, h.gin]
        exact step_gin file c L hL3
      pat := by rw [b7, a4, and_PAT_MASK, h.pat]; omega
      win := by rw [b6, a3, and_WIN_MASK, h.win]; omega
      look := by
        rw [b3, a2, a4, a9]
        exact step_look file c L s.pat_cnt s.gIN s.pattern h.pat h.gin h.look hL3
      recent := by
        rw [b2, a1, a2, a3, a4]
        exact step_recent file c L s.win_cnt s.pat_cnt s.win_buf s.pattern h.pat h.win h.look
          h.recent hL3
      zero := by
        rw [b2, a1, a2, a3, a4]
        exact step_zero c L s.win_cnt s.pat_cnt s.win_buf s.pattern h.win h.zero
      flag := by rw [b8, a7]; exact h.flag }

/-! ## Runs of the loop -/

theorem session_loop_trace :
    ∀ (fuel : Nat) (s : Session) (c : Nat) (its : List Iter) (fin : Session),
      session_loop fuel s c = some (its, fin) → Trace s c its fin := by
  intro fuel
  induction fuel with
  | zero =>
    intro s c its fin h
    simp only [session_loop] at h
    split at h
    · exact absurd h (by simp)
    · rename_i hb
      simp only [Option.some.injEq, Prod.mk.injEq] at h
      obtain ⟨h1, h2⟩ := h
      subst h1 h2
      exact ⟨hb, rfl⟩
  | succ f ih =>
    intro s c its fin h
    simp only [session_loop] at h
    split at h
    · rename_i hb
      split at h
      · exact absurd h (by simp)
      · rename_i its2 fin2 heq
        simp only [Option.some.injEq, Prod.mk.injEq] at h
        obtain ⟨h1, h2⟩ := h
        subst h1 h2
        exact ⟨hb, rfl, ih _ _ _ _ heq⟩
    · rename_i hb
      simp only [Option.some.injEq, Prod.mk.injEq] at h
      obtain ⟨h1, h2⟩ := h
      subst h1 h2
      exact ⟨hb, rfl⟩

theorem session_loop_some (file : List Byte) :
    ∀ (fuel : Nat) (s : Session) (c : Nat), Inv file c s → file.length - c ≤ fuel →
      ∃ r, session_loop fuel s c = some r := by
  intro fuel
  induction fuel with
  | zero =>
    intro s c h hf
    have hb : ¬ 0 < s.buf_cnt := by rw [h.buf]; omega
    exact ⟨([], s), by simp [session_loop, hb]⟩
  | succ f ih =>
    intro s c h hf
    by_cases hb : 0 < s.buf_cnt
    · obtain ⟨hL1, _⟩ := iteration_len_bounds s c hb
      obtain ⟨r, hr⟩ := ih _ _ (Inv_step file c s h hb) (by omega)
      refine ⟨(iteration s c :: r.1, r.2), ?_⟩
      simp only [session_loop, gt_iff_lt, hb, if_true, hr]
    · exact ⟨([], s), by simp [session_loop, hb]⟩

/-- A run of the compressor exists for every input. -/
theorem compress_trace (file : List Byte) :
    ∃ r, compress file = some r ∧ r.header = stamp file.length ∧
      Trace (init file) 0 r.iters r.final := by
  obtain ⟨⟨its, fin⟩, hr⟩ := session_loop_some file file.length (init file) 0 (Inv_init file)
    (by omega)
  refine ⟨⟨stamp file.length, its, fin⟩, ?_, rfl, session_loop_trace _ _ _ _ _ hr⟩
  simp only [compress, hr]

/-- Along a run the invariant holds at the head and at the end of every
iteration, every iteration is the loop body on its own head state, and the
final state has consumed the whole file. -/
theorem Trace_inv (file : List Byte) :
    ∀ (its : List Iter) (s : Session) (c : Nat) (fin : Session),
      Trace s c its fin → Inv file c s →
      (∀ it, it ∈ its → Inv file it.consumed it.pre ∧ 0 < it.pre.buf_cnt ∧
        it = iteration it.pre it.consumed ∧ Inv file (it.consumed + it.len) it.post) ∧
      Inv file file.length fin ∧ fin.buf_cnt = 0 ∧
      c + (its.map Iter.len).sum = file.length := by
  intro its
  induction its with
  | nil =>
    intro s c fin ht h
    obtain ⟨hb, hfin⟩ := ht
    subst hfin
    have hB := h.buf
    have hle := h.le
    have hc : c = file.length := by rw [hB] at hb; omega
    subst hc
    exact ⟨fun it hit => absurd hit (List.not_mem_nil it), h, by rw [hB]; simp, by simp⟩
  | cons it its ih =>
    intro s c fin ht h
    obtain ⟨hb, hit, hrest⟩ := ht
    have hstep := Inv_step file c s h hb
    rw [← hit] at hstep
    obtain ⟨h1, h2, h3, h4⟩ := ih _ _ _ hrest hstep
    refine ⟨?_, h2, h3, ?_⟩
    · intro it2 hmem
      rcases List.mem_cons.mp hmem with heq | hmem2
      · subst heq
        have hpre : it2.pre = s := by rw [hit]; rfl
        have hcon : it2.consumed = c := by rw [hit]; rfl
        rw [hpre, hcon]
        exact ⟨h, hb, hit, hstep⟩
      · exact h1 it2 hmem2
    · simp only [List.map_cons, List.sum_cons]
      omega

/-! ## The reference decoder follows the window of the encoder -/

theorem write_bytes_cursor :
    ∀ (bs : List Byte) (w : Nat → Byte) (cur : Nat), cur < 131072 →
      (write_bytes bs (w, cur)).2 = (cur + bs.length) % 131072 := by
  intro bs
  induction bs with
  | nil => intro w cur h; simp only [write_bytes, List.length_nil]; omega
  | cons b bs ih =>
    intro w cur h
    simp only [write_bytes, List.length_cons, WIN_BUFSIZE_eq]
    rw [ih _ _ (Nat.mod_lt _ (by omega))]
    omega

theorem write_bytes_miss :
    ∀ (bs : List Byte) (w : Nat → Byte) (cur x : Nat), cur < 131072 →
      (∀ i, i < bs.length → x ≠ (cur + i) % 131072) → (write_bytes bs (w, cur)).1 x = w x := by
  intro bs
  induction bs with
  | nil => intro w cur x _ _; rfl
  | cons b bs ih =>
    intro w cur x h hx
    simp only [write_bytes, WIN_BUFSIZE_eq]
    rw [ih _ _ x (Nat.mod_lt _ (by omega))]
    · have := hx 0 (by simp)
      exact Function.update_noteq (by omega) _ _
    · intro i hi
      have := hx (i + 1) (by simp only [List.length_cons]; omega)
      omega

theorem write_bytes_hit :
    ∀ (bs : List Byte) (w : Nat → Byte) (cur i : Nat), cur < 131072 → bs.length ≤ 131072 →
      i < bs.length → (write_bytes bs (w, cur)).1 ((cur + i) % 131072) = bs.getD i 0 := by
  intro bs
  induction bs with
  | nil => intro w cur i _ _ hi; simp at hi
  | cons b bs ih =>
    intro w cur i h hlen hi
    simp only [write_bytes, WIN_BUFSIZE_eq]
    simp only [List.length_cons] at hlen hi
    cases i with
    | zero =>
      rw [write_bytes_miss _ _ _ _ (Nat.mod_lt _ (by omega))]
      · rw [Nat.add_zero, Nat.mod_eq_of_lt h, Function.update_same]
        rfl
      · intro t ht
        omega
    | succ i =>
      have := ih (Function.update w cur b) ((cur + 1) % 131072) i (Nat.mod_lt _ (by omega))
        (by omega) (by omega)
      have hidx : (cur + (i + 1)) % 131072 = ((cur + 1) % 131072 + i) % 131072 := by omega
      rw [hidx, this]
      simp

theorem chunk_length (file : List Byte) (c L : Nat) : (chunk file c L).length = L := by
  simp [chunk]

theorem chunk_getD (file : List Byte) (c L i : Nat) (h : i < L) :
    (chunk file c L).getD i 0 = file.getD (c + i) 0 := by
  simp [chunk, List.getD_eq_getElem?_getD, List.getElem?_map, List.getElem?_range h]

theorem take_add_chunk (file : List Byte) (c : Nat) :
    ∀ L, c + L ≤ file.length → file.take (c + L) = file.take c ++ chunk file c L := by
  intro L
  induction L with
  | zero => intro _; simp [chunk]
  | succ L ih =>
    intro h
    have hlt : c + L < file.length := by omega
    rw [show c + (L + 1) = (c + L) + 1 by omega, List.take_succ, ih (by omega)]
    simp only [chunk, List.range_succ, List.map_append, List.map_cons, List.map_nil,
      List.append_assoc, List.append_cancel_left_eq]
    rw [List.getElem?_eq_getElem hlt, List.getD_eq_getElem _ _ hlt]
    rfl

/-- The bytes of the unit of an iteration, read from the window at its head,
are the next bytes of the file. -/
theorem unit_bytes_iteration (file : List Byte) (c : Nat) (s : Session) (h : Inv file c s)
    (hb : 0 < s.buf_cnt) :
    unit_bytes s.win_buf (iteration s c).unit = chunk file c (iteration s c).len := by
  obtain ⟨hL1, hL2⟩ := iteration_len_bounds s c hb
  rw [iteration_len] at hL1 hL2 ⊢
  have hunit : (iteration s c).unit = code_unit s
      (search s.win_buf s.pattern s.pat_cnt s.buf_cnt s.lz.lzhash s.lz.lznext) := rfl
  rw [hunit]
  have hag := search_agree s.win_buf s.pattern s.pat_cnt s.buf_cnt s.lz.lzhash s.lz.lznext
  generalize search s.win_buf s.pattern s.pat_cnt s.buf_cnt s.lz.lzhash s.lz.lznext = d
    at hL1 hL2 hag ⊢
  rw [h.buf] at hL2 hb
  have hL3 : slide_len d ≤ min 65536 (file.length - c) := by exact_mod_cast hL2
  unfold code_unit
  unfold slide_len at hL3 ⊢
  split
  · rename_i hge
    rw [if_pos hge] at hL3
    simp only [unit_bytes, chunk]
    apply List.map_congr_left
    intro j hj
    have hj2 : j < d.len := List.mem_range.mp hj
    rw [hag j hj2, h.pat, PAT_BUFSIZE_eq,
      show (c % 65536 + j) % 65536 = (c + j) % 65536 by omega]
    exact h.look j (by omega)
  · have := h.look 0 (by omega)
    rw [Nat.add_zero] at this
    simp only [unit_bytes, chunk]
    rw [h.pat, this]
    rfl

/-- Writing the next `L` bytes of the file at the cursor gives the window
`put_codes` builds. -/
theorem write_chunk_eq_slide_copy (file : List Byte) (c L : Nat) (s : Session)
    (h : Inv file c s) (hL : L ≤ min 65536 (file.length - c)) :
    write_bytes (chunk file c L) (s.win_buf, s.win_cnt)
      = (slide_copy s.pattern s.win_cnt s.pat_cnt L s.win_buf, (s.win_cnt + L) % 131072) := by
  have hcur : s.win_cnt < 131072 := by rw [h.win]; exact Nat.mod_lt _ (by omega)
  apply Prod.ext
  · funext x
    by_cases hx : ∃ i, i < L ∧ x = (s.win_cnt + i) % 131072
    · obtain ⟨i, hi, hxi⟩ := hx
      subst hxi
      show (write_bytes (chunk file c L) (s.win_buf, s.win_cnt)).1 _
        = slide_copy s.pattern s.win_cnt s.pat_cnt L s.win_buf _
      rw [write_bytes_hit _ _ _ _ hcur (by rw [chunk_length]; omega) (by rw [chunk_length]; exact hi),
        slide_copy_hit _ _ _ _ _ _ (by omega) hi, chunk_getD _ _ _ _ hi, h.pat,
        show (c % 65536 + i) % 65536 = (c + i) % 65536 by omega]
      exact (h.look i (by omega)).symm
    · have hx2 : ∀ i, i < L → x ≠ (s.win_cnt + i) % 131072 := fun i hi hxi => hx ⟨i, hi, hxi⟩
      show (write_bytes (chunk file c L) (s.win_buf, s.win_cnt)).1 _
        = slide_copy s.pattern s.win_cnt s.pat_cnt L s.win_buf _
      rw [write_bytes_miss _ _ _ _ hcur (by rw [chunk_length]; exact hx2),
        slide_copy_miss _ _ _ _ _ _ hx2]
  · show (write_bytes (chunk file c L) (s.win_buf, s.win_cnt)).2 = _
    rw [write_bytes_cursor _ _ _ hcur, chunk_length]

/-- One unit keeps the decoder on the window of the encoder. -/
theorem decode_unit_iteration (file : List Byte) (c : Nat) (s : Session) (h : Inv file c s)
    (hb : 0 < s.buf_cnt) :
    decode_unit ⟨s.win_buf, s.win_cnt, file.take c⟩ (iteration s c).unit
      = ⟨(iteration s c).post.win_buf, (iteration s c).post.win_cnt,
          file.take (c + (iteration s c).len)⟩ := by
  have hbytes := unit_bytes_iteration file c s h hb
  have hstep := Inv_step file c s h hb
  obtain ⟨hL1, hL2⟩ := iteration_len_bounds s c hb
  rw [h.buf] at hL2
  have hL3 : (iteration s c).len ≤ min 65536 (file.length - c) := by exact_mod_cast hL2
  have hw := write_chunk_eq_slide_copy file c (iteration s c).len s h hL3
  have hwin : (iteration s c).post.win_buf
      = slide_copy s.pattern s.win_cnt s.pat_cnt (iteration s c).len s.win_buf := by
    obtain ⟨a1, a2, a3, a4, _⟩ := put_selector_fields s
      (search s.win_buf s.pattern s.pat_cnt s.buf_cnt s.lz.lzhash s.lz.lznext)
    obtain ⟨_, b2, _⟩ := put_codes_fields (put_selector s
      (search s.win_buf s.pattern s.pat_cnt s.buf_cnt s.lz.lzhash s.lz.lznext))
      (search s.win_buf s.pattern s.pat_cnt s.buf_cnt s.lz.lzhash s.lz.lznext)
    rw [iteration_len]
    rw [a1, a2, a3, a4] at b2
    exact b2
  have hcnt : (iteration s c).post.win_cnt = (s.win_cnt + (iteration s c).len) % 131072 := by
    rw [hstep.win, h.win]; omega
  simp only [decode_unit, hbytes, hw, hwin, hcnt]
  rw [take_add_chunk file c _ (by omega)]

/-! ## What an iteration writes to the bit sink -/

theorem put_codes_pOUT (s : Session) (d : dpos_t) :
    (put_codes s d).1.pOUT = (put_position (put_length s d) d).1.pOUT := by
  simp only [put_codes]

theorem iteration_pOUT (s : Session) (c : Nat) :
    (iteration s c).post.pOUT
      = (put_position (put_length (put_selector s (iteration s c).found) (iteration s c).found)
          (iteration s c).found).1.pOUT := by
  simp only [iteration, put_codes_pOUT]

theorem put_selector_pOUT (s : Session) (d : dpos_t) :
    (put_selector s d).pOUT = s.pOUT ++
      (if d.len > MIN_LEN then [Emit.bit 1]
       else if d.len = MIN_LEN then [Emit.bit 0, Emit.bit 1] else [Emit.bit 0, Emit.bit 0]) := by
  unfold put_selector
  split
  · simp [put_ONE]
  · split <;> simp [put_ONE, put_ZERO]

theorem put_length_pOUT (s : Session) (d : dpos_t) :
    (put_length s d).pOUT = s.pOUT ++
      (if d.len > MIN_LEN then
        (if s.large_text = 0 then [Emit.vlcode (d.len - (MIN_LEN + 1)) 1]
         else List.replicate ((d.len - (MIN_LEN + 1)) >>> MFOLD) (Emit.bit 1)
           ++ [Emit.nbits (((d.len - (MIN_LEN + 1)) % (1 <<< MFOLD)) <<< 1) (MFOLD + 1)])
       else []) := by
  unfold put_length
  by_cases h1 : d.len > MIN_LEN
  · by_cases h2 : s.large_text = 0
    · simp [h1, h2, put_vlcode]
    · simp [h1, h2, put_nbits, put_ONEs_fields]
  · simp [h1]

theorem put_position_pOUT (s : Session) (d : dpos_t) :
    (put_position s d).1.pOUT = s.pOUT ++
      (if d.len ≥ MIN_LEN then [Emit.nbits d.pos NUM_POS_BITS]
       else [Emit.vlcode (mtf s.mtf_table (s.pattern s.pat_cnt)).1 3]) := by
  unfold put_position
  split <;> simp [put_vlcode, put_nbits]

/-- The bits of one iteration: selector, length code, then position or
byte. -/
theorem iteration_emits (s : Session) (c : Nat) :
    (iteration s c).post.pOUT = s.pOUT ++
      ((if (iteration s c).found.len > MIN_LEN then [Emit.bit 1]
        else if (iteration s c).found.len = MIN_LEN then [Emit.bit 0, Emit.bit 1]
        else [Emit.bit 0, Emit.bit 0]) ++
      (if (iteration s c).found.len > MIN_LEN then
        (if s.large_text = 0 then [Emit.vlcode ((iteration s c).found.len - (MIN_LEN + 1)) 1]
         else List.replicate (((iteration s c).found.len - (MIN_LEN + 1)) >>> MFOLD) (Emit.bit 1)
           ++ [Emit.nbits ((((iteration s c).found.len - (MIN_LEN + 1)) % (1 <<< MFOLD)) <<< 1)
                (MFOLD + 1)])
       else []) ++
      (if (iteration s c).found.len ≥ MIN_LEN then [Emit.nbits (iteration s c).found.pos NUM_POS_BITS]
       else [Emit.vlcode (mtf s.mtf_table (s.pattern s.pat_cnt)).1 3])) := by
  rw [iteration_pOUT, put_position_pOUT, put_length_pOUT, put_selector_pOUT]
  obtain ⟨a1, a2, a3, a4, a5, a6, a7, a8, a9⟩ := put_selector_fields s (iteration s c).found
  obtain ⟨b1, b2, b3, b4, b5, b6, b7, b8, b9⟩ :=
    put_length_fields (put_selector s (iteration s c).found) (iteration s c).found
  rw [b8, b2, b4, a8, a2, a4, a7]
  simp only [List.append_assoc]

/-! ## Runs: decoding, literals -/

theorem Trace_decode (file : List Byte) :
    ∀ (its : List Iter) (s : Session) (c : Nat) (fin : Session),
      Trace s c its fin → Inv file c s →
      (its.map Iter.unit).foldl decode_unit ⟨s.win_buf, s.win_cnt, file.take c⟩
        = ⟨fin.win_buf, fin.win_cnt, file⟩ := by
  intro its
  induction its with
  | nil =>
    intro s c fin ht h
    obtain ⟨hb, hfin⟩ := ht
    subst hfin
    have hB := h.buf
    have hle := h.le
    have hc : c = file.length := by rw [hB] at hb; omega
    subst hc
    simp
  | cons it its ih =>
    intro s c fin ht h
    obtain ⟨hb, hit, hrest⟩ := ht
    have hstep := Inv_step file c s h hb
    have hdec := decode_unit_iteration file c s h hb
    rw [← hit] at hstep hdec
    simp only [List.map_cons, List.foldl_cons, hdec]
    exact ih _ _ _ hrest hstep

theorem copy_unit_len (s : Session) (c pos len : Nat)
    (h : (iteration s c).unit = CodeUnit.copy pos len) :
    (iteration s c).found = ⟨pos, len⟩ ∧ MIN_LEN ≤ len := by
  have hunit : (iteration s c).unit = code_unit s (iteration s c).found := rfl
  rw [hunit] at h
  unfold code_unit at h
  split at h
  · rename_i hge
    simp only [CodeUnit.copy.injEq] at h
    obtain ⟨h1, h2⟩ := h
    refine ⟨?_, by rw [← h2]; exact hge⟩
    cases hf : (iteration s c).found
    rw [hf] at h1 h2
    simp only at h1 h2
    rw [h1, h2]
  · exact absurd h (by simp)

theorem iteration_found_agree (s : Session) (c : Nat) :
    Agree s.win_buf s.pattern s.pat_cnt (iteration s c).found.pos (iteration s c).found.len :=
  search_agree s.win_buf s.pattern s.pat_cnt s.buf_cnt s.lz.lzhash s.lz.lznext

theorem iteration_found_le (s : Session) (c : Nat) (hb : 0 ≤ s.buf_cnt) :
    ((iteration s c).found.len : Int) ≤ s.buf_cnt :=
  search_len_le s.win_buf s.pattern s.pat_cnt s.buf_cnt s.lz.lzhash s.lz.lznext hb

/-- With fewer than four bytes left, the rest of the run is one literal per
byte. -/
theorem Trace_short (file : List Byte) :
    ∀ (its : List Iter) (s : Session) (c : Nat) (fin : Session),
      Trace s c its fin → Inv file c s → file.length - c < 4 →
      its.map Iter.unit = (file.drop c).map CodeUnit.literal ∧
      ∀ it, it ∈ its → it.found.len < MIN_LEN := by
  intro its
  induction its with
  | nil =>
    intro s c fin ht h _
    obtain ⟨hb, hfin⟩ := ht
    have hB := h.buf
    have hle := h.le
    have hc : file.length ≤ c := by rw [hB] at hb; omega
    rw [List.drop_of_length_le hc]
    exact ⟨rfl, fun it hit => absurd hit (List.not_mem_nil it)⟩
  | cons it its ih =>
    intro s c fin ht h hshort
    obtain ⟨hb, hit, hrest⟩ := ht
    have hstep := Inv_step file c s h hb
    have hfl := iteration_found_le s c (by omega)
    rw [← hit] at hstep hfl
    have hB := h.buf
    have hflt : it.found.len < MIN_LEN := by
      simp only [MIN_LEN]; rw [hB] at hfl; omega
    have hlen : it.len = 1 := by
      rw [hit, iteration_len]
      have : (iteration s c).found.len < MIN_LEN := by rw [← hit]; exact hflt
      unfold slide_len
      rw [if_neg (by simpa using this)]
    rw [hlen] at hrest hstep
    obtain ⟨h1, h2⟩ := ih _ _ _ hrest hstep (by omega)
    have hclt : c < file.length := by rw [hB] at hb; omega
    have hunit : it.unit = CodeUnit.literal (file.getD c 0) := by
      rw [hit]
      show code_unit s (iteration s c).found = _
      unfold code_unit
      rw [if_neg (by rw [← hit]; simpa using hflt)]
      have := h.look 0 (by omega)
      rw [Nat.add_zero] at this
      rw [h.pat, this]
    refine ⟨?_, ?_⟩
    · rw [List.map_cons, h1, hunit, List.drop_eq_getElem_cons hclt, List.map_cons,
        List.getD_eq_getElem _ _ hclt]
    · intro it2 hmem
      rcases List.mem_cons.mp hmem with heq | hmem2
      · rw [heq]; exact hflt
      · exact h2 it2 hmem2

/-! ## The properties -/

/-- C1. Round trip at the unit level: for every input the compressor returns a
run, and replaying its units with the reference decoder (zero-filled window,
cursor 0, each unit read whole before it is written) gives back the input,
whose length is the length recorded in the header; every match unit has
length at least `MIN_LEN`. -/
theorem roundtrip_units (file : List Byte) :
    ∃ r, compress file = some r ∧
      (ref_decode (units r)).output = file ∧
      (ref_decode (units r)).output.length = r.header.file_size ∧
      ∀ pos len, CodeUnit.copy pos len ∈ units r → MIN_LEN ≤ len := by
  obtain ⟨r, hr, hhead, htr⟩ := compress_trace file
  have hdec := Trace_decode file r.iters (init file) 0 r.final htr (Inv_init file)
  have hout : (ref_decode (units r)).output = file := by
    have : ref_decode (units r)
        = (r.iters.map Iter.unit).foldl decode_unit
            ⟨(init file).win_buf, (init file).win_cnt, file.take 0⟩ := rfl
    rw [this, hdec]
  refine ⟨r, hr, hout, by rw [hout, hhead]; rfl, ?_⟩
  intro pos len hmem
  obtain ⟨it, hit, hu⟩ := List.mem_map.mp hmem
  obtain ⟨hall, _⟩ := Trace_inv file r.iters (init file) 0 r.final htr (Inv_init file)
  obtain ⟨_, _, hiter, _⟩ := hall it hit
  rw [hiter] at hu
  exact (copy_unit_len _ _ _ _ hu).2

/-- C2. Match validity: whatever the window, the lookahead, the cursor, the
available length and the chains, the candidate `search` returns agrees with
the lookahead at every offset below its length; hence a match unit sent by an
iteration has length at least `MIN_LEN` and agrees with the window of the
state the iteration started from. -/
theorem search_match_valid (w p : Nat → Byte) (pat_cnt : Nat) (buf_cnt : Int)
    (lzhash lznext : Nat → Option Nat) :
    (∀ j, j < (search w p pat_cnt buf_cnt lzhash lznext).len →
      w (((search w p pat_cnt buf_cnt lzhash lznext).pos + j) % WIN_BUFSIZE)
        = p ((pat_cnt + j) % PAT_BUFSIZE)) ∧
    ∀ (s : Session) (c pos len : Nat), (iteration s c).unit = CodeUnit.copy pos len →
      MIN_LEN ≤ len ∧
      ∀ j, j < len → s.win_buf ((pos + j) % WIN_BUFSIZE) = s.pattern ((s.pat_cnt + j) % PAT_BUFSIZE) := by
  refine ⟨search_agree w p pat_cnt buf_cnt lzhash lznext, ?_⟩
  intro s c pos len hu
  obtain ⟨hf, hlen⟩ := copy_unit_len s c pos len hu
  have hag := iteration_found_agree s c
  rw [hf] at hag
  exact ⟨hlen, hag⟩

/-- C3. Progress and termination: for every input the loop ends (the
compressor returns a run within one iteration per input byte), every
iteration slides by a length between 1 and `buf_cnt`, `buf_cnt` is never
negative and is 0 at the end, and the lengths add up to the input length.
The length of an iteration is the length of the match found, or 1 when that
is below `MIN_LEN`. -/
theorem session_progress (file : List Byte) :
    ∃ r, compress file = some r ∧
      (∀ it, it ∈ r.iters →
        it.len = (if MIN_LEN ≤ it.found.len then it.found.len else 1) ∧
        1 ≤ it.len ∧ (it.len : Int) ≤ it.pre.buf_cnt ∧
        0 ≤ it.pre.buf_cnt ∧ 0 ≤ it.post.buf_cnt) ∧
      r.final.buf_cnt = 0 ∧
      (r.iters.map Iter.len).sum = file.length := by
  obtain ⟨r, hr, _, htr⟩ := compress_trace file
  obtain ⟨hall, _, hfin, hsum⟩ := Trace_inv file r.iters (init file) 0 r.final htr (Inv_init file)
  refine ⟨r, hr, ?_, hfin, by omega⟩
  intro it hit
  obtain ⟨hpre, hb, hiter, hpost⟩ := hall it hit
  obtain ⟨h1, h2⟩ := iteration_len_bounds it.pre it.consumed hb
  rw [← hiter] at h1 h2
  refine ⟨?_, h1, h2, by omega, ?_⟩
  · rw [hiter]; exact iteration_len _ _
  · rw [hpost.buf]
    omega

/-- C4 as the spec words it, at the input `[1, 2]`: after the first slide the
cursor is 1 and one byte is consumed, so `k = 0` is in the range
`k < min(totalEmitted, W)`, but `window[cursor]` is still 0 while
`input[totalEmitted]` is 2. -/
theorem window_consistency_fails_at_zero :
    ∃ r, compress [1, 2] = some r ∧ ∃ it, it ∈ r.iters ∧
      0 < min (it.consumed + it.len) WIN_BUFSIZE ∧
      it.post.win_buf ((it.post.win_cnt + WIN_BUFSIZE - 0) % WIN_BUFSIZE)
        ≠ ([1, 2] : List Byte).getD (it.consumed + it.len - 0) 0 := by
  obtain ⟨r, hr, _, htr⟩ := compress_trace [1, 2]
  have hinv := Inv_init [1, 2]
  have hb0 : 0 < (init [1, 2]).buf_cnt := by rw [hinv.buf]; decide
  cases hits : r.iters with
  | nil =>
    rw [hits] at htr
    exact absurd hb0 htr.1
  | cons it its =>
    rw [hits] at htr
    obtain ⟨_, hit, _⟩ := htr
    have hstep := Inv_step [1, 2] 0 (init [1, 2]) hinv hb0
    have hfl := iteration_found_le (init [1, 2]) 0 (by omega)
    rw [← hit] at hstep hfl
    have hcon : it.consumed = 0 := by rw [hit]; rfl
    have hlen : it.len = 1 := by
      rw [hit, iteration_len]
      have hlt : (iteration (init [1, 2]) 0).found.len < 4 := by
        rw [← hit]
        rw [hinv.buf] at hfl
        have h2 : ((min 65536 (([1, 2] : List Byte).length - 0) : Nat) : Int) = 2 := by decide
        omega
      unfold slide_len
      rw [if_neg (by simpa using hlt)]
    refine ⟨r, hr, it, by rw [hits]; exact List.mem_cons_self _ _, ?_, ?_⟩
    · rw [hcon, hlen]; decide
    · rw [hlen] at hstep
      have hz := hstep.zero 1 (by decide)
      have hidx : (it.post.win_cnt + WIN_BUFSIZE - 0) % WIN_BUFSIZE = 1 := by
        rw [hstep.win]; rfl
      rw [hcon, hlen, hidx, hz]
      decide

/-- C4, amended: after each slide, with the cursor the post-slide `win_cnt`
and `totalEmitted` the bytes consumed so far, `window[(cursor - k) mod W]` is
`input[totalEmitted - k]` for every `1 ≤ k ≤ min(totalEmitted, W)`. -/
theorem window_consistency (file : List Byte) :
    ∃ r, compress file = some r ∧ ∀ it, it ∈ r.iters → ∀ k, 1 ≤ k →
      k ≤ min (it.consumed + it.len) WIN_BUFSIZE →
      it.post.win_buf ((it.post.win_cnt + WIN_BUFSIZE - k) % WIN_BUFSIZE)
        = file.getD (it.consumed + it.len - k) 0 := by
  obtain ⟨r, hr, _, htr⟩ := compress_trace file
  obtain ⟨hall, _⟩ := Trace_inv file r.iters (init file) 0 r.final htr (Inv_init file)
  refine ⟨r, hr, ?_⟩
  intro it hit k hk1 hk2
  obtain ⟨_, _, _, hpost⟩ := hall it hit
  rw [WIN_BUFSIZE_eq] at hk2 ⊢
  have := hpost.recent (it.consumed + it.len - k) (by omega) (by omega)
  rw [← this, hpost.win]
  congr 1
  omega

/-- C6. Selector emission: the loop sends the bit 1 for a length above
`MIN_LEN`, the bits 0,1 for a length of `MIN_LEN`, the bits 0,0 below; none
of the three strings is a prefix of another; and the bits an iteration adds
to the sink start with the selector of the length `search` returned. -/
theorem selector_emission (s : Session) (d : dpos_t) :
    (MIN_LEN < d.len → (put_selector s d).pOUT = s.pOUT ++ [Emit.bit 1]) ∧
    (d.len = MIN_LEN → (put_selector s d).pOUT = s.pOUT ++ [Emit.bit 0, Emit.bit 1]) ∧
    (d.len < MIN_LEN → (put_selector s d).pOUT = s.pOUT ++ [Emit.bit 0, Emit.bit 0]) ∧
    (¬ [Emit.bit 1] <+: [Emit.bit 0, Emit.bit 1] ∧ ¬ [Emit.bit 1] <+: [Emit.bit 0, Emit.bit 0] ∧
      ¬ [Emit.bit 0, Emit.bit 1] <+: [Emit.bit 1] ∧
      ¬ [Emit.bit 0, Emit.bit 1] <+: [Emit.bit 0, Emit.bit 0] ∧
      ¬ [Emit.bit 0, Emit.bit 0] <+: [Emit.bit 1] ∧
      ¬ [Emit.bit 0, Emit.bit 0] <+: [Emit.bit 0, Emit.bit 1]) ∧
    ∀ c, (iteration s c).found
        = search s.win_buf s.pattern s.pat_cnt s.buf_cnt s.lz.lzhash s.lz.lznext ∧
      (put_selector s (iteration s c).found).pOUT <+: (iteration s c).post.pOUT := by
  refine ⟨?_, ?_, ?_, by decide, ?_⟩
  · intro h
    rw [put_selector_pOUT, if_pos h]
  · intro h
    rw [put_selector_pOUT, if_neg (by omega), if_pos h]
  · intro h
    rw [put_selector_pOUT, if_neg (by omega), if_neg (by omega)]
  · intro c
    refine ⟨rfl, ?_⟩
    rw [iteration_emits, put_selector_pOUT]
    simp only [List.append_assoc]
    exact (List.prefix_append_right_inj _).mpr (List.prefix_append _ _)

/-- C7. Length code of a longer match: for `len > 4`, `put_codes` sets the
code to `len - 5`, so that `len = code + MIN_LEN + 1`; without the large flag
it passes the code to the integer coder with group width 1, with it it sends
`q = code >> 2` set bits and the 3-bit field `f = (code mod 4) << 1`, and
`4 * q + (f >> 1)` is the code again. -/
theorem length_code (s : Session) (d : dpos_t) (h : MIN_LEN < d.len) :
    (put_length s d).len_CODE = d.len - 5 ∧
    d.len = (put_length s d).len_CODE + MIN_LEN + 1 ∧
    (s.large_text = 0 →
      (put_length s d).pOUT = s.pOUT ++ [Emit.vlcode (d.len - 5) 1]) ∧
    (s.large_text ≠ 0 →
      (put_length s d).pOUT = s.pOUT ++ List.replicate ((d.len - 5) >>> 2) (Emit.bit 1)
        ++ [Emit.nbits (((d.len - 5) % 4) <<< 1) 3]) ∧
    4 * ((d.len - 5) >>> 2) + ((((d.len - 5) % 4) <<< 1) >>> 1) = d.len - 5 ∧
    (put_codes s d).1.len_CODE = d.len - 5 := by
  have hcode : (put_length s d).len_CODE = d.len - 5 := by
    unfold put_length
    by_cases h2 : s.large_text = 0
    · simp [h, h2, put_vlcode]
    · simp [h, h2, put_nbits, put_ONEs_fields]
  have hge : MIN_LEN ≤ d.len := Nat.le_of_lt h
  refine ⟨hcode, ?_, ?_, ?_, ?_, ?_⟩
  · rw [hcode]; simp only [MIN_LEN] at h ⊢; omega
  · intro h2
    rw [put_length_pOUT, if_pos h, if_pos h2]
  · intro h2
    rw [put_length_pOUT, if_pos h, if_neg h2, List.append_assoc]
    rfl
  · simp only [Nat.shiftRight_eq_div_pow, Nat.shiftLeft_eq]
    omega
  · simp only [put_codes, put_position, ge_iff_le, hge, if_true]
    exact hcode

/-- C7 at a match of length 12 in a session with the large flag set: the code
is 7, sent as one set bit and the field 6. -/
theorem length_code_witness :
    (put_length { init [] with large_text := 1 } ⟨0, 12⟩).len_CODE = 12 - 5 ∧
    12 = (put_length { init [] with large_text := 1 } ⟨0, 12⟩).len_CODE + MIN_LEN + 1 ∧
    (({ init [] with large_text := 1 } : Session).large_text = 0 →
      (put_length { init [] with large_text := 1 } ⟨0, 12⟩).pOUT
        = ({ init [] with large_text := 1 } : Session).pOUT ++ [Emit.vlcode (12 - 5) 1]) ∧
    (({ init [] with large_text := 1 } : Session).large_text ≠ 0 →
      (put_length { init [] with large_text := 1 } ⟨0, 12⟩).pOUT
        = ({ init [] with large_text := 1 } : Session).pOUT
          ++ List.replicate ((12 - 5) >>> 2) (Emit.bit 1)
          ++ [Emit.nbits (((12 - 5) % 4) <<< 1) 3]) ∧
    4 * ((12 - 5) >>> 2) + ((((12 - 5) % 4) <<< 1) >>> 1) = 12 - 5 ∧
    (put_codes { init [] with large_text := 1 } ⟨0, 12⟩).1.len_CODE = 12 - 5 :=
  length_code { init [] with large_text := 1 } ⟨0, 12⟩ (by decide)

/-- C8. Length bound of the match finder: with `0 ≤ buf_cnt`, `search`
returns a length between 0 and `buf_cnt`, and with `buf_cnt ≤ 1` it returns
length 0 and examines no chain entry. -/
theorem search_length_bound (w p : Nat → Byte) (pat_cnt : Nat) (buf_cnt : Int)
    (lzhash lznext : Nat → Option Nat) (h0 : 0 ≤ buf_cnt) :
    (0 : Int) ≤ (search w p pat_cnt buf_cnt lzhash lznext).len ∧
    ((search w p pat_cnt buf_cnt lzhash lznext).len : Int) ≤ buf_cnt ∧
    (buf_cnt ≤ 1 →
      (search w p pat_cnt buf_cnt lzhash lznext).len = 0 ∧
      (searchRun w p pat_cnt buf_cnt lzhash lznext).examined = []) := by
  refine ⟨Int.ofNat_nonneg _, search_len_le w p pat_cnt buf_cnt lzhash lznext h0, ?_⟩
  intro h1
  unfold search searchRun
  rw [if_neg (by omega)]
  exact ⟨rfl, rfl⟩

/-- C8 at a window holding 1,2,3 from position 5, a lookahead 1,2,3,9 and a
chain made of position 5 alone: with 3 bytes available the length found is
3. -/
theorem search_length_bound_witness :
    (0 : Int) ≤ (search (fun x => if x = 5 then 1 else if x = 6 then 2 else if x = 7 then 3 else 0)
        (fun x => if x = 0 then 1 else if x = 1 then 2 else if x = 2 then 3 else 9) 0 3
        (fun _ => some 5) (fun _ => none)).len ∧
    ((search (fun x => if x = 5 then 1 else if x = 6 then 2 else if x = 7 then 3 else 0)
        (fun x => if x = 0 then 1 else if x = 1 then 2 else if x = 2 then 3 else 9) 0 3
        (fun _ => some 5) (fun _ => none)).len : Int) ≤ 3 ∧
    ((3 : Int) ≤ 1 →
      (search (fun x => if x = 5 then 1 else if x = 6 then 2 else if x = 7 then 3 else 0)
        (fun x => if x = 0 then 1 else if x = 1 then 2 else if x = 2 then 3 else 9) 0 3
        (fun _ => some 5) (fun _ => none)).len = 0 ∧
      (searchRun (fun x => if x = 5 then 1 else if x = 6 then 2 else if x = 7 then 3 else 0)
        (fun x => if x = 0 then 1 else if x = 1 then 2 else if x = 2 then 3 else 9) 0 3
        (fun _ => some 5) (fun _ => none)).examined = []) :=
  search_length_bound _ _ 0 3 _ _ (by decide)

/-- C9. Inputs shorter than `MIN_LEN`: the run has one unit per input byte,
each the literal of that byte, in order; no iteration finds a length of
`MIN_LEN` or more, each sends the selector 0,0 and the rank of its byte and
nothing else; the empty input sends nothing. -/
theorem short_input_literals (file : List Byte) (h : file.length < 4) :
    ∃ r, compress file = some r ∧
      units r = file.map CodeUnit.literal ∧
      (∀ it, it ∈ r.iters → it.found.len < MIN_LEN ∧
        ∃ rank, it.post.pOUT = it.pre.pOUT ++ [Emit.bit 0, Emit.bit 0, Emit.vlcode rank 3]) ∧
      (file = [] → r.final.pOUT = []) := by
  obtain ⟨r, hr, _, htr⟩ := compress_trace file
  obtain ⟨hunits, hlens⟩ := Trace_short file r.iters (init file) 0 r.final htr (Inv_init file)
    (by omega)
  obtain ⟨hall, _⟩ := Trace_inv file r.iters (init file) 0 r.final htr (Inv_init file)
  refine ⟨r, hr, hunits, ?_, ?_⟩
  · intro it hit
    have hlt := hlens it hit
    refine ⟨hlt, (mtf it.pre.mtf_table (it.pre.pattern it.pre.pat_cnt)).1, ?_⟩
    obtain ⟨_, _, hiter, _⟩ := hall it hit
    have hem := iteration_emits it.pre it.consumed
    rw [← hiter] at hem
    have h1 : ¬ it.found.len > MIN_LEN := by omega
    have h2 : ¬ it.found.len = MIN_LEN := by omega
    have h3 : ¬ it.found.len ≥ MIN_LEN := by omega
    rw [hem, if_neg h1, if_neg h2, if_neg h1, if_neg h3]
    rfl
  · intro hnil
    subst hnil
    have hb0 : ¬ 0 < (init []).buf_cnt := by rw [(Inv_init []).buf]; decide
    cases hits : r.iters with
    | nil =>
      rw [hits] at htr
      rw [htr.2]
      rfl
    | cons it its =>
      rw [hits] at htr
      exact absurd htr.1 hb0

/-- C9 at the three bytes 1, 2, 3. -/
theorem short_input_literals_witness :
    ∃ r, compress [1, 2, 3] = some r ∧
      units r = ([1, 2, 3] : List Byte).map CodeUnit.literal ∧
      (∀ it, it ∈ r.iters → it.found.len < MIN_LEN ∧
        ∃ rank, it.post.pOUT = it.pre.pOUT ++ [Emit.bit 0, Emit.bit 0, Emit.vlcode rank 3]) ∧
      (([1, 2, 3] : List Byte) = [] → r.final.pOUT = []) :=
  short_input_literals [1, 2, 3] (by decide)

/-- C10. Coding mode and header flag: the flag byte of the header is 1 when
the input has at least 1,048,576 bytes and 0 otherwise; every iteration
starts and ends with `large_text` equal to that flag; and an iteration that
finds a match longer than `MIN_LEN` sends, between the selector 1 and the
position, the folded unary code when the flag is 1 and the integer code with
group width 1 when it is 0. -/
theorem coding_mode (file : List Byte) :
    ∃ r, compress file = some r ∧
      (r.header.algorithm.getD 3 0 = 1 ↔ 1048576 ≤ file.length) ∧
      (r.header.algorithm.getD 3 0 = 0 ↔ file.length < 1048576) ∧
      r.header.file_size = file.length ∧
      ∀ it, it ∈ r.iters →
        it.pre.large_text = r.header.algorithm.getD 3 0 ∧
        it.post.large_text = r.header.algorithm.getD 3 0 ∧
        (MIN_LEN < it.found.len →
          (r.header.algorithm.getD 3 0 = 0 →
            it.post.pOUT = it.pre.pOUT ++ ([Emit.bit 1] ++ [Emit.vlcode (it.found.len - 5) 1]
              ++ [Emit.nbits it.found.pos 17])) ∧
          (r.header.algorithm.getD 3 0 = 1 →
            it.post.pOUT = it.pre.pOUT ++ ([Emit.bit 1]
              ++ (List.replicate ((it.found.len - 5) >>> 2) (Emit.bit 1)
                ++ [Emit.nbits (((it.found.len - 5) % 4) <<< 1) 3])
              ++ [Emit.nbits it.found.pos 17]))) := by
  obtain ⟨r, hr, hhead, htr⟩ := compress_trace file
  obtain ⟨hall, _⟩ := Trace_inv file r.iters (init file) 0 r.final htr (Inv_init file)
  have hflag : r.header.algorithm.getD 3 0 = large_text_of file.length := by rw [hhead]; rfl
  refine ⟨r, hr, ?_, ?_, by rw [hhead]; rfl, ?_⟩
  · rw [hflag]; unfold large_text_of; split <;> simp <;> omega
  · rw [hflag]; unfold large_text_of; split <;> simp <;> omega
  · intro it hit
    obtain ⟨hpre, _, hiter, hpost⟩ := hall it hit
    rw [hflag]
    refine ⟨hpre.flag, hpost.flag, ?_⟩
    intro hlen
    have hem := iteration_emits it.pre it.consumed
    rw [← hiter, hpre.flag] at hem
    have hge : it.found.len ≥ MIN_LEN := Nat.le_of_lt hlen
    constructor
    · intro h0
      rw [hem, if_pos hlen, if_pos hlen, if_pos h0, if_pos hge]
    · intro h1
      rw [hem, if_pos hlen, if_pos hlen, if_neg (by omega), if_pos hge]
      rfl

/-! ## The hash chains as doubly linked lists -/

theorem insert_lznode_lzhash (ix : LzIndex) (h i b : Nat) :
    (insert_lznode ix h i).lzhash b = if b = h then some i else ix.lzhash b := by
  unfold insert_lznode
  cases ix.lzhash h <;> simp [Function.update_apply]

theorem insert_lznode_lznext (ix : LzIndex) (h i x : Nat) :
    (insert_lznode ix h i).lznext x = if x = i then ix.lzhash h else ix.lznext x := by
  unfold insert_lznode
  cases ix.lzhash h <;> simp [Function.update_apply]

theorem insert_lznode_lzprev (ix : LzIndex) (h i x : Nat) :
    (insert_lznode ix h i).lzprev x
      = if ix.lzhash h = some x then some i else if x = i then none else ix.lzprev x := by
  unfold insert_lznode
  cases hk : ix.lzhash h with
  | none => simp [Function.update_apply]
  | some k =>
    simp only [Function.update_apply, Option.some.injEq]
    by_cases hx : x = k
    · simp [hx]
    · have : ¬ k = x := fun e => hx e.symm
      simp [hx, this]

theorem delete_lznode_lzhash (ix : LzIndex) (h i b : Nat) :
    (delete_lznode ix h i).lzhash b
      = if ix.lzprev i = none ∧ b = h then ix.lznext i else ix.lzhash b := by
  unfold delete_lznode
  cases ix.lzprev i <;> simp [Function.update_apply]

theorem delete_lznode_lznext (ix : LzIndex) (h i x : Nat) :
    (delete_lznode ix h i).lznext x
      = if x = i then none else if ix.lzprev i = some x then ix.lznext i else ix.lznext x := by
  unfold delete_lznode
  cases hp : ix.lzprev i with
  | none => simp [Function.update_apply]
  | some q =>
    simp only [Function.update_apply, Option.some.injEq]
    by_cases hx : x = i
    · simp [hx]
    · by_cases hq : x = q
      · simp [hx, hq]
      · have : ¬ q = x := fun e => hq e.symm
        simp [hx, hq, this]

theorem delete_lznode_lzprev (ix : LzIndex) (h i x : Nat) :
    (delete_lznode ix h i).lzprev x
      = if x = i then none else if ix.lznext i = some x then ix.lzprev i else ix.lzprev x := by
  unfold delete_lznode
  cases hn : ix.lznext i with
  | none => simp [Function.update_apply]
  | some r =>
    simp only [Function.update_apply, Option.some.injEq]
    by_cases hx : x = i
    · simp [hx]
    · by_cases hr : x = r
      · simp [hx, hr]
      · have : ¬ r = x := fun e => hr e.symm
        simp [hx, hr, this]

theorem seg_frame (ix ix2 : LzIndex) :
    ∀ (l : List Nat) (pv cur : Option Nat),
      (∀ x, x ∈ l → ix2.lznext x = ix.lznext x ∧ ix2.lzprev x = ix.lzprev x) →
      Seg ix pv cur l → Seg ix2 pv cur l := by
  intro l
  induction l with
  | nil => intro pv cur _ h; exact h
  | cons x xs ih =>
    intro pv cur hfr h
    obtain ⟨h1, h2, h3⟩ := h
    obtain ⟨f1, f2⟩ := hfr x (List.mem_cons_self _ _)
    refine ⟨h1, by rw [f2]; exact h2, ?_⟩
    rw [f1]
    exact ih _ _ (fun y hy => hfr y (List.mem_cons_of_mem _ hy)) h3

theorem seg_head (ix : LzIndex) (pv cur : Option Nat) (l : List Nat) (h : Seg ix pv cur l) :
    cur = l.head? := by
  cases l with
  | nil => exact h
  | cons x xs => exact h.1

/-- The neighbours of an entry of a segment are entries of the segment. -/
theorem seg_links (ix : LzIndex) (p : Nat) :
    ∀ (l : List Nat) (pv cur : Option Nat), Seg ix pv cur l → p ∈ l →
      (∀ z, ix.lzprev p = some z → z ∈ l ∨ pv = some z) ∧
      (∀ r, ix.lznext p = some r → r ∈ l) := by
  intro l
  induction l with
  | nil => intro pv cur _ hp; exact absurd hp (List.not_mem_nil p)
  | cons x xs ih =>
    intro pv cur h hp
    obtain ⟨h1, h2, h3⟩ := h
    rcases List.mem_cons.mp hp with hpx | hpxs
    · subst hpx
      refine ⟨fun z hz => Or.inr (by rw [← h2, hz]), ?_⟩
      intro r hr
      have := seg_head ix _ _ _ h3
      rw [hr] at this
      exact List.mem_cons_of_mem _ (List.mem_of_mem_head? this.symm)
    · obtain ⟨i1, i2⟩ := ih _ _ h3 hpxs
      refine ⟨?_, fun r hr => List.mem_cons_of_mem _ (i2 r hr)⟩
      intro z hz
      rcases i1 z hz with hz1 | hz2
      · exact Or.inl (List.mem_cons_of_mem _ hz1)
      · simp only [Option.some.injEq] at hz2
        subst hz2
        exact Or.inl (List.mem_cons_self _ _)

theorem insert_rep (ix : LzIndex) (ch : Nat → List Nat) (h p : Nat) (hrep : Rep ix ch)
    (hpart : Part ch) (hp : ∀ b, p ∉ ch b) :
    Rep (insert_lznode ix h p) (Function.update ch h (p :: ch h)) := by
  intro b
  by_cases hb : b = h
  · subst hb
    rw [Function.update_same, insert_lznode_lzhash, if_pos rfl]
    refine ⟨rfl, ?_, ?_⟩
    · rw [insert_lznode_lzprev, if_neg, if_pos rfl]
      intro hk
      have := seg_head ix _ _ _ (hrep b)
      rw [hk] at this
      exact hp b (List.mem_of_mem_head? this.symm)
    · rw [insert_lznode_lznext, if_pos rfl]
      have hseg := hrep b
      cases hl : ch b with
      | nil =>
        rw [hl] at hseg
        exact hseg
      | cons k xs =>
        rw [hl] at hseg
        obtain ⟨h1, h2, h3⟩ := hseg
        have hkp : k ≠ p := fun e => hp b (by rw [hl, e]; exact List.mem_cons_self _ _)
        have hnd : (k :: xs).Nodup := by rw [← hl]; exact hpart.1 b
        refine ⟨h1, ?_, ?_⟩
        · rw [insert_lznode_lzprev, if_pos h1]
        · rw [insert_lznode_lznext, if_neg hkp]
          refine seg_frame ix _ xs _ _ ?_ h3
          intro x hx
          have hxp : x ≠ p := fun e => hp b (by rw [hl, ← e]; exact List.mem_cons_of_mem _ hx)
          have hxk : x ≠ k := fun e => (List.nodup_cons.mp hnd).1 (by rw [← e]; exact hx)
          rw [insert_lznode_lznext, if_neg hxp, insert_lznode_lzprev, h1, if_neg, if_neg hxp]
          · exact ⟨rfl, rfl⟩
          · intro e
            simp only [Option.some.injEq] at e
            exact hxk e.symm
  · rw [Function.update_noteq hb, insert_lznode_lzhash, if_neg hb]
    refine seg_frame ix _ _ _ _ ?_ (hrep b)
    intro x hx
    have hxp : x ≠ p := fun e => hp b (by rw [← e]; exact hx)
    rw [insert_lznode_lznext, if_neg hxp, insert_lznode_lzprev, if_neg, if_neg hxp]
    · exact ⟨rfl, rfl⟩
    · intro hk
      have := seg_head ix _ _ _ (hrep h)
      rw [hk] at this
      exact hb (hpart.2 b h x hx (List.mem_of_mem_head? this.symm))

theorem seg_delete_tail (ix : LzIndex) (h p : Nat) (l2 : List Nat)
    (hseg : Seg ix (some p) (ix.lznext p) l2) (hp : p ∉ l2) (hnd : l2.Nodup)
    (hq : ∀ x, x ∈ l2 → ix.lzprev p ≠ some x) :
    Seg (delete_lznode ix h p) (ix.lzprev p) (ix.lznext p) l2 := by
  cases l2 with
  | nil => exact hseg
  | cons r xs =>
    obtain ⟨h1, h2, h3⟩ := hseg
    have hrp : r ≠ p := fun e => hp (by rw [e]; exact List.mem_cons_self _ _)
    refine ⟨h1, ?_, ?_⟩
    · rw [delete_lznode_lzprev, if_neg hrp, if_pos h1]
    · rw [delete_lznode_lznext, if_neg hrp, if_neg (hq r (List.mem_cons_self _ _))]
      refine seg_frame ix _ xs _ _ ?_ h3
      intro x hx
      have hxp : x ≠ p := fun e => hp (by rw [← e]; exact List.mem_cons_of_mem _ hx)
      have hxr : x ≠ r := fun e => (List.nodup_cons.mp hnd).1 (by rw [← e]; exact hx)
      rw [delete_lznode_lznext, if_neg hxp, if_neg (hq x (List.mem_cons_of_mem _ hx)),
        delete_lznode_lzprev, if_neg hxp, h1, if_neg]
      · exact ⟨rfl, rfl⟩
      · intro e
        simp only [Option.some.injEq] at e
        exact hxr e.symm

theorem seg_delete_mid (ix : LzIndex) (h p : Nat) (l2 : List Nat) :
    ∀ (l1 : List Nat) (x : Nat) (pv : Option Nat),
      Seg ix pv (some x) (x :: l1 ++ p :: l2) → (x :: l1 ++ p :: l2).Nodup →
      Seg (delete_lznode ix h p) pv (some x) (x :: l1 ++ l2) ∧
      ∃ z, z ∈ x :: l1 ∧ ix.lzprev p = some z := by
  intro l1
  induction l1 with
  | nil =>
    intro x pv hseg hnd
    obtain ⟨_, h2, h3⟩ := hseg
    obtain ⟨h4, h5, h6⟩ := h3
    have hnd' : (x :: p :: l2).Nodup := hnd
    simp only [List.nodup_cons, List.mem_cons, not_or] at hnd'
    obtain ⟨⟨hxp, hxl2⟩, hpl2, hnd2⟩ := hnd'
    have hnx : ix.lznext p ≠ some x := by
      intro e
      have := seg_head ix _ _ _ h6
      rw [e] at this
      exact hxl2 (List.mem_of_mem_head? this.symm)
    refine ⟨⟨rfl, ?_, ?_⟩, x, List.mem_cons_self _ _, h5⟩
    · rw [delete_lznode_lzprev, if_neg hxp, if_neg hnx]
      exact h2
    · rw [delete_lznode_lznext, if_neg hxp, if_pos h5]
      have := seg_delete_tail ix h p l2 h6 hpl2 hnd2 (by
        intro y hy e
        rw [h5] at e
        simp only [Option.some.injEq] at e
        exact hxl2 (by rw [e]; exact hy))
      rw [h5] at this
      exact this
  | cons y l1 ih =>
    intro x pv hseg hnd
    obtain ⟨_, h2, h3⟩ := hseg
    have h3' : Seg ix (some x) (ix.lznext x) (y :: l1 ++ p :: l2) := h3
    have hy : ix.lznext x = some y := h3'.1
    rw [hy] at h3'
    have hnd' : (x :: (y :: l1 ++ p :: l2)).Nodup := hnd
    obtain ⟨hxn, hnd2⟩ := List.nodup_cons.mp hnd'
    obtain ⟨i1, z, hz1, hz2⟩ := ih y (some x) h3' hnd2
    have hxp : x ≠ p := by
      intro e
      exact hxn (by rw [e]; simp)
    have hxz : x ≠ z := by
      intro e
      exact hxn (by
        rw [e]
        exact List.mem_append_left _ hz1)
    have hnx : ix.lznext p ≠ some x := by
      intro e
      have hpm : p ∈ y :: l1 ++ p :: l2 := by simp
      have := (seg_links ix p _ _ _ h3' hpm).2 x e
      exact hxn this
    refine ⟨⟨rfl, ?_, ?_⟩, z, List.mem_cons_of_mem _ hz1, hz2⟩
    · rw [delete_lznode_lzprev, if_neg hxp, if_neg hnx]
      exact h2
    · rw [delete_lznode_lznext, if_neg hxp, if_neg, hy]
      · exact i1
      · rw [hz2]
        intro e
        simp only [Option.some.injEq] at e
        exact hxz e.symm

theorem delete_rep (ix : LzIndex) (ch : Nat → List Nat) (h p : Nat) (hrep : Rep ix ch)
    (hpart : Part ch) (hp : p ∈ ch h) :
    Rep (delete_lznode ix h p) (Function.update ch h ((ch h).erase p)) := by
  obtain ⟨l1, l2, hl⟩ := List.append_of_mem hp
  have hnd : (l1 ++ p :: l2).Nodup := by rw [← hl]; exact hpart.1 h
  have hpl1 : p ∉ l1 := by
    intro hmem
    have := List.nodup_append.mp hnd
    exact this.2.2 hmem (List.mem_cons_self _ _)
  have herase : (ch h).erase p = l1 ++ l2 := by
    rw [hl, List.erase_append_right _ hpl1, List.erase_cons_head]
  have hlinks := seg_links ix p _ _ _ (hrep h) hp
  intro b
  by_cases hb : b = h
  · subst hb
    rw [Function.update_same, herase]
    have hseg := hrep b
    rw [hl] at hseg
    cases l1 with
    | nil =>
      obtain ⟨h1, h2, h3⟩ := hseg
      simp only [List.nil_append, List.nodup_cons] at hnd
      rw [delete_lznode_lzhash, if_pos ⟨h2, rfl⟩]
      have := seg_delete_tail ix b p l2 h3 hnd.1 hnd.2 (by intro x _; rw [h2]; simp)
      rw [h2] at this
      exact this
    | cons x l1 =>
      have hx : ix.lzhash b = some x := hseg.1
      rw [hx] at hseg
      obtain ⟨i1, z, _, hz2⟩ := seg_delete_mid ix b p l2 l1 x none hseg hnd
      rw [delete_lznode_lzhash, if_neg (by rw [hz2]; simp), hx]
      exact i1
  · rw [Function.update_noteq hb, delete_lznode_lzhash, if_neg (fun e => hb e.2)]
    refine seg_frame ix _ _ _ _ ?_ (hrep b)
    intro x hx
    have hxh : x ∉ ch h := fun hm => hb (hpart.2 b h x hx hm)
    have hxp : x ≠ p := fun e => hxh (by rw [e]; exact hp)
    have hpv : ix.lzprev p ≠ some x := by
      intro e
      rcases hlinks.1 x e with h1 | h1
      · exact hxh h1
      · exact absurd h1 (by simp)
    have hnx : ix.lznext p ≠ some x := fun e => hxh (hlinks.2 x e)
    rw [delete_lznode_lznext, if_neg hxp, if_neg hpv, delete_lznode_lzprev, if_neg hxp,
      if_neg hnx]
    exact ⟨rfl, rfl⟩

/-! ## Counting the positions in the chains -/

theorem cnt_part (S : Nat → Nat → Prop) (ch : Nat → List Nat) (hcnt : Cnt S ch)
    (hfun : ∀ b b' x, S b x → S b' x → b = b') : Part ch := by
  constructor
  · intro b
    rw [List.nodup_iff_count_le_one]
    intro a
    by_cases hs : S b a
    · rw [(hcnt b a).1 hs]
    · rw [(hcnt b a).2 hs]; omega
  · intro b b' x hx hx'
    have h1 : S b x := by
      by_contra hs
      have := (hcnt b x).2 hs
      exact (List.count_eq_zero.mp this) hx
    have h2 : S b' x := by
      by_contra hs
      have := (hcnt b' x).2 hs
      exact (List.count_eq_zero.mp this) hx'
    exact hfun b b' x h1 h2

theorem cnt_mem (S : Nat → Nat → Prop) (ch : Nat → List Nat) (hcnt : Cnt S ch) (b p : Nat) :
    p ∈ ch b ↔ S b p := by
  constructor
  · intro hp
    by_contra hs
    exact (List.count_eq_zero.mp ((hcnt b p).2 hs)) hp
  · intro hs
    have := (hcnt b p).1 hs
    exact List.count_pos_iff.mp (by omega)

theorem cnt_congr (S S2 : Nat → Nat → Prop) (ch : Nat → List Nat)
    (h : ∀ b p, S b p ↔ S2 b p) (hcnt : Cnt S ch) : Cnt S2 ch := by
  intro b p
  exact ⟨fun hs => (hcnt b p).1 ((h b p).mpr hs), fun hs => (hcnt b p).2 (fun h2 => hs ((h b p).mp h2))⟩

theorem good_congr (S S2 : Nat → Nat → Prop) (ix : LzIndex)
    (h : ∀ b p, S b p ↔ S2 b p) (hg : Good S ix) : Good S2 ix := by
  obtain ⟨ch, h1, h2⟩ := hg
  exact ⟨ch, h1, cnt_congr S S2 ch h h2⟩

theorem good_insert (S : Nat → Nat → Prop) (ix : LzIndex) (h p : Nat) (hg : Good S ix)
    (hfun : ∀ b b' x, S b x → S b' x → b = b') (hp : ∀ b, ¬ S b p) :
    Good (fun b x => S b x ∨ (b = h ∧ x = p)) (insert_lznode ix h p) := by
  obtain ⟨ch, hrep, hcnt⟩ := hg
  have hnot : ∀ b, p ∉ ch b := fun b hm => hp b ((cnt_mem S ch hcnt b p).mp hm)
  refine ⟨_, insert_rep ix ch h p hrep (cnt_part S ch hcnt hfun) hnot, ?_⟩
  intro b x
  by_cases hb : b = h
  · subst hb
    rw [Function.update_same, List.count_cons]
    by_cases hx : x = p
    · subst hx
      simp only [beq_self_eq_true, if_true, and_self, or_true, not_true_eq_false,
        forall_true_left, false_implies, and_true]
      rw [(hcnt b x).2 (hp b)]
    · have hpx : ¬ (p == x) = true := by simpa using fun e => hx e.symm
      simp only [hpx, if_false, Nat.add_zero, hx, and_false, or_false]
      exact hcnt b x
  · rw [Function.update_noteq hb]
    simp only [hb, false_and, or_false]
    exact hcnt b x

theorem good_delete (S : Nat → Nat → Prop) (ix : LzIndex) (h p : Nat) (hg : Good S ix)
    (hfun : ∀ b b' x, S b x → S b' x → b = b') (hp : S h p) :
    Good (fun b x => S b x ∧ x ≠ p) (delete_lznode ix h p) := by
  obtain ⟨ch, hrep, hcnt⟩ := hg
  have hmem : p ∈ ch h := (cnt_mem S ch hcnt h p).mpr hp
  refine ⟨_, delete_rep ix ch h p hrep (cnt_part S ch hcnt hfun) hmem, ?_⟩
  intro b x
  by_cases hb : b = h
  · subst hb
    rw [Function.update_same, List.count_erase]
    by_cases hx : x = p
    · subst hx
      rw [(hcnt b x).1 hp]
      simp
    · have hpx : ¬ (p == x) = true := by simpa using fun e => hx e.symm
      simp only [hpx, if_false, Nat.sub_zero, ne_eq, hx, not_false_eq_true, and_true]
      exact hcnt b x
  · rw [Function.update_noteq hb]
    by_cases hx : x = p
    · subst hx
      simp only [ne_eq, not_true_eq_false, and_false, false_implies, not_false_eq_true,
        forall_true_left, true_and]
      exact (hcnt b x).2 (fun hs => hb (hfun b h x hs hp))
    · simp only [ne_eq, hx, not_false_eq_true, and_true]
      exact hcnt b x

/-- Emptying the links of a position that is in no chain changes no chain. -/
theorem good_clear (S : Nat → Nat → Prop) (ix : LzIndex) (i : Nat) (hg : Good S ix)
    (hi : ∀ b, ¬ S b i) :
    Good S { ix with lznext := Function.update ix.lznext i LZ_NULL
                     lzprev := Function.update ix.lzprev i LZ_NULL } := by
  obtain ⟨ch, hrep, hcnt⟩ := hg
  refine ⟨ch, ?_, hcnt⟩
  intro b
  refine seg_frame ix _ _ _ _ ?_ (hrep b)
  intro x hx
  have hxi : x ≠ i := fun e => hi b ((cnt_mem S ch hcnt b i).mp (by rw [← e]; exact hx))
  exact ⟨Function.update_noteq hxi _ _, Function.update_noteq hxi _ _⟩

/-! ## The index across `put_codes` and the initialisation -/

theorem hash_mod (buf : Nat → Byte) (x : Nat) :
    hash buf x WIN_MASK WIN_MASK = hash buf (x % 131072) WIN_MASK WIN_MASK := by
  unfold hash
  simp only [and_WIN_MASK, Nat.mod_mod, Nat.mod_add_mod]

theorem hash_congr (buf buf2 : Nat → Byte) (x : Nat)
    (h : ∀ t, t < 4 → buf ((x + t) % 131072) = buf2 ((x + t) % 131072)) :
    hash buf x WIN_MASK WIN_MASK = hash buf2 x WIN_MASK WIN_MASK := by
  unfold hash
  simp only [and_WIN_MASK]
  have h0 := h 0 (by omega)
  rw [Nat.add_zero] at h0
  rw [h0, h 1 (by omega), h 2 (by omega), h 3 (by omega)]

theorem slots_fun (win_buf : Nat → Byte) (k lo hi : Nat) :
    ∀ b b' x, Slots win_buf k lo hi b x → Slots win_buf k lo hi b' x → b = b' := by
  intro b b' x h1 h2
  rw [h1.2.2, h2.2.2]

theorem delete_range_good (win_buf : Nat → Byte) (k : Nat) (ix : LzIndex)
    (hg : Good (Slots win_buf k 0 0) ix) :
    ∀ cnt, cnt ≤ 131072 → Good (Slots win_buf k 0 cnt) (delete_range win_buf k cnt ix) := by
  intro cnt
  induction cnt with
  | zero => intro _; exact hg
  | succ j ih =>
    intro hj
    have hprev := ih (by omega)
    have hstep : delete_range win_buf k (j + 1) ix
        = delete_lznode (delete_range win_buf k j ix) (hash win_buf (k + j) WIN_MASK WIN_MASK)
            ((k + j) &&& WIN_MASK) := by
      simp only [delete_range, List.range_succ, List.foldl_append, List.foldl_cons, List.foldl_nil]
    rw [hstep, and_WIN_MASK, hash_mod]
    have hS : Slots win_buf k 0 j (hash win_buf ((k + j) % 131072) WIN_MASK WIN_MASK)
        ((k + j) % 131072) := by
      refine ⟨Nat.mod_lt _ (by omega), ?_, rfl⟩
      rintro ⟨i, _, hi2, hi3⟩
      omega
    refine good_congr _ _ _ ?_ (good_delete _ _ _ _ hprev (slots_fun win_buf k 0 j) hS)
    intro b p
    constructor
    · rintro ⟨⟨h1, h2, h3⟩, h4⟩
      refine ⟨h1, ?_, h3⟩
      rintro ⟨i, hi1, hi2, hi3⟩
      by_cases hij : i = j
      · subst hij; exact h4 hi3
      · exact h2 ⟨i, hi1, by omega, hi3⟩
    · rintro ⟨h1, h2, h3⟩
      refine ⟨⟨h1, ?_, h3⟩, ?_⟩
      · rintro ⟨i, hi1, hi2, hi3⟩
        exact h2 ⟨i, hi1, by omega, hi3⟩
      · intro e
        exact h2 ⟨j, by omega, by omega, e⟩

theorem insert_range_good (win_buf : Nat → Byte) (k cnt : Nat) (ix : LzIndex)
    (hcnt : cnt ≤ 131072) (hg : Good (Slots win_buf k 0 cnt) ix) :
    ∀ j, j ≤ cnt → Good (Slots win_buf k j cnt) (insert_range win_buf k j ix) := by
  intro j
  induction j with
  | zero => intro _; exact hg
  | succ j ih =>
    intro hj
    have hprev := ih (by omega)
    have hstep : insert_range win_buf k (j + 1) ix
        = insert_lznode (insert_range win_buf k j ix) (hash win_buf (k + j) WIN_MASK WIN_MASK)
            ((k + j) &&& WIN_MASK) := by
      simp only [insert_range, List.range_succ, List.foldl_append, List.foldl_cons, List.foldl_nil]
    rw [hstep, and_WIN_MASK, hash_mod]
    have hS : ∀ b, ¬ Slots win_buf k j cnt b ((k + j) % 131072) := by
      rintro b ⟨_, h2, _⟩
      exact h2 ⟨j, by omega, by omega, rfl⟩
    refine good_congr _ _ _ ?_ (good_insert _ _ _ _ hprev (slots_fun win_buf k j cnt) hS)
    intro b p
    constructor
    · rintro (⟨h1, h2, h3⟩ | ⟨h1, h2⟩)
      · refine ⟨h1, ?_, h3⟩
        rintro ⟨i, hi1, hi2, hi3⟩
        exact h2 ⟨i, by omega, hi2, hi3⟩
      · subst h2
        refine ⟨Nat.mod_lt _ (by omega), ?_, h1⟩
        rintro ⟨i, hi1, hi2, hi3⟩
        omega
    · rintro ⟨h1, h2, h3⟩
      by_cases hp : p = (k + j) % 131072
      · exact Or.inr ⟨by rw [h3, hp], hp⟩
      · refine Or.inl ⟨h1, ?_, h3⟩
        rintro ⟨i, hi1, hi2, hi3⟩
        by_cases hij : i = j
        · subst hij; exact hp hi3
        · exact h2 ⟨i, by omega, hi2, hi3⟩

theorem leftmost_mod (win_cnt : Nat) (h : win_cnt < 131072) :
    leftmost win_cnt < 131072 ∧ (leftmost win_cnt + 3) % 131072 = win_cnt := by
  unfold leftmost
  simp only [HASH_BYTES_N, WIN_BUFSIZE_eq]
  split <;> omega

/-- The copy to the window changes the hash of no position outside the
range that is taken out of the chains. -/
theorem slots_slide_copy (pattern win_buf : Nat → Byte) (win_cnt pat_cnt L : Nat)
    (hw : win_cnt < 131072) (b p : Nat) :
    Slots win_buf (leftmost win_cnt) 0 (L + 3) b p ↔
      Slots (slide_copy pattern win_cnt pat_cnt L win_buf) (leftmost win_cnt) 0 (L + 3) b p := by
  obtain ⟨hk1, hk2⟩ := leftmost_mod win_cnt hw
  have key : p < 131072 → ¬ InRange (leftmost win_cnt) 0 (L + 3) p →
      hash win_buf p WIN_MASK WIN_MASK
        = hash (slide_copy pattern win_cnt pat_cnt L win_buf) p WIN_MASK WIN_MASK := by
    intro hp hnr
    apply hash_congr
    intro t ht
    rw [slide_copy_miss]
    intro i hi e
    apply hnr
    refine ⟨i + 3 - t, by omega, by omega, ?_⟩
    omega
  constructor
  · rintro ⟨h1, h2, h3⟩
    exact ⟨h1, h2, by rw [h3, key h1 h2]⟩
  · rintro ⟨h1, h2, h3⟩
    exact ⟨h1, h2, by rw [h3, key h1 h2]⟩

/-- The assignment of every window position to the bucket of its hash. -/
theorem slots_empty (win_buf : Nat → Byte) (k j : Nat) (b p : Nat) :
    Slots win_buf k j j b p ↔ (p < 131072 ∧ b = hash win_buf p WIN_MASK WIN_MASK) := by
  constructor
  · rintro ⟨h1, _, h3⟩; exact ⟨h1, h3⟩
  · rintro ⟨h1, h3⟩
    refine ⟨h1, ?_, h3⟩
    rintro ⟨i, hi1, hi2, _⟩
    omega

/-- The slide of `put_codes` keeps the index good: the positions whose hash
changes are taken out, the window is written, and they are put back. -/
theorem slide_good (pattern win_buf : Nat → Byte) (win_cnt pat_cnt L : Nat) (ix : LzIndex)
    (hw : win_cnt < 131072) (hL : L ≤ 65536) (hg : Good (Slots win_buf 0 0 0) ix) :
    Good (Slots (slide_copy pattern win_cnt pat_cnt L win_buf) 0 0 0)
      (insert_range (slide_copy pattern win_cnt pat_cnt L win_buf) (leftmost win_cnt)
        (L + (HASH_BYTES_N - 1))
        (delete_range win_buf (leftmost win_cnt) (L + (HASH_BYTES_N - 1)) ix)) := by
  have h1 : Good (Slots win_buf (leftmost win_cnt) 0 0) ix :=
    good_congr _ _ _ (fun b p => by rw [slots_empty, slots_empty]) hg
  have h2 := delete_range_good win_buf (leftmost win_cnt) ix h1 (L + 3) (by omega)
  have h3 := good_congr _ _ _ (slots_slide_copy pattern win_buf win_cnt pat_cnt L hw) h2
  have h4 := insert_range_good _ (leftmost win_cnt) (L + 3) _ (by omega) h3 (L + 3) (by omega)
  exact good_congr _ _ _ (fun b p => by rw [slots_empty, slots_empty]) h4

theorem hash_zero (x : Nat) : hash (fun _ => 0) x WIN_MASK WIN_MASK = 0 := by
  simp [hash]

theorem init_index_good :
    Good (Slots (fun _ => 0) 0 0 0) (init_index (fun _ => 0) alloc_lzhash) := by
  have key : ∀ n, n ≤ 131072 →
      Good (fun b x => x < n ∧ b = 0)
        ((List.range n).foldl
          (fun ix i =>
            insert_lznode
              { ix with lznext := Function.update ix.lznext i LZ_NULL
                        lzprev := Function.update ix.lzprev i LZ_NULL }
              (hash (fun _ => (0 : Byte)) i WIN_MASK WIN_MASK) i) alloc_lzhash) := by
    intro n
    induction n with
    | zero =>
      intro _
      refine ⟨fun _ => [], fun b => rfl, ?_⟩
      intro b p
      exact ⟨fun h => absurd h.1 (Nat.not_lt_zero p), fun _ => rfl⟩
    | succ j ih =>
      intro hj
      have hprev := ih (by omega)
      rw [List.range_succ, List.foldl_append, List.foldl_cons, List.foldl_nil, hash_zero]
      have hS : ∀ b, ¬ (fun b x => x < j ∧ b = 0) b j := fun b h => Nat.lt_irrefl j h.1
      have hfun : ∀ b b' x, (fun b x => x < j ∧ b = 0) b x → (fun b x => x < j ∧ b = 0) b' x →
          b = b' := fun b b' x h1 h2 => by rw [h1.2, h2.2]
      refine good_congr _ _ _ ?_ (good_insert _ _ 0 j (good_clear _ _ j hprev hS) hfun hS)
      intro b p
      constructor
      · rintro (⟨h1, h2⟩ | ⟨h1, h2⟩)
        · exact ⟨by omega, h2⟩
        · exact ⟨by omega, h1⟩
      · rintro ⟨h1, h2⟩
        by_cases hp : p = j
        · exact Or.inr ⟨h2, hp⟩
        · exact Or.inl ⟨by omega, h2⟩
  refine good_congr _ _ _ ?_ (key 131072 (Nat.le_refl _))
  intro b p
  rw [slots_empty, hash_zero]

/-! ## From the linked chains to the walk along `lznext` -/

theorem walk_of_seg (ix : LzIndex) :
    ∀ (l : List Nat) (fuel : Nat) (pv cur : Option Nat), Seg ix pv cur l → l.length ≤ fuel →
      chain_walk ix.lznext fuel cur = l := by
  intro l
  induction l with
  | nil =>
    intro fuel pv cur h _
    have hc : cur = none := h
    subst hc
    cases fuel <;> rfl
  | cons x xs ih =>
    intro fuel pv cur h hlen
    obtain ⟨h1, _, h3⟩ := h
    subst h1
    cases fuel with
    | zero => simp at hlen
    | succ f =>
      simp only [chain_walk]
      rw [ih f _ _ h3 (by simpa using hlen)]

theorem seg_of_walk (ix : LzIndex) :
    ∀ (fuel : Nat) (pv cur : Option Nat),
      (chain_walk ix.lznext fuel cur).length < fuel →
      back_linked ix.lzprev pv (chain_walk ix.lznext fuel cur) →
      Seg ix pv cur (chain_walk ix.lznext fuel cur) := by
  intro fuel
  induction fuel with
  | zero => intro pv cur h _; simp at h
  | succ f ih =>
    intro pv cur hlen hback
    cases cur with
    | none => rfl
    | some i =>
      simp only [chain_walk] at hlen hback ⊢
      exact ⟨rfl, hback.1, ih _ _ (by simpa using hlen) hback.2⟩

theorem back_of_seg (ix : LzIndex) :
    ∀ (l : List Nat) (pv cur : Option Nat), Seg ix pv cur l → back_linked ix.lzprev pv l := by
  intro l
  induction l with
  | nil => intro pv cur _; trivial
  | cons x xs ih =>
    intro pv cur h
    exact ⟨h.2.1, ih _ _ h.2.2⟩

theorem length_le_of_nodup_lt (l : List Nat) (n : Nat) (hnd : l.Nodup)
    (hlt : ∀ x, x ∈ l → x < n) : l.length ≤ n := by
  have hsub : l.toFinset ⊆ Finset.range n := by
    intro x hx
    exact Finset.mem_range.mpr (hlt x (List.mem_toFinset.mp hx))
  have := Finset.card_le_card hsub
  rw [List.toFinset_card_of_nodup hnd, Finset.card_range] at this
  exact this

theorem good_chain (win_buf : Nat → Byte) (ix : LzIndex) (ch : Nat → List Nat)
    (hrep : Rep ix ch) (hcnt : Cnt (Slots win_buf 0 0 0) ch) (b : Nat) : chain ix b = ch b := by
  have hpart := cnt_part _ ch hcnt (slots_fun win_buf 0 0 0)
  have hlen : (ch b).length ≤ 131072 :=
    length_le_of_nodup_lt _ _ (hpart.1 b) (fun x hx => ((cnt_mem _ ch hcnt b x).mp hx).1)
  exact walk_of_seg ix _ _ _ _ (hrep b) (by rw [WIN_BUFSIZE_eq]; omega)

theorem good_consistent (win_buf : Nat → Byte) (ix : LzIndex)
    (hg : Good (Slots win_buf 0 0 0) ix) : IndexConsistent win_buf ix ∧ BackLinked ix := by
  obtain ⟨ch, hrep, hcnt⟩ := hg
  constructor
  · intro b p
    rw [good_chain win_buf ix ch hrep hcnt b]
    by_cases h : p < WIN_BUFSIZE ∧ b = hash win_buf p WIN_MASK WIN_MASK
    · rw [if_pos h]
      exact (hcnt b p).1 ((slots_empty win_buf 0 0 b p).mpr h)
    · rw [if_neg h]
      exact (hcnt b p).2 (fun hs => h ((slots_empty win_buf 0 0 b p).mp hs))
  · intro b
    rw [good_chain win_buf ix ch hrep hcnt b]
    exact back_of_seg ix _ _ _ (hrep b)

theorem consistent_good (win_buf : Nat → Byte) (ix : LzIndex)
    (hc : IndexConsistent win_buf ix) (hb : BackLinked ix) : Good (Slots win_buf 0 0 0) ix := by
  have hcnt : Cnt (Slots win_buf 0 0 0) (chain ix) := by
    intro b p
    constructor
    · intro hs
      rw [hc b p]
      exact if_pos ((slots_empty win_buf 0 0 b p).mp hs)
    · intro hs
      rw [hc b p]
      exact if_neg (fun h => hs ((slots_empty win_buf 0 0 b p).mpr h))
  refine ⟨chain ix, ?_, hcnt⟩
  intro b
  have hpart := cnt_part _ _ hcnt (slots_fun win_buf 0 0 0)
  have hlen : (chain ix b).length ≤ 131072 :=
    length_le_of_nodup_lt _ _ (hpart.1 b) (fun x hx => ((cnt_mem _ _ hcnt b x).mp hx).1)
  exact seg_of_walk ix _ _ _ (by
    show (chain ix b).length < WIN_BUFSIZE + 1
    rw [WIN_BUFSIZE_eq]; omega) (hb b)

theorem slide_len_le_pat (d : dpos_t) (h : d.len ≤ 65536) : slide_len d ≤ 65536 := by
  unfold slide_len; split <;> omega

theorem put_codes_good (s : Session) (d : dpos_t) (hw : s.win_cnt < 131072)
    (hL : slide_len d ≤ 65536) (hg : Good (Slots s.win_buf 0 0 0) s.lz) :
    Good (Slots (put_codes s d).1.win_buf 0 0 0) (put_codes s d).1.lz := by
  obtain ⟨_, b2, _, _, _, _, _, _, b9⟩ := put_codes_fields s d
  rw [b2, b9]
  exact slide_good s.pattern s.win_buf s.win_cnt s.pat_cnt (slide_len d) s.lz hw hL hg

theorem iteration_good (file : List Byte) (c : Nat) (s : Session) (h : Inv file c s)
    (hb : 0 < s.buf_cnt) (hg : Good (Slots s.win_buf 0 0 0) s.lz) :
    Good (Slots (iteration s c).post.win_buf 0 0 0) (iteration s c).post.lz := by
  obtain ⟨_, hL2⟩ := iteration_len_bounds s c hb
  rw [iteration_len] at hL2
  have hB := h.buf
  show Good (Slots (put_codes (put_selector s
      (search s.win_buf s.pattern s.pat_cnt s.buf_cnt s.lz.lzhash s.lz.lznext))
      (search s.win_buf s.pattern s.pat_cnt s.buf_cnt s.lz.lzhash s.lz.lznext)).1.win_buf 0 0 0)
    (put_codes (put_selector s
      (search s.win_buf s.pattern s.pat_cnt s.buf_cnt s.lz.lzhash s.lz.lznext))
      (search s.win_buf s.pattern s.pat_cnt s.buf_cnt s.lz.lzhash s.lz.lznext)).1.lz
  generalize search s.win_buf s.pattern s.pat_cnt s.buf_cnt s.lz.lzhash s.lz.lznext = d
    at hL2 ⊢
  obtain ⟨a1, _, a3, _, _, a6, _⟩ := put_selector_fields s d
  exact put_codes_good (put_selector s d) d
    (by rw [a3, h.win]; exact Nat.mod_lt _ (by omega)) (by omega) (by rw [a1, a6]; exact hg)

theorem init_good (file : List Byte) :
    Good (Slots (init file).win_buf 0 0 0) (init file).lz := by
  simp only [init]
  exact init_index_good

theorem Trace_good (file : List Byte) :
    ∀ (its : List Iter) (s : Session) (c : Nat) (fin : Session),
      Trace s c its fin → Inv file c s → Good (Slots s.win_buf 0 0 0) s.lz →
      ∀ it, it ∈ its → Good (Slots it.pre.win_buf 0 0 0) it.pre.lz ∧
        Good (Slots it.post.win_buf 0 0 0) it.post.lz := by
  intro its
  induction its with
  | nil => intro s c fin _ _ _ it hit; exact absurd hit (List.not_mem_nil it)
  | cons it its ih =>
    intro s c fin ht h hg it2 hmem
    obtain ⟨hb, hit, hrest⟩ := ht
    have hstep := Inv_step file c s h hb
    have hgood := iteration_good file c s h hb hg
    rw [← hit] at hstep hgood
    rcases List.mem_cons.mp hmem with heq | hmem2
    · subst heq
      have hpre : it2.pre = s := by rw [hit]; rfl
      rw [hpre]
      exact ⟨hg, hgood⟩
    · exact ih _ _ _ hrest hstep hgood it2 hmem2

/-- C5. Hash-index consistency: after the initialisation and at the head and
the end of every loop iteration of every run, each window position occurs
exactly once over the chains walked from `lzhash` through `lznext`, in the
chain of the bucket of its hash in the current window, and nothing else
occurs; and `put_codes` keeps this, with the back links, from any state with
the cursor inside the window, for any match length up to `PAT_BUFSIZE`. -/
theorem index_consistency :
    (∀ file : List Byte, ∃ r, compress file = some r ∧
      IndexConsistent (init file).win_buf (init file).lz ∧
      ∀ it, it ∈ r.iters → IndexConsistent it.pre.win_buf it.pre.lz ∧
        IndexConsistent it.post.win_buf it.post.lz) ∧
    (∀ (s : Session) (d : dpos_t), IndexConsistent s.win_buf s.lz → BackLinked s.lz →
      s.win_cnt < WIN_BUFSIZE → d.len ≤ PAT_BUFSIZE →
      IndexConsistent (put_codes s d).1.win_buf (put_codes s d).1.lz ∧
        BackLinked (put_codes s d).1.lz) := by
  constructor
  · intro file
    obtain ⟨r, hr, _, htr⟩ := compress_trace file
    have hinit := init_good file
    refine ⟨r, hr, (good_consistent _ _ hinit).1, ?_⟩
    intro it hit
    obtain ⟨h1, h2⟩ := Trace_good file r.iters (init file) 0 r.final htr (Inv_init file) hinit it hit
    exact ⟨(good_consistent _ _ h1).1, (good_consistent _ _ h2).1⟩
  · intro s d hc hb hw hd
    exact good_consistent _ _ (put_codes_good s d hw
      (slide_len_le_pat d (by rw [PAT_BUFSIZE_eq] at hd; exact hd)) (consistent_good _ _ hc hb))

/-! ## The lookahead and the window along a run -/


/-- The count an iteration records is the sum of the lengths of the
iterations before it. -/
theorem Trace_consumed :
    ∀ (its : List Iter) (s : Session) (c : Nat) (fin : Session), Trace s c its fin →
      ∀ pre it post, its = pre ++ it :: post → it.consumed = c + (pre.map Iter.len).sum := by
  intro its
  induction its with
  | nil =>
    intro s c fin _ pre it post h
    exact absurd h (by simp)
  | cons x xs ih =>
    intro s c fin ht pre it post h
    obtain ⟨_, hx, hrest⟩ := ht
    cases pre with
    | nil =>
      simp only [List.nil_append, List.cons.injEq] at h
      rw [← h.1, hx]
      simp only [List.map_nil, List.sum_nil, Nat.add_zero]
      rfl
    | cons y ys =>
      simp only [List.cons_append, List.cons.injEq] at h
      have := ih _ _ _ hrest ys it post h.2
      rw [this, ← h.1]
      simp only [List.map_cons, List.sum_cons]
      omega

/-- C16. Lookahead invariant: at the head of every iteration, with `c` bytes
consumed, `buf_cnt` is `min(W/2, n - c)` and the lookahead holds the next
`buf_cnt` bytes of the input from `pat_cnt` on; the same holds at the end of
the iteration for `c + len`; and the refill leaves every pending byte in its
slot.  The count `c` of an iteration is the sum of the lengths of the
iterations before it. -/
theorem lookahead_invariant (file : List Byte) :
    ∃ r, compress file = some r ∧
      (∀ pre it post, r.iters = pre ++ it :: post →
        it.consumed = (pre.map Iter.len).sum) ∧
      ∀ it, it ∈ r.iters →
      (it.pre.buf_cnt = ((min PAT_BUFSIZE (file.length - it.consumed) : Nat) : Int) ∧
        ∀ j, j < min PAT_BUFSIZE (file.length - it.consumed) →
          it.pre.pattern ((it.pre.pat_cnt + j) % PAT_BUFSIZE) = file.getD (it.consumed + j) 0) ∧
      (it.post.buf_cnt
          = ((min PAT_BUFSIZE (file.length - (it.consumed + it.len)) : Nat) : Int) ∧
        ∀ j, j < min PAT_BUFSIZE (file.length - (it.consumed + it.len)) →
          it.post.pattern ((it.post.pat_cnt + j) % PAT_BUFSIZE)
            = file.getD (it.consumed + it.len + j) 0) ∧
      (∀ j, it.len ≤ j → j < min PAT_BUFSIZE (file.length - it.consumed) →
        it.post.pattern ((it.pre.pat_cnt + j) % PAT_BUFSIZE)
          = it.pre.pattern ((it.pre.pat_cnt + j) % PAT_BUFSIZE)) := by
  obtain ⟨r, hr, _, htr⟩ := compress_trace file
  obtain ⟨hall, _⟩ := Trace_inv file r.iters (init file) 0 r.final htr (Inv_init file)
  refine ⟨r, hr, ?_, ?_⟩
  · intro pre it post h
    rw [Trace_consumed r.iters (init file) 0 r.final htr pre it post h, Nat.zero_add]
  intro it hit
  obtain ⟨hpre, _, _, hpost⟩ := hall it hit
  have e1 : ∀ j, (it.pre.pat_cnt + j) % 65536 = (it.consumed + j) % 65536 := by
    intro j; rw [hpre.pat]; omega
  have e2 : ∀ j, (it.post.pat_cnt + j) % 65536 = (it.consumed + it.len + j) % 65536 := by
    intro j; rw [hpost.pat]; omega
  simp only [PAT_BUFSIZE_eq]
  refine ⟨⟨hpre.buf, ?_⟩, ⟨hpost.buf, ?_⟩, ?_⟩
  · intro j hj
    rw [e1]
    exact hpre.look j hj
  · intro j hj
    rw [e2]
    exact hpost.look j hj
  · intro j hj1 hj2
    have h1 := hpre.look j hj2
    have h2 := hpost.look (j - it.len) (by omega)
    have e3 : it.consumed + it.len + (j - it.len) = it.consumed + j := by omega
    rw [e3] at h2
    rw [e1, h1, h2]

/-- C17. Exact window content: after every slide, with `c` bytes consumed,
the cursor is `c mod W`, `window[(cursor - k) mod W]` is `input[c - k]` for
every `1 ≤ k ≤ min(c, W)`, and while `c < W` every other position of the
window still holds 0.  The count recorded by an iteration is the sum of the
lengths of the iterations before it. -/
theorem window_exact (file : List Byte) :
    ∃ r, compress file = some r ∧
      (∀ pre it post, r.iters = pre ++ it :: post →
        it.consumed = (pre.map Iter.len).sum) ∧
      ∀ it, it ∈ r.iters →
      it.post.win_cnt = (it.consumed + it.len) % WIN_BUFSIZE ∧
      (∀ k, 1 ≤ k → k ≤ min (it.consumed + it.len) WIN_BUFSIZE →
        it.post.win_buf ((it.post.win_cnt + WIN_BUFSIZE - k) % WIN_BUFSIZE)
          = file.getD (it.consumed + it.len - k) 0) ∧
      (it.consumed + it.len < WIN_BUFSIZE →
        ∀ x, it.consumed + it.len ≤ x → x < WIN_BUFSIZE → it.post.win_buf x = 0) := by
  obtain ⟨r, hr, _, htr⟩ := compress_trace file
  obtain ⟨hall, _⟩ := Trace_inv file r.iters (init file) 0 r.final htr (Inv_init file)
  refine ⟨r, hr, ?_, ?_⟩
  · intro pre it post h
    rw [Trace_consumed r.iters (init file) 0 r.final htr pre it post h, Nat.zero_add]
  intro it hit
  obtain ⟨_, _, _, hpost⟩ := hall it hit
  simp only [WIN_BUFSIZE_eq]
  refine ⟨hpost.win, ?_, fun _ x hx _ => hpost.zero x hx⟩
  intro k hk1 hk2
  have := hpost.recent (it.consumed + it.len - k) (by omega) (by omega)
  rw [← this, hpost.win]
  have e : ((it.consumed + it.len) % 131072 + 131072 - k) % 131072
      = (it.consumed + it.len - k) % 131072 := by omega
  rw [e]

/-! ## The hash -/

theorem shift_byte_lt (b : Byte) (k : Nat) (hk : k ≤ 9) : b.val <<< k < 2 ^ 17 := by
  rw [Nat.shiftLeft_eq]
  have hb := b.isLt
  have h1 : 2 ^ k ≤ 2 ^ 9 := Nat.pow_le_pow_right (by omega) hk
  calc b.val * 2 ^ k ≤ 255 * 2 ^ 9 := Nat.mul_le_mul (by omega) h1
    _ < 2 ^ 17 := by decide

/-- C14. Hash value and bucket range: with `NUM_POS_BITS = 17` the macro is
`(b0 << 9) ^ (b1 << 1) ^ (b2 << 4) ^ ((b3 << 7) & mask2)` on the four bytes
from `pos`, the mask on the last term only (where it changes nothing for the
bucket mask); the value is below `2^17`; and it is the same for the window
(index mask `W-1`) and for the lookahead (index mask `W/2-1`) when the four
bytes are the same. -/
theorem hash_value_range (buf : Nat → Byte) (pos mask1 : Nat) :
    hash buf pos mask1 WIN_MASK
      = ((buf (pos &&& mask1)).val <<< 9) ^^^ ((buf ((pos + 1) &&& mask1)).val <<< 1)
          ^^^ ((buf ((pos + 2) &&& mask1)).val <<< 4)
          ^^^ (((buf ((pos + 3) &&& mask1)).val <<< 7) &&& (2 ^ 17 - 1)) ∧
    ((buf ((pos + 3) &&& mask1)).val <<< 7) &&& WIN_MASK = (buf ((pos + 3) &&& mask1)).val <<< 7 ∧
    hash buf pos mask1 WIN_MASK < 2 ^ 17 ∧
    hash buf pos mask1 WIN_MASK < WIN_BUFSIZE ∧
    ∀ (w p : Nat → Byte) (i j : Nat),
      (∀ t, t < 4 → w ((i + t) &&& WIN_MASK) = p ((j + t) &&& PAT_MASK)) →
      hash w i WIN_MASK WIN_MASK = hash p j PAT_MASK WIN_MASK := by
  have hlt : hash buf pos mask1 WIN_MASK < 2 ^ 17 := by
    unfold hash
    refine Nat.xor_lt_two_pow (Nat.xor_lt_two_pow (Nat.xor_lt_two_pow ?_ ?_) ?_) ?_
    · exact shift_byte_lt _ 9 (by decide)
    · exact shift_byte_lt _ 1 (by decide)
    · exact shift_byte_lt _ 4 (by decide)
    · exact Nat.lt_of_le_of_lt Nat.and_le_left (shift_byte_lt _ 7 (by decide))
  refine ⟨rfl, ?_, hlt, hlt, ?_⟩
  · rw [show WIN_MASK = 2 ^ 17 - 1 from rfl, Nat.and_pow_two_sub_one_eq_mod]
    exact Nat.mod_eq_of_lt (shift_byte_lt _ 7 (by decide))
  · intro w p i j h
    unfold hash
    have h0 := h 0 (by omega)
    rw [Nat.add_zero, Nat.add_zero] at h0
    rw [h0, h 1 (by omega), h 2 (by omega), h 3 (by omega)]

/-! ## The match finder returns the best of the entries it examines -/

theorem match_len_from_spec (w p : Nat → Byte) (pat_cnt c : Nat) :
    ∀ (fuel k : Nat),
      k ≤ match_len_from w p pat_cnt c fuel k ∧
      match_len_from w p pat_cnt c fuel k ≤ k + fuel ∧
      (∀ j, k ≤ j → j < match_len_from w p pat_cnt c fuel k →
        w ((c + j) % WIN_BUFSIZE) = p ((pat_cnt + j) % PAT_BUFSIZE)) ∧
      (match_len_from w p pat_cnt c fuel k < k + fuel →
        w ((c + match_len_from w p pat_cnt c fuel k) % WIN_BUFSIZE)
          ≠ p ((pat_cnt + match_len_from w p pat_cnt c fuel k) % PAT_BUFSIZE)) := by
  intro fuel
  induction fuel with
  | zero =>
    intro k
    simp only [match_len_from]
    exact ⟨Nat.le_refl _, Nat.le_refl _, fun j h1 h2 => absurd h2 (by omega),
      fun h => absurd h (by omega)⟩
  | succ f ih =>
    intro k
    simp only [match_len_from]
    split
    · rename_i heq
      obtain ⟨i1, i2, i3, i4⟩ := ih (k + 1)
      refine ⟨by omega, by omega, ?_, fun h => i4 (by omega)⟩
      intro j hj1 hj2
      by_cases hjk : j = k
      · rw [hjk]; exact heq
      · exact i3 j (by omega) hj2
    · rename_i hne
      exact ⟨Nat.le_refl _, by omega, fun j h1 h2 => absurd h2 (by omega), fun _ => hne⟩

theorem match_len_le (w p : Nat → Byte) (pat_cnt avail c : Nat) :
    match_len w p pat_cnt avail c ≤ avail := by
  have := (match_len_from_spec w p pat_cnt c avail 0).2.1
  unfold match_len
  omega

theorem match_len_agree (w p : Nat → Byte) (pat_cnt avail c : Nat) :
    Agree w p pat_cnt c (match_len w p pat_cnt avail c) := by
  intro j hj
  exact (match_len_from_spec w p pat_cnt c avail 0).2.2.1 j (Nat.zero_le _) hj

theorem match_len_stop (w p : Nat → Byte) (pat_cnt avail c : Nat)
    (h : match_len w p pat_cnt avail c < avail) :
    w ((c + match_len w p pat_cnt avail c) % WIN_BUFSIZE)
      ≠ p ((pat_cnt + match_len w p pat_cnt avail c) % PAT_BUFSIZE) :=
  (match_len_from_spec w p pat_cnt c avail 0).2.2.2 (by unfold match_len at h; omega)

theorem match_len_largest (w p : Nat → Byte) (pat_cnt avail c L : Nat) (hL : L ≤ avail)
    (hag : Agree w p pat_cnt c L) : L ≤ match_len w p pat_cnt avail c := by
  by_contra hlt
  have h1 : match_len w p pat_cnt avail c < L := by omega
  exact match_len_stop w p pat_cnt avail c (by omega) (hag _ h1)

/-- A length that agrees and stops at a mismatch or at `avail` is `mlen`. -/
theorem match_len_unique (w p : Nat → Byte) (pat_cnt avail c L : Nat) (hL : L ≤ avail)
    (hag : Agree w p pat_cnt c L)
    (hstop : L < avail → w ((c + L) % WIN_BUFSIZE) ≠ p ((pat_cnt + L) % PAT_BUFSIZE)) :
    L = match_len w p pat_cnt avail c := by
  have h1 := match_len_largest w p pat_cnt avail c L hL hag
  have h2 := match_len_le w p pat_cnt avail c
  by_contra hne
  have h3 : L < match_len w p pat_cnt avail c := by omega
  exact hstop (by omega) (match_len_agree w p pat_cnt avail c L h3)

theorem contextScan_complete (w p : Nat → Byte) (i pat_cnt : Nat) :
    ∀ k, Agree w p pat_cnt i (k + 1) → contextScan w p i ((pat_cnt + k) % 65536) k = true := by
  intro k
  induction k with
  | zero =>
    intro h
    have := h 0 (by omega)
    simp only [WIN_BUFSIZE_eq, PAT_BUFSIZE_eq] at this
    simp only [contextScan, and_WIN_MASK, decide_eq_true_eq]
    exact this.symm
  | succ k ih =>
    intro h
    have hk := h (k + 1) (by omega)
    simp only [WIN_BUFSIZE_eq, PAT_BUFSIZE_eq] at hk
    rw [contextScan, if_neg (by simp only [and_WIN_MASK, ne_eq, not_not]; exact hk.symm)]
    have hst : (if (pat_cnt + (k + 1)) % 65536 = 0 then PAT_BUFSIZE - 1
        else (pat_cnt + (k + 1)) % 65536 - 1) = (pat_cnt + k) % 65536 := by
      simp only [PAT_BUFSIZE_eq]
      split <;> omega
    rw [hst]
    exact ih (fun j hj => h j (by omega))

theorem suffixScan_stop (w p : Nat → Byte) (i pat_cnt : Nat) (buf_cnt : Int) :
    ∀ (fuel j k : Nat), j % 65536 = (pat_cnt + k) % 65536 → (k : Int) < buf_cnt →
      buf_cnt ≤ (k : Int) + (fuel : Int) →
      ((suffixScan w p i buf_cnt fuel j k : Nat) : Int) < buf_cnt →
      w ((i + suffixScan w p i buf_cnt fuel j k) % WIN_BUFSIZE)
        ≠ p ((pat_cnt + suffixScan w p i buf_cnt fuel j k) % PAT_BUFSIZE) := by
  intro fuel
  induction fuel with
  | zero => intro j k _ h1 h2 _; omega
  | succ f ih =>
    intro j k hj h1 h2
    simp only [suffixScan]
    split
    · rename_i heq
      split
      · rename_i hlt
        exact ih (j + 1) (k + 1) (by omega) hlt (by push_cast at h2 ⊢; omega)
      · intro h3; push_cast at h3; omega
    · rename_i hne
      intro _ e
      apply hne
      simp only [and_WIN_MASK, and_PAT_MASK, hj]
      simp only [WIN_BUFSIZE_eq, PAT_BUFSIZE_eq] at e
      exact e.symm

/-- An entry passes the context check exactly when it is strictly longer
than the best so far, and its suffix extension then ends at `mlen`. -/
theorem accept_iff (w p : Nat → Byte) (pat_cnt avail i len : Nat) (hlen : len < avail) :
    (contextScan w p i ((pat_cnt + len) &&& PAT_MASK) len = true ↔
      len < match_len w p pat_cnt avail i) ∧
    (contextScan w p i ((pat_cnt + len) &&& PAT_MASK) len = true →
      suffixLen w p i pat_cnt (avail : Int) len = match_len w p pat_cnt avail i) := by
  rw [and_PAT_MASK]
  have hfwd : contextScan w p i ((pat_cnt + len) % 65536) len = true →
      suffixLen w p i pat_cnt (avail : Int) len = match_len w p pat_cnt avail i := by
    intro hctx
    have hag := suffixLen_agree w p i pat_cnt (avail : Int) len
      (contextScan_agree w p i pat_cnt _ hctx)
    have hle := suffixLen_le w p i pat_cnt (avail : Int) len (by exact_mod_cast hlen)
    refine match_len_unique w p pat_cnt avail i _ (by exact_mod_cast hle) hag ?_
    intro hlt
    unfold suffixLen at hlt ⊢
    split
    · rename_i h1
      rw [if_pos h1] at hlt
      refine suffixScan_stop w p i pat_cnt (avail : Int) _ _ _ ?_ h1 ?_ (by exact_mod_cast hlt)
      · simp only [and_PAT_MASK]; omega
      · omega
    · rename_i h1
      rw [if_neg h1] at hlt
      push_cast at h1
      omega
  refine ⟨⟨?_, ?_⟩, hfwd⟩
  · intro hctx
    rw [← hfwd hctx]
    exact suffixLen_gt w p i pat_cnt (avail : Int) len
  · intro hlt
    apply contextScan_complete
    intro j hj
    exact match_len_agree w p pat_cnt avail i j (by omega)

theorem searchLoop_fuel (w p : Nat → Byte) (pat_cnt : Nat) (buf_cnt : Int)
    (lznext : Nat → Option Nat) :
    ∀ (fuel fuel2 : Nat) (cur : Option Nat) (st : SearchState), st.m < FAR_LIST →
      FAR_LIST ≤ st.m + fuel → FAR_LIST ≤ st.m + fuel2 →
      searchLoop w p pat_cnt buf_cnt lznext fuel cur st
        = searchLoop w p pat_cnt buf_cnt lznext fuel2 cur st := by
  intro fuel
  induction fuel with
  | zero => intro fuel2 cur st h1 h2 _; omega
  | succ f ih =>
    intro fuel2 cur st h1 h2 h3
    cases fuel2 with
    | zero => omega
    | succ f2 =>
      cases cur with
      | none => rfl
      | some i =>
        simp only [searchLoop]
        split
        · split
          · rfl
          · split
            · rfl
            · split
              · rfl
              · rename_i hm
                exact ih f2 _ _ (by simp only; omega) (by simp only; omega) (by simp only; omega)
        · split
          · rfl
          · rename_i hm
            exact ih f2 _ _ (by simp only; omega) (by simp only; omega) (by simp only; omega)

/-- The run of the loop of `search` from a loop head: the entries examined
are the next entries of the chain, the candidate is the best of them over
the candidate before, and the counters stay within their limits. -/
theorem searchLoop_run (w p : Nat → Byte) (pat_cnt avail : Nat) (lznext : Nat → Option Nat) :
    ∀ (fuel : Nat) (cur : Option Nat) (st : SearchState), st.dpos.len < avail →
      st.m < FAR_LIST → FAR_LIST ≤ st.m + fuel → st.n < NMATCH →
      ∃ new : List Nat,
        (searchLoop w p pat_cnt (avail : Int) lznext fuel cur st).examined = st.examined ++ new ∧
        chain_walk lznext new.length cur = new ∧
        (searchLoop w p pat_cnt (avail : Int) lznext fuel cur st).dpos
          = new.foldl (best_step w p pat_cnt avail) st.dpos ∧
        st.m + new.length ≤ FAR_LIST ∧
        st.n + improvements w p pat_cnt avail st.dpos new ≤ NMATCH ∧
        (searchLoop w p pat_cnt (avail : Int) lznext fuel cur st).n ≤ NMATCH ∧
        (searchLoop w p pat_cnt (avail : Int) lznext fuel cur st).m ≤ FAR_LIST := by
  intro fuel
  induction fuel with
  | zero => intro cur st _ h2 h3 _; omega
  | succ f ih =>
    intro cur st h1 h2 h3 h4
    cases cur with
    | none =>
      refine ⟨[], ?_, rfl, rfl, by simp only [List.length_nil]; omega, ?_, ?_, ?_⟩
      · simp only [searchLoop, List.append_nil]
      · simp only [improvements]; omega
      · simp only [searchLoop]; omega
      · simp only [searchLoop]; omega
    | some i =>
      obtain ⟨hiff, hsuf⟩ := accept_iff w p pat_cnt avail i st.dpos.len h1
      simp only [searchLoop]
      by_cases hctx : contextScan w p i ((pat_cnt + st.dpos.len) &&& PAT_MASK) st.dpos.len = true
      · have hk := hsuf hctx
        have hlt := hiff.mp hctx
        have hle := match_len_le w p pat_cnt avail i
        have hbest : best_step w p pat_cnt avail st.dpos i
            = ⟨i, match_len w p pat_cnt avail i⟩ := by
          unfold best_step; rw [if_pos hlt]
        have himp : ∀ cs, improvements w p pat_cnt avail st.dpos (i :: cs)
            = 1 + improvements w p pat_cnt avail ⟨i, match_len w p pat_cnt avail i⟩ cs := by
          intro cs; simp only [improvements]; rw [if_pos hlt]
        rw [if_pos hctx, hk]
        by_cases hfull : ((match_len w p pat_cnt avail i : Nat) : Int) = (avail : Int)
        · rw [if_pos hfull]
          refine ⟨[i], rfl, rfl, ?_, by simp only [List.length_singleton]; omega, ?_, ?_, ?_⟩
          · simp only [List.foldl_cons, List.foldl_nil, hbest]
          · rw [himp]; simp only [improvements]; omega
          · simp only; omega
          · simp only; omega
        · rw [if_neg hfull]
          by_cases hn : st.n + 1 = NMATCH
          · rw [if_pos hn]
            refine ⟨[i], rfl, rfl, ?_, by simp only [List.length_singleton]; omega, ?_, ?_, ?_⟩
            · simp only [List.foldl_cons, List.foldl_nil, hbest]
            · rw [himp]; simp only [improvements]; omega
            · simp only; omega
            · simp only; omega
          · rw [if_neg hn]
            by_cases hm : st.m + 1 = FAR_LIST
            · rw [if_pos hm]
              refine ⟨[i], rfl, rfl, ?_, by simp only [List.length_singleton]; omega, ?_, ?_, ?_⟩
              · simp only [List.foldl_cons, List.foldl_nil, hbest]
              · rw [himp]; simp only [improvements]; omega
              · simp only; omega
              · simp only; omega
            · rw [if_neg hm]
              have hne : match_len w p pat_cnt avail i ≠ avail := fun e => hfull (by rw [e])
              obtain ⟨new, e1, e2, e3, e4, e5, e6, e7⟩ := ih (lznext i)
                { dpos := ⟨i, match_len w p pat_cnt avail i⟩, m := st.m + 1, n := st.n + 1,
                  examined := st.examined ++ [i] }
                (by simp only; omega) (by simp only; omega) (by simp only; omega)
                (by simp only; omega)
              refine ⟨i :: new, ?_, ?_, ?_, ?_, ?_, e6, e7⟩
              · rw [e1]; simp only [List.append_assoc, List.singleton_append]
              · simp only [List.length_cons, chain_walk, e2]
              · rw [e3]; simp only [List.foldl_cons, hbest]
              · simp only [List.length_cons] at e4 ⊢; omega
              · rw [himp]; simp only at e5; omega
      · have hnlt : ¬ st.dpos.len < match_len w p pat_cnt avail i := fun h => hctx (hiff.mpr h)
        have hbest : best_step w p pat_cnt avail st.dpos i = st.dpos := by
          unfold best_step; rw [if_neg hnlt]
        have himp : ∀ cs, improvements w p pat_cnt avail st.dpos (i :: cs)
            = improvements w p pat_cnt avail st.dpos cs := by
          intro cs; simp only [improvements]; rw [if_neg hnlt]
        rw [if_neg hctx]
        by_cases hm : st.m + 1 = FAR_LIST
        · rw [if_pos hm]
          refine ⟨[i], rfl, rfl, ?_, by simp only [List.length_singleton]; omega, ?_, ?_, ?_⟩
          · simp only [List.foldl_cons, List.foldl_nil, hbest]
          · rw [himp]; simp only [improvements]; omega
          · simp only; omega
          · simp only; omega
        · rw [if_neg hm]
          obtain ⟨new, e1, e2, e3, e4, e5, e6, e7⟩ := ih (lznext i)
            { dpos := st.dpos, m := st.m + 1, n := st.n, examined := st.examined ++ [i] }
            (by simp only; omega) (by simp only; omega) (by simp only; omega)
            (by simp only; omega)
          refine ⟨i :: new, ?_, ?_, ?_, ?_, ?_, e6, e7⟩
          · rw [e1]; simp only [List.append_assoc, List.singleton_append]
          · simp only [List.length_cons, chain_walk, e2]
          · rw [e3]; simp only [List.foldl_cons, hbest]
          · simp only [List.length_cons] at e4 ⊢; omega
          · rw [himp]; simp only at e5; omega

/-! ## The best of a list of entries -/

theorem best_len_ge (w p : Nat → Byte) (pat_cnt avail : Nat) :
    ∀ (cs : List Nat) (d : dpos_t),
      d.len ≤ (cs.foldl (best_step w p pat_cnt avail) d).len := by
  intro cs
  induction cs with
  | nil => intro d; exact Nat.le_refl _
  | cons c cs ih =>
    intro d
    simp only [List.foldl_cons]
    refine Nat.le_trans ?_ (ih _)
    unfold best_step
    split
    · simp only; omega
    · exact Nat.le_refl _

theorem best_len_max (w p : Nat → Byte) (pat_cnt avail : Nat) :
    ∀ (cs : List Nat) (d : dpos_t),
      (cs.foldl (best_step w p pat_cnt avail) d).len
        = (cs.map (match_len w p pat_cnt avail)).foldl max d.len := by
  intro cs
  induction cs with
  | nil => intro d; rfl
  | cons c cs ih =>
    intro d
    simp only [List.foldl_cons, List.map_cons]
    rw [ih]
    congr 1
    unfold best_step
    split
    · simp only; omega
    · omega

theorem best_keep (w p : Nat → Byte) (pat_cnt avail : Nat) :
    ∀ (cs : List Nat) (d : dpos_t),
      (cs.foldl (best_step w p pat_cnt avail) d).len = d.len →
      cs.foldl (best_step w p pat_cnt avail) d = d := by
  intro cs
  induction cs with
  | nil => intro d _; rfl
  | cons c cs ih =>
    intro d h
    simp only [List.foldl_cons] at h ⊢
    have hge := best_len_ge w p pat_cnt avail cs (best_step w p pat_cnt avail d c)
    have hstep : best_step w p pat_cnt avail d c = d := by
      by_cases hlt : d.len < match_len w p pat_cnt avail c
      · have hs : best_step w p pat_cnt avail d c = ⟨c, match_len w p pat_cnt avail c⟩ := by
          unfold best_step; rw [if_pos hlt]
        rw [hs] at hge h
        simp only at hge
        omega
      · unfold best_step; rw [if_neg hlt]
    rw [hstep] at h ⊢
    exact ih d h

/-- The best of a list that beats the candidate before it is the first entry
of the list that attains the final length. -/
theorem best_first (w p : Nat → Byte) (pat_cnt avail : Nat) :
    ∀ (cs : List Nat) (d : dpos_t),
      d.len < (cs.foldl (best_step w p pat_cnt avail) d).len →
      ∃ pre post, cs = pre ++ (cs.foldl (best_step w p pat_cnt avail) d).pos :: post ∧
        match_len w p pat_cnt avail (cs.foldl (best_step w p pat_cnt avail) d).pos
          = (cs.foldl (best_step w p pat_cnt avail) d).len ∧
        ∀ c, c ∈ pre →
          match_len w p pat_cnt avail c < (cs.foldl (best_step w p pat_cnt avail) d).len := by
  intro cs
  induction cs with
  | nil => intro d h; simp only [List.foldl_nil] at h; omega
  | cons c cs ih =>
    intro d h
    simp only [List.foldl_cons] at h ⊢
    have hge := best_len_ge w p pat_cnt avail cs (best_step w p pat_cnt avail d c)
    have hmc : match_len w p pat_cnt avail c ≤ (best_step w p pat_cnt avail d c).len := by
      unfold best_step
      split
      · exact Nat.le_refl _
      · omega
    by_cases hlt : (best_step w p pat_cnt avail d c).len
        < (cs.foldl (best_step w p pat_cnt avail) (best_step w p pat_cnt avail d c)).len
    · obtain ⟨pre, post, e1, e2, e3⟩ := ih _ hlt
      refine ⟨c :: pre, post, by rw [List.cons_append, ← e1], e2, ?_⟩
      intro x hx
      rcases List.mem_cons.mp hx with hxc | hxp
      · rw [hxc]; omega
      · exact e3 x hxp
    · have hkeep := best_keep w p pat_cnt avail cs (best_step w p pat_cnt avail d c) (by omega)
      rw [hkeep] at h ⊢
      have hs : best_step w p pat_cnt avail d c = ⟨c, match_len w p pat_cnt avail c⟩ := by
        by_cases hn : d.len < match_len w p pat_cnt avail c
        · unfold best_step; rw [if_pos hn]
        · have hd : best_step w p pat_cnt avail d c = d := by
            unfold best_step; rw [if_neg hn]
          rw [hd] at h
          omega
      rw [hs]
      exact ⟨[], cs, rfl, rfl, fun x hx => absurd hx (List.not_mem_nil x)⟩

theorem best_pos_mem (w p : Nat → Byte) (pat_cnt avail : Nat) :
    ∀ (cs : List Nat) (d : dpos_t),
      (cs.foldl (best_step w p pat_cnt avail) d).pos = d.pos ∨
      (cs.foldl (best_step w p pat_cnt avail) d).pos ∈ cs := by
  intro cs
  induction cs with
  | nil => intro d; exact Or.inl rfl
  | cons c cs ih =>
    intro d
    simp only [List.foldl_cons]
    rcases ih (best_step w p pat_cnt avail d c) with h | h
    · rw [h]
      unfold best_step
      split
      · exact Or.inr (List.mem_cons_self _ _)
      · exact Or.inl rfl
    · exact Or.inr (List.mem_cons_of_mem _ h)

/-- The run of `search`: what it examines, what it returns and its counters,
for the available length `buf_cnt` read as a natural number. -/
theorem searchRun_run (w p : Nat → Byte) (pat_cnt : Nat) (buf_cnt : Int)
    (lzhash lznext : Nat → Option Nat) :
    chain_walk lznext (searchRun w p pat_cnt buf_cnt lzhash lznext).examined.length
        (lzhash (hash p pat_cnt PAT_MASK WIN_MASK))
      = (searchRun w p pat_cnt buf_cnt lzhash lznext).examined ∧
    (searchRun w p pat_cnt buf_cnt lzhash lznext).dpos
      = (searchRun w p pat_cnt buf_cnt lzhash lznext).examined.foldl
          (best_step w p pat_cnt buf_cnt.toNat) ⟨0, 0⟩ ∧
    (searchRun w p pat_cnt buf_cnt lzhash lznext).examined.length ≤ FAR_LIST ∧
    improvements w p pat_cnt buf_cnt.toNat ⟨0, 0⟩
      (searchRun w p pat_cnt buf_cnt lzhash lznext).examined ≤ NMATCH ∧
    (searchRun w p pat_cnt buf_cnt lzhash lznext).n ≤ NMATCH ∧
    (searchRun w p pat_cnt buf_cnt lzhash lznext).m ≤ FAR_LIST := by
  unfold searchRun
  by_cases hb : buf_cnt > 1
  · simp only [hb, if_true]
    have hcast : ((buf_cnt.toNat : Nat) : Int) = buf_cnt := Int.toNat_of_nonneg (by omega)
    obtain ⟨new, e1, e2, e3, e4, e5, e6, e7⟩ := searchLoop_run w p pat_cnt buf_cnt.toNat lznext
      FAR_LIST (lzhash (hash p pat_cnt PAT_MASK WIN_MASK)) ⟨⟨0, 0⟩, 0, 0, []⟩
      (by simp only; omega) (by decide) (by simp only; omega) (by decide)
    rw [hcast] at e1 e3 e6 e7
    simp only [List.nil_append] at e1
    rw [e1]
    refine ⟨e2, e3, by simp only at e4; omega, by simp only at e5; omega, e6, e7⟩
  · simp only [hb, if_false]
    exact ⟨rfl, rfl, by decide, by simp [improvements], by decide, by decide⟩

theorem chain_walk_none (lznext : Nat → Option Nat) (n : Nat) :
    chain_walk lznext n none = [] := by
  cases n <;> rfl

/-- C11. `search` returns the best examined candidate: with `mlen(c)` the
largest `L ≤ avail` at which the window from `c` agrees with the lookahead,
the entries examined are the first entries of the chain of the bucket, in
chain order; the length returned is the maximum of `mlen` over them (0 for an
empty chain); the candidate returned is the fold that replaces the best by an
entry only when that entry is strictly longer, so when the length is positive
the position is the first examined entry that attains it; and an entry that
passes the context check is strictly longer than the best before it. -/
theorem search_best_examined (w p : Nat → Byte) (pat_cnt : Nat) (buf_cnt : Int)
    (lzhash lznext : Nat → Option Nat) :
    (∀ c, match_len w p pat_cnt buf_cnt.toNat c ≤ buf_cnt.toNat ∧
      Agree w p pat_cnt c (match_len w p pat_cnt buf_cnt.toNat c) ∧
      ∀ L, L ≤ buf_cnt.toNat → Agree w p pat_cnt c L →
        L ≤ match_len w p pat_cnt buf_cnt.toNat c) ∧
    chain_walk lznext (searchRun w p pat_cnt buf_cnt lzhash lznext).examined.length
        (lzhash (hash p pat_cnt PAT_MASK WIN_MASK))
      = (searchRun w p pat_cnt buf_cnt lzhash lznext).examined ∧
    (search w p pat_cnt buf_cnt lzhash lznext).len
      = ((searchRun w p pat_cnt buf_cnt lzhash lznext).examined.map
          (match_len w p pat_cnt buf_cnt.toNat)).foldl max 0 ∧
    (lzhash (hash p pat_cnt PAT_MASK WIN_MASK) = LZ_NULL →
      (search w p pat_cnt buf_cnt lzhash lznext).len = 0) ∧
    search w p pat_cnt buf_cnt lzhash lznext
      = (searchRun w p pat_cnt buf_cnt lzhash lznext).examined.foldl
          (best_step w p pat_cnt buf_cnt.toNat) ⟨0, 0⟩ ∧
    (0 < (search w p pat_cnt buf_cnt lzhash lznext).len →
      ∃ pre post, (searchRun w p pat_cnt buf_cnt lzhash lznext).examined
          = pre ++ (search w p pat_cnt buf_cnt lzhash lznext).pos :: post ∧
        match_len w p pat_cnt buf_cnt.toNat (search w p pat_cnt buf_cnt lzhash lznext).pos
          = (search w p pat_cnt buf_cnt lzhash lznext).len ∧
        ∀ c, c ∈ pre → match_len w p pat_cnt buf_cnt.toNat c
          < (search w p pat_cnt buf_cnt lzhash lznext).len) ∧
    (∀ len i, contextScan w p i ((pat_cnt + len) &&& PAT_MASK) len = true →
      len < suffixLen w p i pat_cnt buf_cnt len) := by
  obtain ⟨h1, h2, _⟩ := searchRun_run w p pat_cnt buf_cnt lzhash lznext
  have hs : search w p pat_cnt buf_cnt lzhash lznext
      = (searchRun w p pat_cnt buf_cnt lzhash lznext).dpos := rfl
  have hlen : (search w p pat_cnt buf_cnt lzhash lznext).len
      = ((searchRun w p pat_cnt buf_cnt lzhash lznext).examined.map
          (match_len w p pat_cnt buf_cnt.toNat)).foldl max 0 := by
    rw [hs, h2]
    exact best_len_max w p pat_cnt buf_cnt.toNat _ ⟨0, 0⟩
  refine ⟨?_, h1, hlen, ?_, by rw [hs]; exact h2, ?_, ?_⟩
  · intro c
    exact ⟨match_len_le w p pat_cnt _ c, match_len_agree w p pat_cnt _ c,
      fun L hL hag => match_len_largest w p pat_cnt _ c L hL hag⟩
  · intro hnull
    rw [hnull, chain_walk_none] at h1
    rw [hlen, ← h1]
    rfl
  · intro hpos
    rw [hs, h2] at hpos ⊢
    exact best_first w p pat_cnt buf_cnt.toNat _ ⟨0, 0⟩ hpos
  · intro len i _
    exact suffixLen_gt w p i pat_cnt buf_cnt len

/-- C12. Bounded search: whatever `lzhash` and `lznext` hold, a chain that
loops or never ends included, a call of `search` examines at most
`FAR_LIST = 4096` chain entries and records at most `NMATCH = 196`
improvements; its counters `m` and `n` end within these limits; and the loop
ends by its own exits: a larger bound on the iterations gives the same
run. -/
theorem search_bounded (w p : Nat → Byte) (pat_cnt : Nat) (buf_cnt : Int)
    (lzhash lznext : Nat → Option Nat) :
    (searchRun w p pat_cnt buf_cnt lzhash lznext).examined.length ≤ FAR_LIST ∧
    FAR_LIST = 4096 ∧
    improvements w p pat_cnt buf_cnt.toNat ⟨0, 0⟩
      (searchRun w p pat_cnt buf_cnt lzhash lznext).examined ≤ NMATCH ∧
    NMATCH = 196 ∧
    (searchRun w p pat_cnt buf_cnt lzhash lznext).m ≤ FAR_LIST ∧
    (searchRun w p pat_cnt buf_cnt lzhash lznext).n ≤ NMATCH ∧
    ∀ extra cur, searchLoop w p pat_cnt buf_cnt lznext (FAR_LIST + extra) cur ⟨⟨0, 0⟩, 0, 0, []⟩
      = searchLoop w p pat_cnt buf_cnt lznext FAR_LIST cur ⟨⟨0, 0⟩, 0, 0, []⟩ := by
  obtain ⟨_, _, h3, h4, h5, h6⟩ := searchRun_run w p pat_cnt buf_cnt lzhash lznext
  refine ⟨h3, rfl, h4, rfl, h6, h5, ?_⟩
  intro extra cur
  exact searchLoop_fuel w p pat_cnt buf_cnt lznext _ _ cur _ (by decide)
    (by simp only; omega) (by simp only; omega)

/-! ## The folded unary code as a bit string -/

theorem stream_bits_ones (n : Nat) (es : List Emit) (bs : List Nat)
    (h : stream_bits es = some bs) :
    stream_bits (List.replicate n (Emit.bit 1) ++ es) = some (List.replicate n 1 ++ bs) := by
  induction n with
  | zero => simpa using h
  | succ n ih =>
    show stream_bits (Emit.bit 1 :: (List.replicate n (Emit.bit 1) ++ es)) = _
    rw [stream_bits, ih]
    rfl

theorem field_bits_fold (r : Nat) (hr : r < 4) :
    field_bits (r <<< 1) 3 = [r / 2, r % 2, 0] := by
  have h : r = 0 ∨ r = 1 ∨ r = 2 ∨ r = 3 := by omega
  rcases h with h | h | h | h <;> subst h <;> rfl

theorem folded_stream_eq (code : Nat) :
    folded_stream code = some (List.replicate (code / 4) 1 ++ [code % 4 / 2, code % 4 % 2, 0]) := by
  unfold folded_stream
  have hlen : (⟨0, code + (MIN_LEN + 1)⟩ : dpos_t).len > MIN_LEN := by
    simp only [MIN_LEN]; omega
  rw [put_length_pOUT, if_pos hlen, if_neg (by decide)]
  have hcode : (⟨0, code + (MIN_LEN + 1)⟩ : dpos_t).len - (MIN_LEN + 1) = code := by
    simp only [MIN_LEN]; omega
  rw [hcode]
  have hp : ({ init [] with large_text := 1 } : Session).pOUT = [] := rfl
  rw [hp, List.nil_append]
  have hq : code >>> MFOLD = code / 4 := by
    simp only [MFOLD, Nat.shiftRight_eq_div_pow]
  have hm : code % (1 <<< MFOLD) = code % 4 := rfl
  rw [hq, hm]
  refine stream_bits_ones _ _ _ ?_
  simp only [stream_bits, Emit.bits, MFOLD]
  rw [field_bits_fold _ (Nat.mod_lt _ (by omega))]
  rfl

theorem folded_lsb_first_eq (code : Nat) :
    folded_lsb_first code = List.replicate (code / 4) 1 ++ [0, code % 4 % 2, code % 4 / 2] := by
  unfold folded_lsb_first
  have hq : code >>> MFOLD = code / 4 := by
    simp only [MFOLD, Nat.shiftRight_eq_div_pow]
  have hm : code % (1 <<< MFOLD) = code % 4 := rfl
  rw [hq, hm]
  simp only [MFOLD]
  rw [field_bits_fold _ (Nat.mod_lt _ (by omega))]
  rfl

/-- C13 as the claim words it, at the codes 2 and 4 (matches of length 7 and
9 with the large flag set): `put_codes` hands the sink the field 4 on 3 bits
for the first, and one set bit and the field 0 on 3 bits for the second; with
the 3-bit field most significant bit first these are the bit strings 1,0,0
and 1,0,0,0, and the first is a prefix of the second. -/
theorem folded_code_prefix_clash :
    (2 : Nat) ≠ 4 ∧
      (put_length { init [] with large_text := 1 } ⟨0, 7⟩).pOUT = [Emit.nbits 4 3] ∧
      (put_length { init [] with large_text := 1 } ⟨0, 9⟩).pOUT
        = [Emit.bit 1, Emit.nbits 0 3] ∧
      folded_stream 2 = some [1, 0, 0] ∧ folded_stream 4 = some [1, 0, 0, 0] ∧
      [1, 0, 0] <+: [1, 0, 0, 0] := by
  refine ⟨by decide, ?_, ?_, ?_, ?_, by decide⟩
  · rw [put_length_pOUT]; rfl
  · rw [put_length_pOUT]; rfl
  · rw [folded_stream_eq]; rfl
  · rw [folded_stream_eq]; rfl

theorem ones_zero_prefix :
    ∀ (qa qb : Nat) (u v : List Nat), u.length = v.length →
      (List.replicate qa 1 ++ 0 :: u) <+: (List.replicate qb 1 ++ 0 :: v) → qa = qb ∧ u = v := by
  intro qa
  induction qa with
  | zero =>
    intro qb u v hlen h
    cases qb with
    | zero =>
      simp only [List.replicate_zero, List.nil_append] at h
      have := h.eq_of_length (by simp only [List.length_cons, hlen])
      simp only [List.cons.injEq, true_and] at this
      exact ⟨rfl, this⟩
    | succ qb =>
      simp only [List.replicate_zero, List.nil_append, List.replicate_succ, List.cons_append]
        at h
      have := (List.cons_prefix_cons.mp h).1
      omega
  | succ qa ih =>
    intro qb u v hlen h
    cases qb with
    | zero =>
      simp only [List.replicate_zero, List.nil_append, List.replicate_succ, List.cons_append]
        at h
      have := (List.cons_prefix_cons.mp h).1
      omega
    | succ qb =>
      simp only [List.replicate_succ, List.cons_append] at h
      obtain ⟨e1, e2⟩ := ih qb u v hlen (List.cons_prefix_cons.mp h).2
      exact ⟨by omega, e2⟩

/-- With the 3-bit field least significant bit first, the 0 bit of
`(code mod 4) << 1` ends the run of set bits, and no bit string of a code is
a prefix of the bit string of another code. -/
theorem folded_lsb_first_prefix_free (a b : Nat) (hab : a ≠ b) :
    ¬ folded_lsb_first a <+: folded_lsb_first b := by
  intro h
  rw [folded_lsb_first_eq, folded_lsb_first_eq] at h
  obtain ⟨e1, e2⟩ := ones_zero_prefix _ _ _ _ (by simp) h
  simp only [List.cons.injEq, and_true] at e2
  omega

theorem stream_bits_lsb_ones (n : Nat) (es : List Emit) (bs : List Nat)
    (h : stream_bits_lsb es = some bs) :
    stream_bits_lsb (List.replicate n (Emit.bit 1) ++ es)
      = some (List.replicate n 1 ++ bs) := by
  induction n with
  | zero => simpa using h
  | succ n ih =>
    show stream_bits_lsb (Emit.bit 1 :: (List.replicate n (Emit.bit 1) ++ es)) = _
    rw [stream_bits_lsb, ih]
    rfl

/-- With the fields least significant bit first, the bits `put_codes` writes
for the folded code are the set bits, then the 0 bit of the `<< 1`, then the
two bits of `code mod 4`, low bit first. -/
theorem folded_stream_lsb_eq (code : Nat) :
    folded_stream_lsb code
      = some (List.replicate (code / 4) 1 ++ [0, code % 4 % 2, code % 4 / 2]) := by
  unfold folded_stream_lsb
  have hlen : (⟨0, code + (MIN_LEN + 1)⟩ : dpos_t).len > MIN_LEN := by
    simp only [MIN_LEN]; omega
  rw [put_length_pOUT, if_pos hlen, if_neg (by decide)]
  have hcode : (⟨0, code + (MIN_LEN + 1)⟩ : dpos_t).len - (MIN_LEN + 1) = code := by
    simp only [MIN_LEN]; omega
  rw [hcode]
  have hp : ({ init [] with large_text := 1 } : Session).pOUT = [] := rfl
  rw [hp, List.nil_append]
  have hq : code >>> MFOLD = code / 4 := by
    simp only [MFOLD, Nat.shiftRight_eq_div_pow]
  have hm : code % (1 <<< MFOLD) = code % 4 := rfl
  rw [hq, hm]
  refine stream_bits_lsb_ones _ _ _ ?_
  simp only [stream_bits_lsb, Emit.bits_lsb, MFOLD]
  rw [field_bits_fold _ (Nat.mod_lt _ (by omega))]
  rfl

theorem unfold_code_ones :
    ∀ (q r0 r1 : Nat) (rest : List Nat),
      unfold_code (List.replicate q 1 ++ [0, r0, r1] ++ rest)
        = some (4 * q + (r0 + 2 * r1), rest) := by
  intro q
  induction q with
  | zero => intro r0 r1 rest; simp [unfold_code]
  | succ q ih =>
    intro r0 r1 rest
    show unfold_code (1 :: (List.replicate q 1 ++ [0, r0, r1] ++ rest)) = _
    rw [unfold_code, ih]
    simp only [Option.map_some', Option.some.injEq, Prod.mk.injEq, and_true]
    omega

/-- C13, amended: with the 3-bit field appended least significant bit first,
the folded code of `a` is `a >> 2` set bits, the 0 bit that `(a mod 4) << 1`
supplies, and the two bits of `a mod 4`; for every two distinct codes the bit
string of one is not a prefix of the bit string of the other; and the inverse
(count the set bits up to the first 0 bit, read two bits) gives back the code
and the bits that follow it, whatever follows. -/
theorem folded_code_decodable :
    (∀ a, folded_stream_lsb a
      = some (List.replicate (a >>> MFOLD) 1 ++ [0, a % 4 % 2, a % 4 / 2])) ∧
    (∀ a b sa sb, a ≠ b → folded_stream_lsb a = some sa → folded_stream_lsb b = some sb →
      ¬ sa <+: sb) ∧
    (∀ a sa rest, folded_stream_lsb a = some sa →
      unfold_code (sa ++ rest) = some (a, rest)) := by
  refine ⟨?_, ?_, ?_⟩
  · intro a
    rw [folded_stream_lsb_eq]
    have hq : a >>> MFOLD = a / 4 := by
      simp only [MFOLD, Nat.shiftRight_eq_div_pow]
    rw [hq]
  · intro a b sa sb hab ha hb hpre
    rw [folded_stream_lsb_eq] at ha hb
    have ea := Option.some.inj ha
    have eb := Option.some.inj hb
    rw [← ea, ← eb] at hpre
    obtain ⟨e1, e2⟩ := ones_zero_prefix _ _ _ _ (by simp) hpre
    simp only [List.cons.injEq, and_true] at e2
    omega
  · intro a sa rest ha
    rw [folded_stream_lsb_eq] at ha
    rw [← Option.some.inj ha, unfold_code_ones]
    simp only [Option.some.injEq, Prod.mk.injEq, and_true]
    omega

/-! ## The position of a match -/

theorem field_bits_length (v : Nat) : ∀ n, (field_bits v n).length = n := by
  intro n
  induction n with
  | zero => rfl
  | succ n ih => simp only [field_bits, List.length_cons, ih]

theorem bits_value_field_bits (v : Nat) : ∀ n, bits_value (field_bits v n) = v % 2 ^ n := by
  intro n
  induction n with
  | zero => simp only [field_bits, bits_value, Nat.pow_zero, Nat.mod_one]
  | succ n ih =>
    simp only [field_bits, bits_value, field_bits_length, ih, Nat.shiftRight_eq_div_pow]
    rw [Nat.mod_pow_succ, Nat.mul_comm]
    omega

theorem walk_subset_seg (ix : LzIndex) :
    ∀ (l : List Nat) (pv cur : Option Nat), Seg ix pv cur l →
      ∀ n x, x ∈ chain_walk ix.lznext n cur → x ∈ l := by
  intro l
  induction l with
  | nil =>
    intro pv cur h n x hx
    have hc : cur = none := h
    rw [hc, chain_walk_none] at hx
    exact absurd hx (List.not_mem_nil x)
  | cons y ys ih =>
    intro pv cur h n x hx
    obtain ⟨h1, _, h3⟩ := h
    subst h1
    cases n with
    | zero => exact absurd hx (List.not_mem_nil x)
    | succ n =>
      simp only [chain_walk, List.mem_cons] at hx
      rcases hx with hxy | hxs
      · rw [hxy]; exact List.mem_cons_self _ _
      · exact List.mem_cons_of_mem _ (ih _ _ h3 n x hxs)

/-- In a good index every entry reached from a bucket head is a window
position. -/
theorem good_walk_lt (win_buf : Nat → Byte) (ix : LzIndex)
    (hg : Good (Slots win_buf 0 0 0) ix) (b n x : Nat)
    (hx : x ∈ chain_walk ix.lznext n (ix.lzhash b)) : x < 131072 := by
  obtain ⟨ch, hrep, hcnt⟩ := hg
  have hmem := walk_subset_seg ix _ _ _ (hrep b) n x hx
  exact ((cnt_mem _ ch hcnt b x).mp hmem).1

theorem search_pos_lt (win_buf p : Nat → Byte) (pat_cnt : Nat) (buf_cnt : Int) (ix : LzIndex)
    (hg : Good (Slots win_buf 0 0 0) ix) :
    (search win_buf p pat_cnt buf_cnt ix.lzhash ix.lznext).pos < 131072 := by
  obtain ⟨h1, h2, _⟩ := searchRun_run win_buf p pat_cnt buf_cnt ix.lzhash ix.lznext
  have hs : search win_buf p pat_cnt buf_cnt ix.lzhash ix.lznext
      = (searchRun win_buf p pat_cnt buf_cnt ix.lzhash ix.lznext).dpos := rfl
  rw [hs, h2]
  rcases best_pos_mem win_buf p pat_cnt buf_cnt.toNat
    (searchRun win_buf p pat_cnt buf_cnt ix.lzhash ix.lznext).examined ⟨0, 0⟩ with h | h
  · rw [h]; decide
  · have hmem : (List.foldl (best_step win_buf p pat_cnt buf_cnt.toNat) ⟨0, 0⟩
        (searchRun win_buf p pat_cnt buf_cnt ix.lzhash ix.lznext).examined).pos
        ∈ chain_walk ix.lznext
          (searchRun win_buf p pat_cnt buf_cnt ix.lzhash ix.lznext).examined.length
          (ix.lzhash (hash p pat_cnt PAT_MASK WIN_MASK)) := by
      rw [h1]; exact h
    exact good_walk_lt win_buf ix hg _ _ _ hmem

/-- C15. The position field is exact: in every run, the position `search`
returns at any iteration is below `W = 2^17`, so the 17 bits of the field
written by `put_nbits` stand for the position itself; every match unit has
such a position; a match of length `MIN_LEN` is sent as the selector 0,1 and
the position field and nothing else, and every match ends with the position
field. -/
theorem position_field_exact (file : List Byte) :
    ∃ r, compress file = some r ∧ ∀ it, it ∈ r.iters →
      it.found.pos < WIN_BUFSIZE ∧
      it.found.pos < 2 ^ NUM_POS_BITS ∧
      bits_value (field_bits it.found.pos NUM_POS_BITS) = it.found.pos ∧
      (∀ pos len, it.unit = CodeUnit.copy pos len → pos < WIN_BUFSIZE) ∧
      (it.found.len = MIN_LEN →
        it.post.pOUT = it.pre.pOUT
          ++ [Emit.bit 0, Emit.bit 1, Emit.nbits it.found.pos NUM_POS_BITS]) ∧
      (MIN_LEN ≤ it.found.len →
        ∃ mid, it.post.pOUT = it.pre.pOUT ++ mid ++ [Emit.nbits it.found.pos NUM_POS_BITS]) := by
  obtain ⟨r, hr, _, htr⟩ := compress_trace file
  obtain ⟨hall, _⟩ := Trace_inv file r.iters (init file) 0 r.final htr (Inv_init file)
  have hgood := Trace_good file r.iters (init file) 0 r.final htr (Inv_init file) (init_good file)
  refine ⟨r, hr, ?_⟩
  intro it hit
  obtain ⟨_, _, hiter, _⟩ := hall it hit
  obtain ⟨hg, _⟩ := hgood it hit
  have hfound : it.found = search it.pre.win_buf it.pre.pattern it.pre.pat_cnt it.pre.buf_cnt
      it.pre.lz.lzhash it.pre.lz.lznext := by
    rw [hiter]; rfl
  have hpos : it.found.pos < 131072 := by
    rw [hfound]
    exact search_pos_lt _ _ _ _ _ hg
  have hem := iteration_emits it.pre it.consumed
  rw [← hiter] at hem
  refine ⟨hpos, hpos, ?_, ?_, ?_, ?_⟩
  · rw [bits_value_field_bits]
    exact Nat.mod_eq_of_lt hpos
  · intro pos len hu
    rw [hiter] at hu
    obtain ⟨hf, _⟩ := copy_unit_len _ _ _ _ hu
    rw [← hiter] at hf
    rw [hf] at hpos
    exact hpos
  · intro h4
    have h1 : ¬ it.found.len > MIN_LEN := by omega
    have h3 : it.found.len ≥ MIN_LEN := by omega
    rw [hem, if_neg h1, if_pos h4, if_neg h1, if_pos h3]
    rfl
  · intro h3
    rw [hem, if_pos h3]
    exact ⟨_, (List.append_assoc _ _ _).symm⟩

/-! ## A concrete run -/

theorem index_upto_step (n : Nat) :
    insert_lznode
      { index_upto n with
          lznext := Function.update (index_upto n).lznext n LZ_NULL
          lzprev := Function.update (index_upto n).lzprev n LZ_NULL } 0 n
      = index_upto (n + 1) := by
  cases n with
  | zero =>
    simp only [insert_lznode, index_upto, Nat.lt_irrefl, and_false, if_false]
    refine congr (congr (congrArg LzIndex.mk ?_) ?_) ?_
    · funext h
      simp only [Function.update_apply]
      split <;> simp_all
    · funext i
      simp only [Function.update_apply]
      split <;> simp_all
    · funext i
      simp only [Function.update_apply]
      split <;> simp_all
  | succ k =>
    simp only [insert_lznode, index_upto, Nat.zero_lt_succ, and_self, if_true]
    refine congr (congr (congrArg LzIndex.mk ?_) ?_) ?_
    · funext h
      simp only [Function.update_apply]
      split <;> simp_all
    · funext i
      simp only [Function.update_apply, Nat.add_sub_cancel]
      by_cases hi : i = k + 1
      · subst hi; simp
      · simp only [hi, if_false]
        by_cases h2 : 0 < i ∧ i < k + 1
        · rw [if_pos h2, if_pos ⟨h2.1, by omega⟩]
        · rw [if_neg h2, if_neg (by omega)]
    · funext i
      simp only [Function.update_apply, Nat.add_sub_cancel]
      by_cases hi : i = k
      · subst hi; simp
      · simp only [hi, if_false]
        by_cases h1 : i = k + 1
        · subst h1; simp
        · simp only [h1, if_false]
          by_cases h2 : i + 1 < k + 1
          · rw [if_pos h2, if_pos (by omega)]
          · rw [if_neg h2, if_neg (by omega)]

theorem init_index_closed :
    init_index (fun _ => 0) alloc_lzhash = index_upto WIN_BUFSIZE := by
  have key : ∀ n,
      (List.range n).foldl
        (fun ix i =>
          insert_lznode
            { ix with lznext := Function.update ix.lznext i LZ_NULL
                      lzprev := Function.update ix.lzprev i LZ_NULL }
            (hash (fun _ => (0 : Byte)) i WIN_MASK WIN_MASK) i) alloc_lzhash
        = index_upto n := by
    intro n
    induction n with
    | zero =>
      simp only [List.range_zero, List.foldl_nil, alloc_lzhash, index_upto, Nat.lt_irrefl,
        and_false, if_false, Nat.not_lt_zero]
    | succ j ih =>
      rw [List.range_succ, List.foldl_append, List.foldl_cons, List.foldl_nil, hash_zero, ih]
      exact index_upto_step j
  exact key WIN_BUFSIZE

theorem init_closed (file : List Byte) :
    init file =
      { win_buf := fun _ => 0
        pattern := fun j => (file.take PAT_BUFSIZE).getD j 0
        win_cnt := 0
        pat_cnt := 0
        buf_cnt := ((file.take PAT_BUFSIZE).length : Int)
        lz := index_upto WIN_BUFSIZE
        large_text := large_text_of file.length
        len_CODE := 0
        mtf_table := alloc_mtf
        gIN := file.drop PAT_BUFSIZE
        pOUT := [] } := by
  simp only [init, init_index_closed]

theorem abcd_run :
    (compress [97, 98, 99, 100, 97, 98, 99, 100, 0, 0, 0, 0]).map
        (fun r => r.iters.map Iter.summary)
      = some [⟨CodeUnit.literal 97, 0, 0, [0, 0, 0, 0], [0, 0, 0, 0]⟩,
          ⟨CodeUnit.literal 98, 1, 1, [0, 0, 0, 0], [0, 0, 0, 0]⟩,
          ⟨CodeUnit.literal 99, 2, 2, [0, 0, 0, 0], [0, 0, 0, 0]⟩,
          ⟨CodeUnit.literal 100, 3, 3, [0, 0, 0, 0], [0, 0, 0, 0]⟩,
          ⟨CodeUnit.copy 0 8, 4, 4, [0, 0, 0, 0], [97, 98, 99, 100]⟩] := by
  rw [compress, init_closed]
  decide!

/-- C18. Matches are valid against the pre-slide window only: for the 12
bytes a,b,c,d,a,b,c,d,0,0,0,0 the compressor sends four literals and then the
match (position 0, length 8) with the cursor at 4; the positions 4 to 7 of
its source range are at or after the cursor, hold 0 when the match is chosen
and are overwritten with a,b,c,d by the same unit; the reference decoder,
which reads the 8 bytes before it writes, gives back the input; copying the
match byte by byte while writing at the cursor gives a,b,c,d,a,b,c,d,a,b,c,d,
which is not the input. -/
theorem overlap_copy_differs :
    ∃ r, compress [97, 98, 99, 100, 97, 98, 99, 100, 0, 0, 0, 0] = some r ∧
      units r = [CodeUnit.literal 97, CodeUnit.literal 98, CodeUnit.literal 99,
        CodeUnit.literal 100, CodeUnit.copy 0 8] ∧
      (∃ it, it ∈ r.iters ∧ it.unit = CodeUnit.copy 0 8 ∧ it.consumed = 4 ∧
        it.pre.win_cnt = 4 ∧ it.pre.win_cnt < 0 + 8 ∧
        [it.pre.win_buf 4, it.pre.win_buf 5, it.pre.win_buf 6, it.pre.win_buf 7]
          = [0, 0, 0, 0] ∧
        [it.post.win_buf 4, it.post.win_buf 5, it.post.win_buf 6, it.post.win_buf 7]
          = [97, 98, 99, 100]) ∧
      (ref_decode (units r)).output = [97, 98, 99, 100, 97, 98, 99, 100, 0, 0, 0, 0] ∧
      (overlap_decode (units r)).output
        = [97, 98, 99, 100, 97, 98, 99, 100, 97, 98, 99, 100] ∧
      (overlap_decode (units r)).output ≠ [97, 98, 99, 100, 97, 98, 99, 100, 0, 0, 0, 0] := by
  have hrun := abcd_run
  cases hc : compress [97, 98, 99, 100, 97, 98, 99, 100, 0, 0, 0, 0] with
  | none =>
    rw [hc] at hrun
    exact absurd hrun (by simp)
  | some r =>
    rw [hc] at hrun
    simp only [Option.map_some', Option.some.injEq] at hrun
    have hunits : units r = [CodeUnit.literal 97, CodeUnit.literal 98, CodeUnit.literal 99,
        CodeUnit.literal 100, CodeUnit.copy 0 8] := by
      have h2 := congrArg (List.map Summary.unit) hrun
      simp only [List.map_map] at h2
      exact h2
    have hmem : (⟨CodeUnit.copy 0 8, 4, 4, [0, 0, 0, 0], [97, 98, 99, 100]⟩ : Summary)
        ∈ r.iters.map Iter.summary := by
      rw [hrun]; simp
    obtain ⟨it, hit, hsum⟩ := List.mem_map.mp hmem
    refine ⟨r, rfl, hunits, ⟨it, hit, ?_, ?_, ?_, ?_, ?_, ?_⟩, ?_, ?_, ?_⟩
    · exact congrArg Summary.unit hsum
    · exact congrArg Summary.consumed hsum
    · exact congrArg Summary.cursor hsum
    · have := congrArg Summary.cursor hsum
      have h4 : it.pre.win_cnt = 4 := this
      omega
    · exact congrArg Summary.before hsum
    · exact congrArg Summary.after hsum
    · rw [hunits]; decide!
    · rw [hunits]; decide!
    · rw [hunits]; decide!

end LZUF
